import Mathlib

/-!
# helis: a shallow embedding of `helis.c`

Bytes (`char`) are natural numbers below 256; a C buffer is a `List Nat`
without its terminating NUL, and reading the element just past the end
yields that NUL (`List.getD _ _ 0`).  C `int`s are `Int`; the row sizes stay
far below `INT_MAX`, so no arithmetic wraps.  The fields `size` and `rsize`
of a row are the lengths of `chars` and `render`.  The array `E.row` is the
list of its rows; `E.numrows` is a field of its own, because
`editorInsertRow` calls `editorUpdateRow` before it increments `E.numrows`.
The global `E` and the static variables of `editorFindCallback` are passed
and returned explicitly, and a pointer `&E.row[k]` is the index `k`.

Loops and recursions of the source are functions with a bound on their
iterations; the section "The bounded loops never run out of iterations"
proves that the bounds used are never reached before the loop ends.
-/

namespace Helis

/-! ## Constants -/

def HELIS_TAB_STOP : Nat := 4

def BACKSPACE : Int := 127
def ARROW_LEFT : Int := 1000
def ARROW_RIGHT : Int := 1001
def ARROW_UP : Int := 1002
def ARROW_DOWN : Int := 1003
def DEL_KEY : Int := 1004
def HOME_KEY : Int := 1005
def END_KEY : Int := 1006
def PAGE_UP : Int := 1007
def PAGE_DOWN : Int := 1008

def HL_NORMAL : Nat := 0
def HL_COMMENT : Nat := 1
def HL_MLCOMMENT : Nat := 2
def HL_KEYWORD1 : Nat := 3
def HL_KEYWORD2 : Nat := 4
def HL_STRING : Nat := 5
def HL_NUMBER : Nat := 6
def HL_MATCH : Nat := 7

def HL_HIGHLIGHT_NUMBERS : Nat := 1
def HL_HIGHLIGHT_STRINGS : Nat := 2

/-- The largest and the smallest value of an `int`. -/
def INT_MAX : Int := 2147483647
def INT_MIN : Int := -2147483648

/-- The value that an `int` holds after a computation with the mathematical
result `x`: the result modulo `2^32`, in the range of `int`. -/
def wrapInt (x : Int) : Int := (x + 2147483648) % 4294967296 - 2147483648

/-! ## Data -/

/-- The bytes of a string literal of the source. -/
def bytes (s : String) : List Nat := s.toList.map Char.toNat

/-- The record `struct editorSyntax`; an absent (`NULL`) marker is `none`. -/
structure editorSyntax where
  filetype : List Nat
  filematch : List (List Nat)
  keywords : List (List Nat)
  singleline_comment_start : Option (List Nat)
  multiline_comment_start : Option (List Nat)
  multiline_comment_end : Option (List Nat)
  flags : Nat
deriving DecidableEq

/-- The enumeration `enum editorMode`. -/
inductive editorMode where
  | Normal
  | Visual
  | Insert
  | Cmd
deriving DecidableEq

/-- The record `struct erow`: `size` is the length of `chars`, `rsize` the
length of `render`. -/
structure erow where
  idx : Int
  chars : List Nat
  render : List Nat
  hl : List Nat
  hl_open_comment : Bool
deriving DecidableEq

instance : Inhabited erow := ⟨⟨0, [], [], [], false⟩⟩

/-- The field `row->size`. -/
def erow.size (row : erow) : Int := row.chars.length

/-- The field `row->rsize`. -/
def erow.rsize (row : erow) : Int := row.render.length

/-- The record `struct editorConfig` (the global `E`), without the status
message and the terminal attributes; `syn` is the field `E.syntax`. -/
structure editorConfig where
  cx : Int
  cy : Int
  rx : Int
  rowoff : Int
  coloff : Int
  screenrows : Int
  screencols : Int
  numrows : Int
  row : List erow
  dirty : Int
  filename : Option (List Nat)
  syn : Option editorSyntax
  mode : editorMode
deriving DecidableEq

def C_HL_extensions : List (List Nat) := [bytes ".c", bytes ".h", bytes ".cpp"]

def C_HL_keywords : List (List Nat) :=
  [bytes "switch", bytes "if", bytes "while", bytes "for", bytes "break",
   bytes "continue", bytes "return", bytes "else", bytes "struct", bytes "union",
   bytes "typedef", bytes "static", bytes "enum", bytes "class", bytes "case",
   bytes "int|", bytes "long|", bytes "double|", bytes "float|", bytes "char|",
   bytes "unsigned|", bytes "signed|", bytes "void|"]

/-- The single entry of `HLDB`, the ruleset of the file type "c". -/
def HLDB_c : editorSyntax :=
  { filetype := bytes "c", filematch := C_HL_extensions, keywords := C_HL_keywords,
    singleline_comment_start := some (bytes "//"),
    multiline_comment_start := some (bytes "/*"),
    multiline_comment_end := some (bytes "*/"),
    flags := HL_HIGHLIGHT_NUMBERS ||| HL_HIGHLIGHT_STRINGS }

/-- The table `HLDB`. -/
def HLDB : List editorSyntax := [HLDB_c]

/-! ## Row functions: column conversion -/

/-- One iteration of the loop body shared by `editorRowCxToRx` and
`editorRowRxToCx`: a tab first moves `rx` to the column before the next tab
stop, then `rx++`. -/
def rxAdvance (row : erow) (rx j : Nat) : Nat :=
  (if row.chars.getD j 0 = 9 then rx + ((HELIS_TAB_STOP - 1) - rx % HELIS_TAB_STOP) else rx) + 1

/-- The loop `for (j = 0; j < cx; j++)` of `editorRowCxToRx`, started with
`rx = 0`. -/
def cxToRxLoop (row : erow) (cx : Nat) : Nat :=
  (List.range cx).foldl (fun rx j => rxAdvance row rx j) 0

/-- The function `editorRowCxToRx`; a negative `cx` runs no iteration. -/
def editorRowCxToRx (row : erow) (cx : Int) : Int := (cxToRxLoop row cx.toNat : Nat)

/-- The loop of `editorRowRxToCx`, from column `cx` with `cur_rx`; it runs at
most `row->size` times. -/
def rxToCxLoop (row : erow) (rx : Int) : Nat → Nat → Nat → Nat
  | 0, cx, _ => cx
  | fuel + 1, cx, cur_rx =>
    if (cx : Int) < row.size then
      let cur := rxAdvance row cur_rx cx
      if (cur : Int) > rx then cx else rxToCxLoop row rx fuel (cx + 1) cur
    else cx

/-- The function `editorRowRxToCx`. -/
def editorRowRxToCx (row : erow) (rx : Int) : Int :=
  (rxToCxLoop row rx row.chars.length 0 0 : Nat)

/-! ## Syntax highlighting -/

/-- The predicate `isspace` of the C locale. -/
def isspace (c : Nat) : Bool := c = 32 || (9 ≤ c && c ≤ 13)

/-- The predicate `isdigit`. -/
def isdigit (c : Nat) : Bool := 48 ≤ c && c ≤ 57

/-- The test `strchr(s, c) != NULL`; the terminating NUL belongs to `s`. -/
def strchr (s : List Nat) (c : Nat) : Bool := (s ++ [0]).contains c

/-- The function `is_separator`. -/
def is_separator (c : Nat) : Bool :=
  isspace c || c == 0 || strchr (bytes ",.()+-/*=~%<>[];") c

/-- The test `strncmp(a, b, n) == 0` on buffers that are followed by a NUL:
the comparison stops at the first difference, at a NUL, or after `n` bytes. -/
def strncmpEq : List Nat → List Nat → Nat → Bool
  | _, _, 0 => true
  | a, b, n + 1 =>
    if a.headD 0 ≠ b.headD 0 then false
    else if a.headD 0 = 0 then true
    else strncmpEq a.tail b.tail n

/-- The call `memset(&buf[i], v, n)`; a write past the end of `buf` makes the
result longer than `buf`. -/
def memset (buf : List Nat) (i v n : Nat) : List Nat :=
  buf.take i ++ List.replicate n v ++ buf.drop (i + n)

/-- The C string held in a buffer: the bytes before the first NUL. -/
def cstr (s : List Nat) : List Nat := s.takeWhile (fun c => c ≠ 0)

/-- The library function `strlen`. -/
def strlen (s : List Nat) : Nat := (cstr s).length

/-- The search of `strstr` in the remaining haystack, `p` bytes in. -/
def strstrFrom (needle : List Nat) : List Nat → Nat → Option Nat
  | [], p => if needle = [] then some p else none
  | c :: rest, p =>
    if needle <+: c :: rest then some p else strstrFrom needle rest (p + 1)

/-- The library function `strstr(hay, needle)`, as the offset of the first
occurrence of the C string `needle` in the C string `hay`. -/
def strstr (hay needle : List Nat) : Option Nat :=
  strstrFrom (cstr needle) (cstr hay) 0

/-- The local variables of the loop of `editorUpdateSyntax`, with the array
`row->hl`. -/
structure HlState where
  i : Nat
  hl : List Nat
  prev_sep : Bool
  in_string : Nat
  in_comment : Bool
deriving DecidableEq

/-- The loop `for (j = 0; keywords[j]; j++)`: the first keyword, in list
order, that matches at `i` and is followed by a separator, as
`(kw2, klen)`. -/
def keywordLoop (render : List Nat) (i : Nat) : List (List Nat) → Option (Bool × Nat)
  | [] => none
  | kw :: rest =>
    let kw2 : Bool := kw.getD (strlen kw - 1) 0 = 124
    let klen := if kw2 then strlen kw - 1 else strlen kw
    if strncmpEq (render.drop i) kw klen ∧ is_separator (render.getD (i + klen) 0) then
      some (kw2, klen)
    else keywordLoop render i rest

/-- The end of the loop body: the keyword step `if (prev_sep) ...` and the
final `prev_sep = is_separator(c); i++`. -/
def hlKeywordStep (s : editorSyntax) (render : List Nat) (st : HlState) : Bool × HlState :=
  let c := render.getD st.i 0
  match (if st.prev_sep then keywordLoop render st.i s.keywords else none) with
  | some (kw2, klen) =>
    (false, { st with hl := memset st.hl st.i (if kw2 then HL_KEYWORD2 else HL_KEYWORD1) klen,
                      i := st.i + klen, prev_sep := false })
  | none => (false, { st with prev_sep := is_separator c, i := st.i + 1 })

/-- The step `if (E.syntax->flags & HL_HIGHLIGHT_NUMBERS)` and what follows. -/
def hlNumberStep (s : editorSyntax) (render : List Nat) (st : HlState) : Bool × HlState :=
  let c := render.getD st.i 0
  let prev_hl := if st.i > 0 then st.hl.getD (st.i - 1) 0 else HL_NORMAL
  if s.flags &&& HL_HIGHLIGHT_NUMBERS ≠ 0 ∧
      ((isdigit c ∧ (st.prev_sep ∨ prev_hl = HL_NUMBER)) ∨ (c = 46 ∧ prev_hl = HL_NUMBER)) then
    (false, { st with hl := st.hl.set st.i HL_NUMBER, i := st.i + 1, prev_sep := false })
  else hlKeywordStep s render st

/-- The step `if (E.syntax->flags & HL_HIGHLIGHT_STRINGS)` and what follows. -/
def hlStringStep (s : editorSyntax) (render : List Nat) (st : HlState) : Bool × HlState :=
  let c := render.getD st.i 0
  if s.flags &&& HL_HIGHLIGHT_STRINGS ≠ 0 then
    if st.in_string ≠ 0 then
      let hl := st.hl.set st.i HL_STRING
      if c = 92 ∧ st.i + 1 < render.length then
        (false, { st with hl := hl.set (st.i + 1) HL_STRING, i := st.i + 2 })
      else
        (false, { st with hl := hl, in_string := if c = st.in_string then 0 else st.in_string,
                          i := st.i + 1, prev_sep := true })
    else if c = 34 ∨ c = 39 then
      (false, { st with in_string := c, hl := st.hl.set st.i HL_STRING, i := st.i + 1 })
    else hlNumberStep s render st
  else hlNumberStep s render st

/-- The step `if (mcs_len && mce_len && !in_string)` and what follows. -/
def hlCommentStep (s : editorSyntax) (render : List Nat) (st : HlState) : Bool × HlState :=
  let mcs := s.multiline_comment_start.getD []
  let mce := s.multiline_comment_end.getD []
  if strlen mcs ≠ 0 ∧ strlen mce ≠ 0 ∧ st.in_string = 0 then
    if st.in_comment then
      let hl := st.hl.set st.i HL_MLCOMMENT
      if strncmpEq (render.drop st.i) mce (strlen mce) then
        (false, { st with hl := memset hl st.i HL_MLCOMMENT (strlen mce), i := st.i + strlen mce,
                          in_comment := false, prev_sep := true })
      else (false, { st with hl := hl, i := st.i + 1 })
    else if strncmpEq (render.drop st.i) mcs (strlen mcs) then
      (false, { st with hl := memset st.hl st.i HL_MLCOMMENT (strlen mcs), i := st.i + strlen mcs,
                        in_comment := true })
    else hlStringStep s render st
  else hlStringStep s render st

/-- One iteration of the loop `while (i < row->rsize)` of
`editorUpdateSyntax`; the first component tells that the loop was left by
`break`. -/
def hlStep (s : editorSyntax) (render : List Nat) (st : HlState) : Bool × HlState :=
  let scs := s.singleline_comment_start.getD []
  if strlen scs ≠ 0 ∧ st.in_string = 0 ∧ st.in_comment = false ∧
      strncmpEq (render.drop st.i) scs (strlen scs) then
    (true, { st with hl := memset st.hl st.i HL_COMMENT (render.length - st.i) })
  else hlCommentStep s render st

/-- The loop `while (i < row->rsize)` of `editorUpdateSyntax`, run for at
most `fuel` iterations. -/
def hlLoop (s : editorSyntax) (render : List Nat) : Nat → HlState → HlState
  | 0, st => st
  | fuel + 1, st =>
    if st.i < render.length then
      let r := hlStep s render st
      if r.1 then r.2 else hlLoop s render fuel r.2
    else st

/-- One highlight pass over a render sequence, seeded with `in_comment`:
`memset(row->hl, HL_NORMAL, row->rsize)` and the loop.  Every iteration of
the loop moves `i` forward, so `rsize` iterations suffice (`hlLoop_fuel`). -/
def hlRow (s : editorSyntax) (render : List Nat) (in_comment : Bool) : HlState :=
  hlLoop s render render.length
    { i := 0, hl := List.replicate render.length HL_NORMAL, prev_sep := true, in_string := 0,
      in_comment := in_comment }

/-- The row `row` of `E` after the highlight pass of `editorUpdateSyntax`
under the ruleset `s`: `in_comment` starts as
`row->idx > 0 && E.row[row->idx - 1].hl_open_comment`, and the pass ends with
`row->hl_open_comment = in_comment`. -/
def updateSyntaxRow (E : editorConfig) (s : editorSyntax) (row : erow) : erow :=
  let in_comment : Bool :=
    row.idx > 0 ∧ (E.row.getD (row.idx - 1).toNat default).hl_open_comment
  let st := hlRow s row.render in_comment
  { row with hl := st.hl, hl_open_comment := st.in_comment }

/-- The function `editorUpdateSyntax(&E.row[k])` with a bound on the depth
of its recursion into the rows below. -/
def editorUpdateSyntaxFuel : Nat → editorConfig → Nat → editorConfig
  | 0, E, _ => E
  | fuel + 1, E, k =>
    match E.row[k]? with
    | none => E
    | some row =>
      match E.syn with
      | none =>
        { E with row := E.row.set k { row with hl := List.replicate row.render.length HL_NORMAL } }
      | some s =>
        let row1 := updateSyntaxRow E s row
        let E1 := { E with row := E.row.set k row1 }
        let changed : Bool := row.hl_open_comment ≠ row1.hl_open_comment
        if changed ∧ row.idx + 1 < E.numrows then
          editorUpdateSyntaxFuel fuel E1 (row.idx + 1).toNat
        else E1

/-- The function `editorUpdateSyntax(&E.row[k])`.  The recursion descends one
row per call, so the number of rows bounds its depth
(`updateSyntaxFuel_fuel`). -/
def editorUpdateSyntax (E : editorConfig) (k : Nat) : editorConfig :=
  editorUpdateSyntaxFuel E.row.length E k

/-! ## Row functions: render, insert, delete -/

/-- The loop `while ((idx % HELIS_TAB_STOP) != 0) row->render[idx++] = ' '`. -/
def padToStop : Nat → List Nat → List Nat
  | 0, render => render
  | fuel + 1, render =>
    if render.length % HELIS_TAB_STOP ≠ 0 then padToStop fuel (render ++ [32]) else render

/-- The second loop of `editorUpdateRow`: the render sequence of `chars`. -/
def renderChars (chars : List Nat) : List Nat :=
  chars.foldl (fun render c =>
    if c = 9 then padToStop HELIS_TAB_STOP (render ++ [32]) else render ++ [c]) []

/-- The function `editorUpdateRow(&E.row[k])`. -/
def editorUpdateRow (E : editorConfig) (k : Nat) : editorConfig :=
  match E.row[k]? with
  | none => E
  | some row =>
    editorUpdateSyntax { E with row := E.row.set k { row with render := renderChars row.chars } } k

/-- The function `editorInsertRow(at, s, len)`; `s` holds the `len` bytes.
`editorUpdateRow` runs before `E.numrows++`.  Here and in the other row
functions `E.dirty++` is an `int` increment, which wraps around at
`INT_MAX`. -/
def editorInsertRow (E : editorConfig) (at_ : Int) (s : List Nat) : editorConfig :=
  if at_ < 0 ∨ at_ > E.numrows then E
  else
    let new : erow := { idx := at_, chars := s, render := [], hl := [], hl_open_comment := false }
    let rows := E.row.take at_.toNat ++ [new] ++
      (E.row.drop at_.toNat).map (fun r => { r with idx := r.idx + 1 })
    let E1 := editorUpdateRow { E with row := rows } at_.toNat
    { E1 with numrows := E1.numrows + 1, dirty := wrapInt (E1.dirty + 1) }

/-- The function `editorRowInsertChar(&E.row[k], at, c)`. -/
def editorRowInsertChar (E : editorConfig) (k : Nat) (at_ c : Int) : editorConfig :=
  match E.row[k]? with
  | none => E
  | some row =>
    let at1 := if at_ < 0 ∨ at_ > row.size then row.size else at_
    let chars := row.chars.take at1.toNat ++ [(c % 256).toNat] ++ row.chars.drop at1.toNat
    let E1 := editorUpdateRow { E with row := E.row.set k { row with chars := chars } } k
    { E1 with dirty := wrapInt (E1.dirty + 1) }

/-- The function `editorRowDelChar(&E.row[k], at)`. -/
def editorRowDelChar (E : editorConfig) (k : Nat) (at_ : Int) : editorConfig :=
  match E.row[k]? with
  | none => E
  | some row =>
    if at_ < 0 ∨ at_ ≥ row.size then E
    else
      let chars := row.chars.take at_.toNat ++ row.chars.drop (at_.toNat + 1)
      let E1 := editorUpdateRow { E with row := E.row.set k { row with chars := chars } } k
      { E1 with dirty := wrapInt (E1.dirty + 1) }

/-- The function `editorRowAppendString(&E.row[k], s, len)`. -/
def editorRowAppendString (E : editorConfig) (k : Nat) (s : List Nat) : editorConfig :=
  match E.row[k]? with
  | none => E
  | some row =>
    let E1 := editorUpdateRow { E with row := E.row.set k { row with chars := row.chars ++ s } } k
    { E1 with dirty := wrapInt (E1.dirty + 1) }

/-- The loop `for (filerow = 0; filerow < E.numrows; filerow++)` of
`editorSelectSyntaxHighlight`, which highlights the rows in order. -/
def updateSyntaxAllRows (E : editorConfig) : editorConfig :=
  (List.range E.numrows.toNat).foldl (fun E filerow => editorUpdateSyntax E filerow) E

/-- The loop `while (s->filematch[i])`: whether one of the patterns selects
the file name. -/
def filematchLoop (filename : List Nat) : List (List Nat) → Bool
  | [] => false
  | pat :: rest =>
    match strstr filename pat with
    | some p =>
      if pat.headD 0 ≠ 46 ∨ filename.getD (p + strlen pat) 0 = 0 then true
      else filematchLoop filename rest
    | none => filematchLoop filename rest

/-- The loop `for (j = 0; j < HLDB_ENTRIES; j++)`. -/
def hldbLoop (E : editorConfig) (filename : List Nat) : List editorSyntax → editorConfig
  | [] => E
  | s :: rest =>
    if filematchLoop filename s.filematch then updateSyntaxAllRows { E with syn := some s }
    else hldbLoop E filename rest

/-- The function `editorSelectSyntaxHighlight`. -/
def editorSelectSyntaxHighlight (E : editorConfig) : editorConfig :=
  match E.filename with
  | none => { E with syn := none }
  | some filename => hldbLoop { E with syn := none } filename HLDB

/-! ## File I/O -/

/-- The function `editorRowsToString`: each row's characters followed by a
newline. -/
def editorRowsToString (E : editorConfig) : List Nat :=
  (E.row.take E.numrows.toNat).foldl (fun buf row => buf ++ row.chars ++ [10]) []

/-- The scan of `getline`: the bytes read so far and the rest of the stream;
reading stops after the first newline or at the end of the stream. -/
def getlineScan : List Nat → List Nat → List Nat × List Nat
  | line, [] => (line, [])
  | line, c :: rest => if c = 10 then (line ++ [c], rest) else getlineScan (line ++ [c]) rest

/-- The library function `getline` on a stream of bytes: the next line with
its newline, and the rest of the stream; `none` (`-1`) at the end. -/
def getline (fp : List Nat) : Option (List Nat × List Nat) :=
  if fp = [] then none else some (getlineScan [] fp)

/-- The loop `while (linelen > 0 && (line[linelen - 1] == '\n' ||
line[linelen - 1] == '\r')) linelen--` of `editorOpen`. -/
def stripLineEnd (line : List Nat) : List Nat :=
  line.rdropWhile (fun c => c = 10 ∨ c = 13)

/-- The loop `while ((linelen = getline(&line, &linecap, fp)) != -1)` of
`editorOpen`; every call of `getline` consumes a byte, so the length of the
stream bounds the iterations. -/
def editorOpenLoop : Nat → List Nat → editorConfig → editorConfig
  | 0, _, E => E
  | fuel + 1, fp, E =>
    match getline fp with
    | none => E
    | some (line, rest) =>
      editorOpenLoop fuel rest (editorInsertRow E E.numrows (stripLineEnd line))

/-- The function `editorOpen(filename)` for a file that holds the bytes
`fp`. -/
def editorOpen (E : editorConfig) (filename fp : List Nat) : editorConfig :=
  let E1 := editorSelectSyntaxHighlight { E with filename := some (cstr filename) }
  let E2 := editorOpenLoop fp.length fp E1
  { E2 with dirty := 0 }

/-- The state set by `initEditor`, for a window of the given size. -/
def initEditor (rows cols : Int) : editorConfig :=
  { cx := 0, cy := 0, rx := 0, rowoff := 0, coloff := 0, screenrows := rows - 2,
    screencols := cols, numrows := 0, row := [], dirty := 0, filename := none, syn := none,
    mode := editorMode.Normal }

/-! ## Find -/

/-- The static variables of `editorFindCallback`. -/
structure findState where
  last_match : Int
  direction : Int
  saved_hl_line : Int
  saved_hl : Option (List Nat)
deriving DecidableEq

/-- The initial values of the static variables of `editorFindCallback`. -/
def findInit : findState :=
  { last_match := -1, direction := 1, saved_hl_line := 0, saved_hl := none }

/-- The call `memcpy(dst, src, n)`. -/
def memcpy (dst src : List Nat) (n : Nat) : List Nat := src.take n ++ dst.drop n

/-- The loop `for (i = 0; i < E.numrows; i++)` of `editorFindCallback`, with
`fuel` iterations left. -/
def findLoop (query : List Nat) : Nat → Int → editorConfig → findState → editorConfig × findState
  | 0, _, E, F => (E, F)
  | fuel + 1, current, E, F =>
    let current := current + F.direction
    let current := if current = -1 then E.numrows - 1
                   else if current = E.numrows then 0 else current
    let row := E.row.getD current.toNat default
    match strstr row.render query with
    | some m =>
      ({ E with cy := current, cx := editorRowRxToCx row m, rowoff := E.numrows,
                row := E.row.set current.toNat
                  { row with hl := memset row.hl m HL_MATCH (strlen query) } },
       { F with last_match := current, saved_hl_line := current,
                saved_hl := some (row.hl.take row.render.length) })
    | none => findLoop query fuel current E F

/-- The function `editorFindCallback(query, key)`. -/
def editorFindCallback (E : editorConfig) (F : findState) (query : List Nat) (key : Int) :
    editorConfig × findState :=
  let E1 := match F.saved_hl with
    | some saved =>
      let row := E.row.getD F.saved_hl_line.toNat default
      { E with row := E.row.set F.saved_hl_line.toNat
                 { row with hl := memcpy row.hl saved row.render.length } }
    | none => E
  let F1 := { F with saved_hl := none }
  if key = 13 ∨ key = 27 then (E1, { F1 with last_match := -1, direction := 1 })
  else
    let F2 := if key = ARROW_RIGHT ∨ key = ARROW_DOWN then { F1 with direction := 1 }
              else if key = ARROW_LEFT ∨ key = ARROW_UP then { F1 with direction := -1 }
              else { F1 with last_match := -1, direction := 1 }
    let F3 := if F2.last_match = -1 then { F2 with direction := 1 } else F2
    findLoop query E1.numrows.toNat F3.last_match E1 F3

/-! ## Predicates used by the claims -/

/-- The row store is well formed: `numrows` counts the rows of the array and
the `idx` field of every row is its position. -/
def rowsIndexed (E : editorConfig) : Prop :=
  E.numrows = E.row.length ∧
    E.row.map (fun r => r.idx) = (List.range E.row.length).map (fun (k : Nat) => (k : Int))

instance (E : editorConfig) : Decidable (rowsIndexed E) := by
  unfold rowsIndexed
  infer_instance

/-- The stored carry flag of the row above row `k` (`false` for row 0): the
seed of a highlight pass over row `k`. -/
def carrySeed (E : editorConfig) (k : Nat) : Bool :=
  decide (0 < k) && (E.row.getD (k - 1) default).hl_open_comment

/-- The highlight sequence and carry flag that one call of
`editorUpdateSyntax` gives a row for the seed `seed`: without a ruleset all
classes are `HL_NORMAL` and the flag is left as it is. -/
def passResult (syn : Option editorSyntax) (row : erow) (seed : Bool) : List Nat × Bool :=
  match syn with
  | none => (List.replicate row.render.length HL_NORMAL, row.hl_open_comment)
  | some s => ((hlRow s row.render seed).hl, (hlRow s row.render seed).in_comment)

/-- Row `k` is consistent: its highlight sequence and carry flag are the
result of one highlight pass over its render sequence, seeded with the stored
carry flag of row `k - 1`. -/
def rowConsistent (E : editorConfig) (k : Nat) : Prop :=
  ∀ row, E.row[k]? = some row →
    (row.hl, row.hl_open_comment) = passResult E.syn row (carrySeed E k)

/-- The close marker of a block comment stands at column `p` of the render
sequence. -/
def closeMarkerAt (render : List Nat) (p : Nat) : Prop := bytes "*/" <+: render.drop p

/-- Column `p` is where the first close marker of the render sequence
stands. -/
def firstCloseMarker (render : List Nat) (p : Nat) : Prop :=
  closeMarkerAt render p ∧ ∀ q, q < p → ¬ closeMarkerAt render q

/-- The variables of the highlight loop at column `a` of a row of `n` render
characters that was entered inside a block comment and has shown no close
marker so far: the first `a` classes are `HL_MLCOMMENT`, the others still
`HL_NORMAL`. -/
def mlState (n a : Nat) : HlState :=
  { i := a, hl := List.replicate a HL_MLCOMMENT ++ List.replicate (n - a) HL_NORMAL,
    prev_sep := true, in_string := 0, in_comment := true }

/-- The variables of the highlight loop right after the close marker that
stands at column `p` of a row of `n` render characters entered inside a block
comment: the classes up to and including the marker are `HL_MLCOMMENT`, and
the loop is outside of comments and strings. -/
def closedState (n p : Nat) : HlState :=
  { i := p + 2, hl := List.replicate (p + 2) HL_MLCOMMENT ++ List.replicate (n - (p + 2)) HL_NORMAL,
    prev_sep := true, in_string := 0, in_comment := false }

/-- The block-comment behaviour claimed for a highlighted buffer: when the
pass over row `i` ends inside a block comment and no row strictly between `i`
and `j` contains the close marker, the rows `i..j-1` have their carry flag
set, the rows `i+1..j-1` are classified `HL_MLCOMMENT` throughout, and in row
`j`, if its first close marker stands at column `p`, the classes up to and
including the marker are `HL_MLCOMMENT` and the pass continues behind the
marker outside of the comment (`closedState`, with the iterations that are
left). -/
def blockCommentCarried (E : editorConfig) : Prop :=
  ∀ i j : Nat, i < j → j ≤ E.row.length →
    (hlRow HLDB_c (E.row.getD i default).render (carrySeed E i)).in_comment = true →
    (∀ r, i < r → r < j → ¬ bytes "*/" <:+: (E.row.getD r default).render) →
    (∀ r, i ≤ r → r < j → (E.row.getD r default).hl_open_comment = true) ∧
    (∀ r, i < r → r < j → (E.row.getD r default).hl =
      List.replicate (E.row.getD r default).render.length HL_MLCOMMENT) ∧
    (∀ p, j < E.row.length → firstCloseMarker (E.row.getD j default).render p →
      (E.row.getD j default).hl.take (p + 2) = List.replicate (p + 2) HL_MLCOMMENT ∧
      hlRow HLDB_c (E.row.getD j default).render true =
        hlLoop HLDB_c (E.row.getD j default).render
          ((E.row.getD j default).render.length - (p + 1))
          (closedState (E.row.getD j default).render.length p))

/-- The buffer of the block-comment scenario, loaded from a file `a.c`: a
comment opens on row 0, row 1 lies inside it, and row 2 closes it. -/
def commentScenario : editorConfig :=
  editorOpen (initEditor 24 80) (bytes "a.c") (bytes "a /* x\n\tint y\nint */ int\n")

/-- The rows in the order in which a forward search step that starts after
the last match `m` (`-1` for none) visits them: `m + 1, ..., numrows - 1`,
then `0, ..., m`. -/
def forwardOrder (E : editorConfig) (m : Int) : List Nat :=
  List.range' (m + 1).toNat (E.row.length - (m + 1).toNat) ++ List.range (m + 1).toNat

/-- What one forward step of the search does, stated for a notion `contains
query render` of "the render sequence contains the query": the cursor row
and the last match become the first row in `forwardOrder` that contains the
query, and cursor and last match stay as they are when no row does.  The
last match `m` the step starts from is the stored one for the keys
`ARROW_RIGHT` and `ARROW_DOWN` and none for any other key. -/
def forwardStepSpec (contains : List Nat → List Nat → Bool) (E : editorConfig) (F : findState)
    (query : List Nat) (key : Int) : Prop :=
  let m := if key = ARROW_RIGHT ∨ key = ARROW_DOWN then F.last_match else -1
  match (forwardOrder E m).find? (fun r => contains query (E.row.getD r default).render) with
  | some r =>
    (editorFindCallback E F query key).1.cy = r ∧
    (editorFindCallback E F query key).2.last_match = r
  | none =>
    (editorFindCallback E F query key).1.cy = E.cy ∧
    (editorFindCallback E F query key).1.cx = E.cx ∧
    (editorFindCallback E F query key).2.last_match = m

instance (contains : List Nat → List Nat → Bool) (E : editorConfig) (F : findState)
    (query : List Nat) (key : Int) : Decidable (forwardStepSpec contains E F query key) := by
  unfold forwardStepSpec
  dsimp only
  cases (forwardOrder E (if key = ARROW_RIGHT ∨ key = ARROW_DOWN then F.last_match else -1)).find?
      (fun r => contains query (E.row.getD r default).render) <;>
    (dsimp only; infer_instance)

/-- The buffer of the search scenario: the rows `alpha`, `beta`, `gamma`,
`beta2`, `delta`, loaded from a file `notes.txt`. -/
def searchScenario : editorConfig :=
  editorOpen (initEditor 24 80) (bytes "notes.txt") (bytes "alpha\nbeta\ngamma\nbeta2\ndelta\n")

/-- A buffer loaded from a file whose second line holds a NUL byte before the
word `beta`. -/
def searchNulBuffer : editorConfig :=
  editorOpen (initEditor 24 80) (bytes "notes.txt")
    (bytes "alpha\na" ++ [0] ++ bytes "beta\n")

/-! ## Row store: delete -/

/-- The function `editorDelRow(at)`; `editorFreeRow` only releases storage. -/
def editorDelRow (E : editorConfig) (at_ : Int) : editorConfig :=
  if at_ < 0 ∨ at_ ≥ E.numrows then E
  else
    { E with row := E.row.take at_.toNat ++
               (E.row.drop (at_.toNat + 1)).map (fun r => { r with idx := r.idx - 1 }),
             numrows := E.numrows - 1, dirty := wrapInt (E.dirty + 1) }

/-! ## Editor functions -/

/-- The row `E.row[i]` for an `int` index; an index outside of the array
reads an empty row. -/
def rowAt (E : editorConfig) (i : Int) : erow :=
  if 0 ≤ i then E.row.getD i.toNat default else default

/-- The function `editorInsertChar(c)`. -/
def editorInsertChar (E : editorConfig) (c : Int) : editorConfig :=
  let E1 := if E.cy = E.numrows then editorInsertRow E E.numrows [] else E
  let E2 := editorRowInsertChar E1 E1.cy.toNat E1.cx c
  { E2 with cx := E2.cx + 1 }

/-- The function `editorInsertNewline`: at column 0 an empty row is inserted
at `cy`; otherwise the bytes from `cx` on become a new row at `cy + 1` and row
`cy` is cut to `cx` bytes. -/
def editorInsertNewline (E : editorConfig) : editorConfig :=
  let E1 :=
    if E.cx = 0 then editorInsertRow E E.cy []
    else
      let row := rowAt E E.cy
      let E2 := editorInsertRow E (E.cy + 1) (row.chars.drop E.cx.toNat)
      let row2 := rowAt E2 E2.cy
      editorUpdateRow
        { E2 with row := E2.row.set E2.cy.toNat { row2 with chars := row2.chars.take E2.cx.toNat } }
        E2.cy.toNat
  { E1 with cy := E1.cy + 1, cx := 0 }

/-- The function `editorDelChar`. -/
def editorDelChar (E : editorConfig) : editorConfig :=
  if E.cy = E.numrows then E
  else if E.cx = 0 ∧ E.cy = 0 then E
  else
    let row := rowAt E E.cy
    if E.cx > 0 then
      let E1 := editorRowDelChar E E.cy.toNat (E.cx - 1)
      { E1 with cx := E1.cx - 1 }
    else
      let E1 := { E with cx := (rowAt E (E.cy - 1)).size }
      let E2 := editorRowAppendString E1 (E1.cy - 1).toNat row.chars
      let E3 := editorDelRow E2 E2.cy
      { E3 with cy := E3.cy - 1 }

/-! ## Output: scrolling -/

/-- The function `editorScroll`. -/
def editorScroll (E : editorConfig) : editorConfig :=
  let E1 := { E with rx := 0 }
  let E2 := if E1.cy < E1.numrows then { E1 with rx := editorRowCxToRx (rowAt E1 E1.cy) E1.cx }
            else E1
  let E3 := if E2.cy < E2.rowoff then { E2 with rowoff := E2.cy } else E2
  let E4 := if E3.cy ≥ E3.rowoff + E3.screenrows then
              { E3 with rowoff := E3.cy - E3.screenrows + 1 } else E3
  let E5 := if E4.rx < E4.coloff then { E4 with coloff := E4.rx } else E4
  if E5.rx ≥ E5.coloff + E5.screencols then { E5 with coloff := E5.rx - E5.screencols + 1 }
  else E5

/-! ## Modes and input -/

/-- The single member of `enum editorSequnces`. -/
def GG_SEQ : Int := 0

/-- The macro `CTRL_KEY(k)`, `k & 0x1f`. -/
def CTRL_KEY (k : Nat) : Int := ((k &&& 0x1f : Nat) : Int)

/-- The function `editorEnableNormalMode`; the escape sequence it writes to
the terminal is not part of the state. -/
def editorEnableNormalMode (E : editorConfig) : editorConfig :=
  { E with mode := editorMode.Normal }

/-- The function `editorEnableInsertMode`. -/
def editorEnableInsertMode (E : editorConfig) : editorConfig :=
  { E with mode := editorMode.Insert }

/-- The `switch (key)` of `editorMoveCursor`; `row` is `NULL` when
`E.cy >= E.numrows`. -/
def moveCursorSwitch (E : editorConfig) (key : Int) : editorConfig :=
  let row : Option erow := if E.cy ≥ E.numrows then none else some (rowAt E E.cy)
  if key = ARROW_UP ∨ key = 107 then
    if E.cy ≠ 0 then { E with cy := E.cy - 1 } else E
  else if key = ARROW_DOWN ∨ key = 106 then
    if E.cy < E.numrows then { E with cy := E.cy + 1 } else E
  else if key = ARROW_LEFT ∨ key = 104 then
    if E.cx ≠ 0 then { E with cx := E.cx - 1 }
    else if E.cy > 0 then { E with cy := E.cy - 1, cx := (rowAt E (E.cy - 1)).size }
    else E
  else if key = ARROW_RIGHT ∨ key = 108 then
    match row with
    | some r =>
      if E.cx < r.size then { E with cx := E.cx + 1 }
      else if E.cx = r.size then { E with cy := E.cy + 1, cx := 0 }
      else E
    | none => E
  else E

/-- The end of `editorMoveCursor`: `cx` is cut back to the length of the row
the cursor is on, which is 0 past the last row. -/
def clampCx (E : editorConfig) : editorConfig :=
  let rowlen : Int := if E.cy ≥ E.numrows then 0 else (rowAt E E.cy).size
  if E.cx > rowlen then { E with cx := rowlen } else E

/-- The function `editorMoveCursor(key)`: the `switch`, then the clamp of
`cx` to the length of the row the cursor is on now. -/
def editorMoveCursor (E : editorConfig) (key : Int) : editorConfig :=
  clampCx (moveCursorSwitch E key)

/-- The loop `while (times--) editorMoveCursor(key)`. -/
def moveCursorTimes (key : Int) : Nat → editorConfig → editorConfig
  | 0, E => E
  | times + 1, E => moveCursorTimes key times (editorMoveCursor E key)

/-- The case `PAGE_UP`/`PAGE_DOWN` of the keypress functions; `screenrows`
is not negative. -/
def pageMove (E : editorConfig) (c : Int) : editorConfig :=
  let E1 :=
    if c = PAGE_UP then { E with cy := E.rowoff }
    else
      let E2 := { E with cy := E.rowoff + E.screenrows - 1 }
      if E2.cy > E2.numrows then { E2 with cy := E2.numrows } else E2
  moveCursorTimes (if c = PAGE_UP then ARROW_UP else ARROW_DOWN) E1.screenrows.toNat E1

/-- The function `editorProcessNormalKeypress(c)`.  The cases `/` and `:` run
a prompt that reads further keys from the terminal; what they do to the
state is given by `find` and `cmd`. -/
def editorProcessNormalKeypress (find cmd : editorConfig → editorConfig) (E : editorConfig)
    (c : Int) : editorConfig :=
  if c = 13 then editorMoveCursor E ARROW_DOWN
  else if c = 47 then find E
  else if c = 105 then editorEnableInsertMode E
  else if c = 73 then editorEnableInsertMode { E with cx := 0 }
  else if c = 97 then editorEnableInsertMode (editorMoveCursor E ARROW_RIGHT)
  else if c = 65 then
    editorEnableInsertMode (if E.cy < E.numrows then { E with cx := (rowAt E E.cy).size } else E)
  else if c = 111 then
    editorInsertNewline (editorEnableInsertMode
      (if E.cy < E.numrows then { E with cx := (rowAt E E.cy).size } else E))
  else if c = 79 then
    let E1 := editorMoveCursor E ARROW_UP
    editorInsertNewline (editorEnableInsertMode
      (if E1.cy < E1.numrows then { E1 with cx := (rowAt E1 E1.cy).size } else E1))
  else if c = 48 ∨ c = HOME_KEY then { E with cx := 0 }
  else if c = 36 ∨ c = END_KEY then
    if E.cy < E.numrows then { E with cx := (rowAt E E.cy).size } else E
  else if c = 32 then editorMoveCursor E ARROW_LEFT
  else if c = BACKSPACE ∨ c = CTRL_KEY 104 then editorMoveCursor E ARROW_LEFT
  else if c = DEL_KEY then editorMoveCursor E ARROW_RIGHT
  else if c = 71 then { E with cy := E.numrows - 1 }
  else if c = PAGE_UP ∨ c = PAGE_DOWN then pageMove E c
  else if c = 120 then editorDelChar (editorMoveCursor E ARROW_RIGHT)
  else if c = 58 then cmd E
  else if c = ARROW_LEFT ∨ c = ARROW_DOWN ∨ c = ARROW_UP ∨ c = ARROW_RIGHT ∨
      c = 104 ∨ c = 106 ∨ c = 107 ∨ c = 108 then editorMoveCursor E c
  else if c = CTRL_KEY 108 ∨ c = 27 then editorEnableNormalMode E
  else if c = GG_SEQ then { E with cy := 0 }
  else E

/-! ## Predicates used by the claims on cursor, rows and writes -/

/-- The sequence of the character sequences of the rows. -/
def rowTexts (E : editorConfig) : List (List Nat) := E.row.map (fun r => r.chars)

/-- The cursor invariant: `0 ≤ cy ≤ numrows`, `0 ≤ cx ≤ size` of row `cy`,
and `cx = 0` when the cursor is on the line past the last row. -/
def cursorValid (E : editorConfig) : Prop :=
  0 ≤ E.cy ∧ E.cy ≤ E.numrows ∧ 0 ≤ E.cx ∧
    (if E.cy < E.numrows then E.cx ≤ (rowAt E E.cy).size else E.cx = 0)

instance (E : editorConfig) : Decidable (cursorValid E) := by
  unfold cursorValid
  infer_instance

/-- The spans `(start, length)` of `row->hl` that the keyword step of one
iteration of the highlight loop writes: `memset(&row->hl[i], ..., klen)` for
a matched keyword. -/
def hlKeywordWrites (s : editorSyntax) (render : List Nat) (st : HlState) : List (Nat × Nat) :=
  match (if st.prev_sep then keywordLoop render st.i s.keywords else none) with
  | some (_, klen) => [(st.i, klen)]
  | none => []

/-- The spans written from the number step on: `row->hl[i] = HL_NUMBER`. -/
def hlNumberWrites (s : editorSyntax) (render : List Nat) (st : HlState) : List (Nat × Nat) :=
  let c := render.getD st.i 0
  let prev_hl := if st.i > 0 then st.hl.getD (st.i - 1) 0 else HL_NORMAL
  if s.flags &&& HL_HIGHLIGHT_NUMBERS ≠ 0 ∧
      ((isdigit c ∧ (st.prev_sep ∨ prev_hl = HL_NUMBER)) ∨ (c = 46 ∧ prev_hl = HL_NUMBER)) then
    [(st.i, 1)]
  else hlKeywordWrites s render st

/-- The spans written from the string step on: `row->hl[i] = HL_STRING`, and
`row->hl[i + 1] = HL_STRING` for the character behind a backslash. -/
def hlStringWrites (s : editorSyntax) (render : List Nat) (st : HlState) : List (Nat × Nat) :=
  let c := render.getD st.i 0
  if s.flags &&& HL_HIGHLIGHT_STRINGS ≠ 0 then
    if st.in_string ≠ 0 then
      if c = 92 ∧ st.i + 1 < render.length then [(st.i, 1), (st.i + 1, 1)]
      else [(st.i, 1)]
    else if c = 34 ∨ c = 39 then [(st.i, 1)]
    else hlNumberWrites s render st
  else hlNumberWrites s render st

/-- The spans written from the block-comment step on:
`row->hl[i] = HL_MLCOMMENT`, `memset(&row->hl[i], HL_MLCOMMENT, mce_len)` for
the close marker and `memset(&row->hl[i], HL_MLCOMMENT, mcs_len)` for the open
marker. -/
def hlCommentWrites (s : editorSyntax) (render : List Nat) (st : HlState) : List (Nat × Nat) :=
  let mcs := s.multiline_comment_start.getD []
  let mce := s.multiline_comment_end.getD []
  if strlen mcs ≠ 0 ∧ strlen mce ≠ 0 ∧ st.in_string = 0 then
    if st.in_comment then
      if strncmpEq (render.drop st.i) mce (strlen mce) then [(st.i, 1), (st.i, strlen mce)]
      else [(st.i, 1)]
    else if strncmpEq (render.drop st.i) mcs (strlen mcs) then [(st.i, strlen mcs)]
    else hlStringWrites s render st
  else hlStringWrites s render st

/-- The spans `(start, length)` of `row->hl` that one iteration of the loop
of `editorUpdateSyntax` writes, branch by branch as `hlStep` takes them; the
first is `memset(&row->hl[i], HL_COMMENT, row->rsize - i)`. -/
def hlStepWrites (s : editorSyntax) (render : List Nat) (st : HlState) : List (Nat × Nat) :=
  let scs := s.singleline_comment_start.getD []
  if strlen scs ≠ 0 ∧ st.in_string = 0 ∧ st.in_comment = false ∧
      strncmpEq (render.drop st.i) scs (strlen scs) then
    [(st.i, render.length - st.i)]
  else hlCommentWrites s render st

/-- The writes of one step stay inside an array of `n` cells: every span
`(start, length)` ends at or before `n`, the array `new` after the step has
`n` cells, and outside of the spans it holds what `old` held. -/
def writesWithin (n : Nat) (old new : List Nat) (spans : List (Nat × Nat)) : Prop :=
  (∀ span ∈ spans, span.1 + span.2 ≤ n) ∧ new.length = n ∧
    ∀ j : Nat, (∀ span ∈ spans, j < span.1 ∨ span.1 + span.2 ≤ j) → new[j]? = old[j]?

/-- The buffer of the open-line scenario: the single row `abc`, loaded from a
file `notes.txt`. -/
def oneRowBuffer : editorConfig :=
  editorOpen (initEditor 24 80) (bytes "notes.txt") (bytes "abc\n")

/-- The buffer of the cursor scenarios: the rows `abc` and `a`, loaded from a
file `notes.txt`. -/
def twoRowBuffer : editorConfig :=
  editorOpen (initEditor 24 80) (bytes "notes.txt") (bytes "abc\na\n")

/-! ## Operations that edit the buffer -/

/-- The Row Store operations and the editing operations built on them, each
with the arguments of its call; a row pointer `&E.row[k]` is the index `k`. -/
inductive editOp where
  | insertRow (at_ : Int) (s : List Nat)
  | delRow (at_ : Int)
  | rowInsertChar (k : Nat) (at_ c : Int)
  | rowDelChar (k : Nat) (at_ : Int)
  | rowAppendString (k : Nat) (s : List Nat)
  | insertChar (c : Int)
  | insertNewline
  | delChar

/-- The state after the call `op`. -/
def applyOp (E : editorConfig) : editOp → editorConfig
  | editOp.insertRow at_ s => editorInsertRow E at_ s
  | editOp.delRow at_ => editorDelRow E at_
  | editOp.rowInsertChar k at_ c => editorRowInsertChar E k at_ c
  | editOp.rowDelChar k at_ => editorRowDelChar E k at_
  | editOp.rowAppendString k s => editorRowAppendString E k s
  | editOp.insertChar c => editorInsertChar E c
  | editOp.insertNewline => editorInsertNewline E
  | editOp.delChar => editorDelChar E

/-- The dirty counter of `E'` is not smaller than that of `E`, and it is
strictly greater when the row count or the character sequence of some row
differs. -/
def dirtyTracks (E E' : editorConfig) : Prop :=
  E.dirty ≤ E'.dirty ∧
    (E'.numrows ≠ E.numrows ∨ rowTexts E' ≠ rowTexts E → E.dirty < E'.dirty)

/-- The largest number of increments `E.dirty++` that the call runs:
`editorInsertChar` and `editorDelChar` make two row-store calls. -/
def dirtyIncrements : editOp → Int
  | editOp.insertChar _ => 2
  | editOp.delChar => 2
  | _ => 1

/-- The call `op` is one the program is defined on in the state `E`: a row
pointer points to a row of the buffer, and the editing operations are called
with a valid cursor. -/
def opDefined (E : editorConfig) : editOp → Prop
  | editOp.insertRow _ _ => True
  | editOp.delRow _ => True
  | editOp.rowInsertChar k _ _ => k < E.row.length
  | editOp.rowDelChar k _ => k < E.row.length
  | editOp.rowAppendString k _ => k < E.row.length
  | editOp.insertChar _ => cursorValid E
  | editOp.insertNewline => cursorValid E
  | editOp.delChar => cursorValid E

instance (E : editorConfig) (op : editOp) : Decidable (opDefined E op) := by
  cases op <;> (unfold opDefined; infer_instance)

/-- Every call of the sequence is defined in the state it is made in. -/
def opsDefined : editorConfig → List editOp → Prop
  | _, [] => True
  | E, op :: rest => opDefined E op ∧ opsDefined (applyOp E op) rest

/-- The buffer of the end-of-line scenario: the single row `hello`, loaded
from a file `notes.txt`. -/
def fiveCharBuffer : editorConfig :=
  editorOpen (initEditor 24 80) (bytes "notes.txt") (bytes "hello\n")

/-! ## Keywords as the description reads them -/

/-- Whether a keyword is listed with the `|` suffix marker. -/
def keywordSecondary (kw : List Nat) : Bool := kw.getLast? = some 124

/-- The characters of a listed keyword: the entry without its `|` marker. -/
def keywordText (kw : List Nat) : List Nat := if keywordSecondary kw then kw.dropLast else kw

/-- The keyword `kw` is accepted at position `i` of `render`:
`render[i .. i + len)` equals its characters and `render[i + len]` is a
separator or the end of the row. -/
def keywordAccepted (render : List Nat) (i : Nat) (kw : List Nat) : Prop :=
  (render.drop i).take (keywordText kw).length = keywordText kw ∧
    (i + (keywordText kw).length = render.length ∨
      is_separator (render.getD (i + (keywordText kw).length) 0) = true)

instance (render : List Nat) (i : Nat) (kw : List Nat) :
    Decidable (keywordAccepted render i kw) := by
  unfold keywordAccepted
  infer_instance

/-- The keyword `kw` is a longest keyword of `kws` that is accepted at `i`. -/
def longestKeywordAt (render : List Nat) (i : Nat) (kws : List (List Nat))
    (kw : List Nat) : Prop :=
  kw ∈ kws ∧ keywordAccepted render i kw ∧
    ∀ k ∈ kws, keywordAccepted render i k → (keywordText k).length ≤ (keywordText kw).length

instance (render : List Nat) (i : Nat) (kws : List (List Nat)) (kw : List Nat) :
    Decidable (longestKeywordAt render i kws kw) := by
  unfold longestKeywordAt
  infer_instance

/-- What the keyword loop computes for one entry agrees with the reading of
the entry as characters and marker, and no character of the keyword is a
separator. -/
def keywordEntryOk (kw : List Nat) : Prop :=
  (if kw.getD (strlen kw - 1) 0 = 124 then strlen kw - 1 else strlen kw) ≤ strlen kw ∧
  strlen kw ≤ kw.length ∧
  (if kw.getD (strlen kw - 1) 0 = 124 then strlen kw - 1 else strlen kw) =
    (keywordText kw).length ∧
  kw.take (keywordText kw).length = keywordText kw ∧
  decide (kw.getD (strlen kw - 1) 0 = 124) = keywordSecondary kw ∧
  ∀ c ∈ keywordText kw, is_separator c = false

instance (kw : List Nat) : Decidable (keywordEntryOk kw) := by
  unfold keywordEntryOk
  infer_instance

/-! ## Carry-consistent buffers -/

instance (E : editorConfig) (k : Nat) : Decidable (rowConsistent E k) :=
  match h : E.row[k]? with
  | none => isTrue (fun row hr => by rw [h] at hr; cases hr)
  | some row =>
    if hc : (row.hl, row.hl_open_comment) = passResult E.syn row (carrySeed E k) then
      isTrue (fun r hr => by rw [h] at hr; cases hr; exact hc)
    else isFalse (fun hh => hc (hh row h))

/-- The buffer is carry-consistent: every row is consistent. -/
def carryConsistent (E : editorConfig) : Prop :=
  ∀ k ∈ List.range E.row.length, rowConsistent E k

instance (E : editorConfig) : Decidable (carryConsistent E) := by
  unfold carryConsistent
  infer_instance

/-- The buffer of the row-store scenarios with an open block comment: the
rows `/*` and `x`, loaded from a file `a.c`. -/
def openCommentBuffer : editorConfig :=
  editorOpen (initEditor 24 80) (bytes "a.c") (bytes "/*\nx\n")

/-- The buffer of the row-store scenario without a comment: the rows `a` and
`b`, loaded from a file `a.c`. -/
def plainCodeBuffer : editorConfig :=
  editorOpen (initEditor 24 80) (bytes "a.c") (bytes "a\nb\n")

/-! ## Traces of the highlight pass and of its cascade -/

/-- The loop `while (i < row->rsize)` of `editorUpdateSyntax` as `hlLoop`, with
the scan positions at which its iterations start; `none` when the loop is not
left within `fuel` iterations. -/
def hlLoopTrace (s : editorSyntax) (render : List Nat) :
    Nat → HlState → Option (HlState × List Nat)
  | 0, st => if st.i < render.length then none else some (st, [])
  | fuel + 1, st =>
    if st.i < render.length then
      let r := hlStep s render st
      if r.1 then some (r.2, [st.i])
      else (hlLoopTrace s render fuel r.2).map (fun p => (p.1, st.i :: p.2))
    else some (st, [])

/-- The function `editorUpdateSyntax(&E.row[k])` as `editorUpdateSyntaxFuel`,
with the indices of the rows its calls run their pass on, in the order of the
calls; `none` when the recursion is deeper than `fuel`. -/
def updateSyntaxTrace : Nat → editorConfig → Nat → Option (editorConfig × List Nat)
  | 0, _, _ => none
  | fuel + 1, E, k =>
    match E.row[k]? with
    | none => some (E, [])
    | some row =>
      match E.syn with
      | none =>
        some ({ E with row :=
                  (E.row.set k { row with hl := List.replicate row.render.length HL_NORMAL }) },
              [k])
      | some s =>
        let row1 := updateSyntaxRow E s row
        let E1 := { E with row := E.row.set k row1 }
        let changed : Bool := row.hl_open_comment ≠ row1.hl_open_comment
        if changed ∧ row.idx + 1 < E.numrows then
          (updateSyntaxTrace fuel E1 (row.idx + 1).toNat).map (fun p => (p.1, k :: p.2))
        else some (E1, [k])

/-- The stored carry flag of row `j`. -/
def carryFlag (E : editorConfig) (j : Nat) : Bool := (E.row.getD j default).hl_open_comment

/-! ## Output: drawing the rows -/

/-- The string of the define `HELIS_VERSION`. -/
def HELIS_VERSION : List Nat := bytes "0.0.0.0.1"

/-- The predicate `iscntrl` of the C locale. -/
def iscntrl (c : Nat) : Bool := c < 32 || c = 127

/-- The function `editorSyntaxToColor`. -/
def editorSyntaxToColor (hl : Nat) : Int :=
  if hl = HL_COMMENT ∨ hl = HL_MLCOMMENT then 36
  else if hl = HL_KEYWORD1 then 33
  else if hl = HL_KEYWORD2 then 32
  else if hl = HL_STRING then 35
  else if hl = HL_NUMBER then 31
  else if hl = HL_MATCH then 34
  else 37

/-- The bytes of `snprintf(buf, sizeof(buf), "\x1b[%dm", color)`. -/
def snprintfColor (color : Int) : List Nat := [27, 91] ++ bytes (toString color) ++ [109]

/-- One iteration of the loop `for (j = 0; j < len; j++)` of `editorDrawRows`
on the character `c` with the class `hl`; the state is the append buffer and
`current_color`. -/
def drawCell (c hl : Nat) (st : List Nat × Int) : List Nat × Int :=
  if iscntrl c then
    let sym : Nat := if c ≤ 26 then 64 + c else 63
    let ab := st.1 ++ [27, 91, 55, 109] ++ [sym] ++ [27, 91, 109]
    if st.2 ≠ -1 then (ab ++ snprintfColor st.2, st.2) else (ab, st.2)
  else if hl = HL_NORMAL then
    if st.2 ≠ -1 then (st.1 ++ [27, 91, 51, 57, 109] ++ [c], -1) else (st.1 ++ [c], st.2)
  else
    let color := editorSyntaxToColor hl
    if color ≠ st.2 then (st.1 ++ snprintfColor color ++ [c], color) else (st.1 ++ [c], st.2)

/-- The branch of `editorDrawRows` for a screen line that shows the row `row`:
the bytes it appends, up to and with the final `"\x1b[39m"`. -/
def drawRowCells (row : erow) (coloff screencols : Int) : List Nat :=
  let len0 := row.rsize - coloff
  let len1 := if len0 < 0 then 0 else len0
  let len := if len1 > screencols then screencols else len1
  let c := row.render.drop coloff.toNat
  let hl := row.hl.drop coloff.toNat
  ((List.range len.toNat).foldl (fun st j => drawCell (c.getD j 0) (hl.getD j 0) st)
    ([], -1)).1 ++ [27, 91, 51, 57, 109]

/-- The branch of `editorDrawRows` for a screen line below the last row: the
welcome message on line `screenrows / 3` of an empty buffer, `>` otherwise;
`padding` is not negative. -/
def drawEmptyLine (E : editorConfig) (r : Int) : List Nat :=
  if E.numrows = 0 ∧ r = Int.tdiv E.screenrows 3 then
    let welcome := bytes "Helis editor -- version " ++ HELIS_VERSION
    let welcomelen : Int := if (welcome.length : Int) > E.screencols then E.screencols
                            else welcome.length
    let padding := Int.tdiv (E.screencols - welcomelen) 2
    (if padding ≠ 0 then [62] ++ List.replicate (padding - 1).toNat 32 else []) ++
      welcome.take welcomelen.toNat
  else [62]

/-- The bytes that iteration `r` of the loop of `editorDrawRows` appends. -/
def drawLine (E : editorConfig) (r : Int) : List Nat :=
  (if r + E.rowoff ≥ E.numrows then drawEmptyLine E r
   else drawRowCells (rowAt E (r + E.rowoff)) E.coloff E.screencols) ++
    [27, 91, 75] ++ [13, 10]

/-- The function `editorDrawRows(ab)`. -/
def editorDrawRows (E : editorConfig) (ab : List Nat) : List Nat :=
  (List.range E.screenrows.toNat).foldl
    (fun (ab : List Nat) (r : Nat) => ab ++ drawLine E (r : Int)) ab

/-- The bytes of `s` without its escape sequences, where an escape sequence
runs from an ESC byte to the next `m`; `inEsc` tells that the scan is inside
one. -/
def stripColor : Bool → List Nat → List Nat
  | _, [] => []
  | false, c :: rest => if c = 27 then stripColor true rest else c :: stripColor false rest
  | true, c :: rest => if c = 109 then stripColor false rest else stripColor true rest

/-- The part `render[a .. b)` of a render sequence. -/
def renderWindow (render : List Nat) (a b : Nat) : List Nat := (render.take b).drop a

/-! ## Column conversion: lemmas -/

theorem cxToRxLoop_zero (row : erow) : cxToRxLoop row 0 = 0 := by
  simp [cxToRxLoop]

theorem cxToRxLoop_succ (row : erow) (n : Nat) :
    cxToRxLoop row (n + 1) = rxAdvance row (cxToRxLoop row n) n := by
  simp [cxToRxLoop, List.range_succ, List.foldl_append]

theorem rxAdvance_gt (row : erow) (rx j : Nat) : rx < rxAdvance row rx j := by
  unfold rxAdvance
  split <;> omega

theorem cxToRxLoop_lt_succ (row : erow) (n : Nat) :
    cxToRxLoop row n < cxToRxLoop row (n + 1) := by
  rw [cxToRxLoop_succ]
  exact rxAdvance_gt row _ n

theorem cxToRxLoop_mono (row : erow) {a b : Nat} (h : a ≤ b) :
    cxToRxLoop row a ≤ cxToRxLoop row b := by
  induction b with
  | zero =>
    have : a = 0 := by omega
    subst this
    exact le_refl _
  | succ n ih =>
    rcases Nat.lt_or_ge a (n + 1) with h1 | h1
    · have := ih (by omega)
      have := cxToRxLoop_lt_succ row n
      omega
    · have : a = n + 1 := by omega
      subst this
      exact le_refl _

theorem cxToRxLoop_strict (row : erow) {a b : Nat} (h : a < b) :
    cxToRxLoop row a < cxToRxLoop row b := by
  have h1 := cxToRxLoop_lt_succ row a
  have h2 := cxToRxLoop_mono row (show a + 1 ≤ b by omega)
  omega

theorem rxToCxLoop_at (row : erow) (c : Nat) (hc : c ≤ row.chars.length) :
    ∀ (fuel cx : Nat), cx ≤ c → row.chars.length ≤ fuel + cx →
      rxToCxLoop row (cxToRxLoop row c : Nat) fuel cx (cxToRxLoop row cx) = c := by
  intro fuel
  induction fuel with
  | zero =>
    intro cx h1 h2
    simp only [rxToCxLoop]
    omega
  | succ n ih =>
    intro cx h1 h2
    simp only [rxToCxLoop, erow.size]
    by_cases hlt : (cx : Int) < (row.chars.length : Int)
    · rw [if_pos hlt, ← cxToRxLoop_succ]
      by_cases hgt : ((cxToRxLoop row (cx + 1) : Nat) : Int) > ((cxToRxLoop row c : Nat) : Int)
      · rw [if_pos hgt]
        by_contra hne
        have := cxToRxLoop_mono row (show cx + 1 ≤ c by omega)
        omega
      · rw [if_neg hgt]
        apply ih
        · by_contra hne
          have : c = cx := by omega
          subst this
          have := cxToRxLoop_lt_succ row c
          omega
        · omega
    · rw [if_neg hlt]
      omega

/-! ## Column conversion: the claims -/

/-- C1: for every row and every `cx` with `0 ≤ cx ≤ row.size`, mapping `cx`
to its render column with `editorRowCxToRx` and back with `editorRowRxToCx`
gives `cx` again, whether or not the row holds tabs. -/
theorem C1_rx_to_cx_round_trip (row : erow) (cx : Int) (h0 : 0 ≤ cx) (h1 : cx ≤ row.size) :
    editorRowRxToCx row (editorRowCxToRx row cx) = cx := by
  obtain ⟨c, rfl⟩ := Int.eq_ofNat_of_zero_le h0
  simp only [erow.size, Nat.cast_le] at h1
  simp only [editorRowRxToCx, editorRowCxToRx, Int.toNat_ofNat]
  have := rxToCxLoop_at row c h1 row.chars.length 0 (Nat.zero_le _) (by omega)
  rw [cxToRxLoop_zero] at this
  rw [this]

/-- C1, at the row `a<TAB>b<TAB>` and the column after the first tab. -/
theorem C1_rx_to_cx_round_trip_witness :
    editorRowRxToCx ⟨0, [97, 9, 98, 9], [], [], false⟩
      (editorRowCxToRx ⟨0, [97, 9, 98, 9], [], [], false⟩ 2) = 2 :=
  C1_rx_to_cx_round_trip ⟨0, [97, 9, 98, 9], [], [], false⟩ 2 (by decide) (by decide)

/-- C3: for every row and all `a ≤ b` in `[0, row.size]`, the render column
of `a` is at most the render column of `b`. -/
theorem C3_cx_to_rx_monotone (row : erow) (a b : Int) (h0 : 0 ≤ a) (hab : a ≤ b)
    (hb : b ≤ row.size) : editorRowCxToRx row a ≤ editorRowCxToRx row b := by
  simp only [editorRowCxToRx, Nat.cast_le]
  exact cxToRxLoop_mono row (Int.toNat_le_toNat hab)

/-- C3, at the row `a<TAB>b<TAB>` and the columns 1 and 3. -/
theorem C3_cx_to_rx_monotone_witness :
    editorRowCxToRx ⟨0, [97, 9, 98, 9], [], [], false⟩ 1 ≤
      editorRowCxToRx ⟨0, [97, 9, 98, 9], [], [], false⟩ 3 :=
  C3_cx_to_rx_monotone ⟨0, [97, 9, 98, 9], [], [], false⟩ 1 3 (by decide) (by decide) (by decide)

/-- C4: for every row and every index `j < row.size`: when `chars[j]` is a
tab, the render column of `j + 1` is the smallest multiple of
`HELIS_TAB_STOP` (which is 4) strictly greater than the render column of
`j`; otherwise it is the render column of `j` plus one. -/
theorem C4_tab_advances_to_next_stop (row : erow) (j : Int) (h0 : 0 ≤ j) (h1 : j < row.size) :
    HELIS_TAB_STOP = 4 ∧
    (row.chars.getD j.toNat 0 = 9 →
      (HELIS_TAB_STOP : Int) ∣ editorRowCxToRx row (j + 1) ∧
      editorRowCxToRx row j < editorRowCxToRx row (j + 1) ∧
      ∀ m : Int, (HELIS_TAB_STOP : Int) ∣ m → editorRowCxToRx row j < m →
        editorRowCxToRx row (j + 1) ≤ m) ∧
    (row.chars.getD j.toNat 0 ≠ 9 → editorRowCxToRx row (j + 1) = editorRowCxToRx row j + 1) := by
  obtain ⟨n, rfl⟩ := Int.eq_ofNat_of_zero_le h0
  have hs : ((n : Int) + 1).toNat = n + 1 := by omega
  simp only [editorRowCxToRx, Int.toNat_ofNat, hs, cxToRxLoop_succ, rxAdvance, HELIS_TAB_STOP]
  refine ⟨trivial, ?_, ?_⟩
  · intro ht
    rw [if_pos ht]
    refine ⟨?_, ?_, ?_⟩
    · omega
    · omega
    · intro m hm hlt
      omega
  · intro ht
    rw [if_neg ht]
    push_cast
    ring

/-- C4, at the row `a<TAB>b<TAB>` and its first tab. -/
theorem C4_tab_advances_to_next_stop_witness :
    HELIS_TAB_STOP = 4 ∧
    ((([97, 9, 98, 9] : List Nat).getD (1 : Int).toNat 0 = 9 →
      (HELIS_TAB_STOP : Int) ∣ editorRowCxToRx ⟨0, [97, 9, 98, 9], [], [], false⟩ (1 + 1) ∧
      editorRowCxToRx ⟨0, [97, 9, 98, 9], [], [], false⟩ 1 <
        editorRowCxToRx ⟨0, [97, 9, 98, 9], [], [], false⟩ (1 + 1) ∧
      ∀ m : Int, (HELIS_TAB_STOP : Int) ∣ m →
        editorRowCxToRx ⟨0, [97, 9, 98, 9], [], [], false⟩ 1 < m →
        editorRowCxToRx ⟨0, [97, 9, 98, 9], [], [], false⟩ (1 + 1) ≤ m)) ∧
    (([97, 9, 98, 9] : List Nat).getD (1 : Int).toNat 0 ≠ 9 →
      editorRowCxToRx ⟨0, [97, 9, 98, 9], [], [], false⟩ (1 + 1) =
        editorRowCxToRx ⟨0, [97, 9, 98, 9], [], [], false⟩ 1 + 1) :=
  C4_tab_advances_to_next_stop ⟨0, [97, 9, 98, 9], [], [], false⟩ 1 (by decide) (by decide)

/-! ## Highlight recomputation leaves the text alone -/

theorem map_set_same {α β : Type} (f : α → β) (l : List α) (k : Nat) (r r' : α)
    (h : l[k]? = some r) (hf : f r' = f r) : (l.set k r').map f = l.map f := by
  apply List.ext_getElem?
  intro n
  simp only [List.getElem?_map, List.getElem?_set]
  by_cases hkn : k = n
  · subst hkn
    have hlt : k < l.length := by
      rcases Nat.lt_or_ge k l.length with h1 | h1
      · exact h1
      · rw [List.getElem?_eq_none h1] at h
        exact absurd h (by simp)
    simp [hlt, h, hf]
  · simp [hkn]

theorem updateSyntaxFuel_frame {β : Type} (f : erow → β)
    (hf : ∀ (r : erow) (hl : List Nat) (b : Bool),
      f { r with hl := hl, hl_open_comment := b } = f r) :
    ∀ (fuel : Nat) (E : editorConfig) (k : Nat),
      (editorUpdateSyntaxFuel fuel E k).row.map f = E.row.map f ∧
      editorUpdateSyntaxFuel fuel E k = { E with row := (editorUpdateSyntaxFuel fuel E k).row } := by
  intro fuel
  induction fuel with
  | zero => intro E k; simp [editorUpdateSyntaxFuel]
  | succ n ih =>
    intro E k
    simp only [editorUpdateSyntaxFuel]
    split
    · simp
    · rename_i row hrow
      split
      · refine ⟨?_, rfl⟩
        exact map_set_same f E.row k row _ hrow (hf row _ row.hl_open_comment)
      · rename_i s hs
        have hset := map_set_same f E.row k row (updateSyntaxRow E s row) hrow (hf row _ _)
        split
        · obtain ⟨h1, h2⟩ := ih { E with row := E.row.set k (updateSyntaxRow E s row) }
            (row.idx + 1).toNat
          refine ⟨h1.trans hset, ?_⟩
          rw [h2]
        · exact ⟨hset, rfl⟩

theorem updateRow_frame {β : Type} (f : erow → β)
    (hf : ∀ (r : erow) (render hl : List Nat) (b : Bool),
      f { r with render := render, hl := hl, hl_open_comment := b } = f r)
    (E : editorConfig) (k : Nat) :
    (editorUpdateRow E k).row.map f = E.row.map f ∧
    editorUpdateRow E k = { E with row := (editorUpdateRow E k).row } := by
  unfold editorUpdateRow
  split
  · simp
  · rename_i row hrow
    unfold editorUpdateSyntax
    obtain ⟨h1, h2⟩ := updateSyntaxFuel_frame f (fun r hl b => hf r r.render hl b)
      (E.row.set k { row with render := renderChars row.chars }).length
      { E with row := E.row.set k { row with render := renderChars row.chars } } k
    refine ⟨h1.trans ?_, ?_⟩
    · exact map_set_same f E.row k row _ hrow (hf row _ row.hl row.hl_open_comment)
    · rw [h2]

theorem updateRow_numrows (E : editorConfig) (k : Nat) :
    (editorUpdateRow E k).numrows = E.numrows := by
  rw [(updateRow_frame (fun r => r.chars) (fun _ _ _ _ => rfl) E k).2]

theorem updateRow_syn (E : editorConfig) (k : Nat) : (editorUpdateRow E k).syn = E.syn := by
  rw [(updateRow_frame (fun r => r.chars) (fun _ _ _ _ => rfl) E k).2]

theorem updateRow_length (E : editorConfig) (k : Nat) :
    (editorUpdateRow E k).row.length = E.row.length := by
  have := congrArg List.length (updateRow_frame (fun r => r.chars) (fun _ _ _ _ => rfl) E k).1
  simpa using this

/-- C5: for every buffer and every row index `i`, `editorUpdateRow` and
`editorUpdateSyntax` on row `i`, with the re-highlighting of the rows below
at any depth of the cascade, leave the character sequence and the size (and
the index) of every row unchanged, and change no field of the editor state
other than the rows: only render, highlight and carry flag change. -/
theorem C5_highlight_keeps_text (E : editorConfig) (i : Nat) :
    ((editorUpdateRow E i).row.map (fun r => (r.idx, r.chars, r.size)) =
        E.row.map (fun r => (r.idx, r.chars, r.size)) ∧
      editorUpdateRow E i = { E with row := (editorUpdateRow E i).row }) ∧
    ((editorUpdateSyntax E i).row.map (fun r => (r.idx, r.chars, r.size)) =
        E.row.map (fun r => (r.idx, r.chars, r.size)) ∧
      editorUpdateSyntax E i = { E with row := (editorUpdateSyntax E i).row }) ∧
    ∀ fuel : Nat,
      (editorUpdateSyntaxFuel fuel E i).row.map (fun r => (r.idx, r.chars, r.size)) =
        E.row.map (fun r => (r.idx, r.chars, r.size)) ∧
      editorUpdateSyntaxFuel fuel E i = { E with row := (editorUpdateSyntaxFuel fuel E i).row } :=
  ⟨updateRow_frame (fun r => (r.idx, r.chars, r.size)) (fun _ _ _ _ => rfl) E i,
   updateSyntaxFuel_frame (fun r => (r.idx, r.chars, r.size)) (fun _ _ _ => rfl)
     E.row.length E i,
   fun fuel =>
     updateSyntaxFuel_frame (fun r => (r.idx, r.chars, r.size)) (fun _ _ _ => rfl) fuel E i⟩

/-! ## Insert then delete -/

theorem getElem?_of_map_set {l l' : List erow} {k : Nat} {row : erow} {cs : List Nat}
    (hrow : l[k]? = some row)
    (h : l'.map (fun r => r.chars) = (l.map (fun r => r.chars)).set k cs) :
    ∃ row', l'[k]? = some row' ∧ row'.chars = cs := by
  have hk : k < l.length := by
    rcases Nat.lt_or_ge k l.length with h1 | h1
    · exact h1
    · rw [List.getElem?_eq_none h1] at hrow
      exact absurd hrow (by simp)
  have h2 := congrArg (fun m => m[k]?) h
  simp only [List.getElem?_map, List.getElem?_set, if_true, List.length_map, hk] at h2
  cases hr : l'[k]? with
  | none => rw [hr] at h2; simp at h2
  | some r =>
    rw [hr] at h2
    simp only [Option.map_some', Option.some.injEq] at h2
    exact ⟨r, rfl, h2⟩

theorem rowInsertChar_chars (E : editorConfig) (k : Nat) (row : erow) (at_ c : Int)
    (hrow : E.row[k]? = some row) (h0 : 0 ≤ at_) (h1 : at_ ≤ row.size) :
    (editorRowInsertChar E k at_ c).row.map (fun r => r.chars) =
      (E.row.map (fun r => r.chars)).set k
        (row.chars.take at_.toNat ++ [(c % 256).toNat] ++ row.chars.drop at_.toNat) := by
  simp only [editorRowInsertChar, hrow]
  have hat : ¬ (at_ < 0 ∨ at_ > row.size) := by omega
  rw [if_neg hat]
  rw [(updateRow_frame (fun r => r.chars) (fun _ _ _ _ => rfl) _ k).1]
  simp

theorem rowDelChar_chars (E : editorConfig) (k : Nat) (row : erow) (at_ : Int)
    (hrow : E.row[k]? = some row) (h0 : 0 ≤ at_) (h1 : at_ < row.size) :
    (editorRowDelChar E k at_).row.map (fun r => r.chars) =
      (E.row.map (fun r => r.chars)).set k
        (row.chars.take at_.toNat ++ row.chars.drop (at_.toNat + 1)) := by
  simp only [editorRowDelChar, hrow]
  have hat : ¬ (at_ < 0 ∨ at_ ≥ row.size) := by omega
  rw [if_neg hat]
  rw [(updateRow_frame (fun r => r.chars) (fun _ _ _ _ => rfl) _ k).1]
  simp

/-- C2: for every row `k` of every buffer, every `c` and every position `at_`
with `0 ≤ at_ ≤ row.size`, `editorRowInsertChar(row, at_, c)` followed by
`editorRowDelChar(row, at_)` leaves the character sequence and the size of
the row (and of every other row) as they were before the insert. -/
theorem C2_insert_then_delete_restores (E : editorConfig) (k : Nat) (row : erow) (at_ c : Int)
    (hrow : E.row[k]? = some row) (h0 : 0 ≤ at_) (h1 : at_ ≤ row.size) :
    (∃ row', (editorRowDelChar (editorRowInsertChar E k at_ c) k at_).row[k]? = some row' ∧
      row'.chars = row.chars ∧ row'.size = row.size) ∧
    (editorRowDelChar (editorRowInsertChar E k at_ c) k at_).row.map (fun r => (r.chars, r.size)) =
      E.row.map (fun r => (r.chars, r.size)) := by
  have hins := rowInsertChar_chars E k row at_ c hrow h0 h1
  obtain ⟨row1, hrow1, hchars1⟩ := getElem?_of_map_set hrow hins
  obtain ⟨n, rfl⟩ := Int.eq_ofNat_of_zero_le h0
  simp only [erow.size, Nat.cast_le, Int.toNat_ofNat] at h1 hchars1 hins
  have hsz : (n : Int) < row1.size := by
    simp only [erow.size, hchars1, List.length_append, List.length_take, List.length_drop,
      List.length_singleton]
    omega
  have hdel := rowDelChar_chars _ k row1 n hrow1 (by omega) hsz
  have hback : row1.chars.take n ++ row1.chars.drop (n + 1) = row.chars := by
    rw [hchars1]
    have hlen : (row.chars.take n).length = n := by simp; omega
    rw [List.append_assoc, List.take_append_of_le_length (by omega), List.take_take,
      Nat.min_self]
    have : n + 1 = (row.chars.take n).length + 1 := by omega
    rw [this, List.drop_append]
    simp
  simp only [Int.toNat_ofNat, hback, hins, List.set_set] at hdel
  have hk : k < E.row.length := by
    rcases Nat.lt_or_ge k E.row.length with h2 | h2
    · exact h2
    · rw [List.getElem?_eq_none h2] at hrow
      exact absurd hrow (by simp)
  have hall : (editorRowDelChar (editorRowInsertChar E k n c) k n).row.map (fun r => r.chars) =
      E.row.map (fun r => r.chars) := by
    rw [hdel]
    apply List.ext_getElem?
    intro m
    simp only [List.getElem?_set, List.getElem?_map, List.length_map]
    by_cases hkm : k = m
    · subst hkm
      simp [hk, hrow]
    · simp [hkm]
  have hall2 : (editorRowDelChar (editorRowInsertChar E k n c) k n).row.map
      (fun r => (r.chars, r.size)) = E.row.map (fun r => (r.chars, r.size)) := by
    have := congrArg (List.map (fun cs : List Nat => (cs, (cs.length : Int)))) hall
    simpa [List.map_map, Function.comp, erow.size] using this
  refine ⟨?_, hall2⟩
  have h3 := congrArg (fun m => m[k]?) hall2
  simp only [List.getElem?_map, hrow, Option.map_some'] at h3
  cases hr : (editorRowDelChar (editorRowInsertChar E k n c) k n).row[k]? with
  | none => rw [hr] at h3; simp at h3
  | some r =>
    rw [hr] at h3
    simp only [Option.map_some', Option.some.injEq, Prod.mk.injEq] at h3
    exact ⟨r, rfl, h3.1, h3.2⟩

/-- C2, in a one-row buffer `ab`, inserting `x` at position 1. -/
theorem C2_insert_then_delete_restores_witness :
    (∃ row', (editorRowDelChar (editorRowInsertChar
        { initEditor 24 80 with numrows := 1, row := [⟨0, [97, 98], [97, 98], [0, 0], false⟩] }
        0 1 120) 0 1).row[0]? = some row' ∧
      row'.chars = [97, 98] ∧ row'.size = (⟨0, [97, 98], [97, 98], [0, 0], false⟩ : erow).size) ∧
    (editorRowDelChar (editorRowInsertChar
        { initEditor 24 80 with numrows := 1, row := [⟨0, [97, 98], [97, 98], [0, 0], false⟩] }
        0 1 120) 0 1).row.map (fun r => (r.chars, r.size)) =
      [(([97, 98] : List Nat), (2 : Int))] :=
  C2_insert_then_delete_restores
    { initEditor 24 80 with numrows := 1, row := [⟨0, [97, 98], [97, 98], [0, 0], false⟩] }
    0 ⟨0, [97, 98], [97, 98], [0, 0], false⟩ 1 120 rfl (by decide) (by decide)

/-! ## Persist then reload -/

theorem rowsToString_foldl (l : List erow) (acc : List Nat) :
    l.foldl (fun buf row => buf ++ row.chars ++ [10]) acc =
      acc ++ (l.map (fun r => r.chars ++ [10])).flatten := by
  induction l generalizing acc with
  | nil => simp
  | cons r rs ih =>
    simp only [List.foldl_cons, List.map_cons, List.flatten_cons]
    rw [ih]
    simp [List.append_assoc]

theorem getlineScan_line (l rest : List Nat) (hl : ∀ c ∈ l, c ≠ 10) (acc : List Nat) :
    getlineScan acc (l ++ 10 :: rest) = (acc ++ l ++ [10], rest) := by
  induction l generalizing acc with
  | nil => simp [getlineScan]
  | cons c cs ih =>
    have hc : c ≠ 10 := hl c (by simp)
    have hcons : (c :: cs) ++ 10 :: rest = c :: (cs ++ 10 :: rest) := rfl
    rw [hcons]
    simp only [getlineScan, if_neg hc]
    rw [ih (fun x hx => hl x (by simp [hx]))]
    simp

theorem stripLineEnd_line (l : List Nat) (hl : ∀ c ∈ l, c ≠ 10 ∧ c ≠ 13) :
    stripLineEnd (l ++ [10]) = l := by
  unfold stripLineEnd
  rw [List.rdropWhile_concat_pos _ _ _ (by simp)]
  rw [List.rdropWhile_eq_self_iff]
  intro hne
  have := hl _ (List.getLast_mem hne)
  simpa using this

theorem insertRow_chars (E : editorConfig) (at_ : Int) (s : List Nat) (h0 : 0 ≤ at_)
    (h1 : at_ ≤ E.numrows) :
    (editorInsertRow E at_ s).row.map (fun r => r.chars) =
      (E.row.map (fun r => r.chars)).take at_.toNat ++ [s] ++
        (E.row.map (fun r => r.chars)).drop at_.toNat ∧
    (editorInsertRow E at_ s).numrows = E.numrows + 1 ∧
    (editorInsertRow E at_ s).row.length = E.row.length + 1 := by
  have hat : ¬ (at_ < 0 ∨ at_ > E.numrows) := by omega
  simp only [editorInsertRow, if_neg hat]
  refine ⟨?_, ?_, ?_⟩
  · rw [(updateRow_frame (fun r => r.chars) (fun _ _ _ _ => rfl) _ at_.toNat).1]
    simp [List.map_take, List.map_drop, Function.comp_def]
  · rw [updateRow_numrows]
  · rw [updateRow_length]
    simp only [List.length_append, List.length_take, List.length_map, List.length_drop,
      List.length_singleton]
    omega

theorem openLoop_lines (lines : List (List Nat))
    (hl : ∀ l ∈ lines, ∀ c ∈ l, c ≠ 10 ∧ c ≠ 13) :
    ∀ (fuel : Nat) (E : editorConfig), E.numrows = E.row.length →
      (lines.map (fun l => l ++ [10])).flatten.length ≤ fuel →
      (editorOpenLoop fuel (lines.map (fun l => l ++ [10])).flatten E).row.map (fun r => r.chars) =
        E.row.map (fun r => r.chars) ++ lines ∧
      (editorOpenLoop fuel (lines.map (fun l => l ++ [10])).flatten E).numrows =
        E.numrows + lines.length := by
  induction lines with
  | nil =>
    intro fuel E _ _
    cases fuel <;> simp [editorOpenLoop, getline]
  | cons l ls ih =>
    intro fuel E hn hfuel
    have hl1 : ∀ c ∈ l, c ≠ 10 ∧ c ≠ 13 := hl l (by simp)
    cases fuel with
    | zero => simp at hfuel
    | succ n =>
      have hget : getline ((List.map (fun l => l ++ [10]) (l :: ls)).flatten) =
          some (l ++ [10], (List.map (fun l => l ++ [10]) ls).flatten) := by
        simp only [List.map_cons, List.flatten_cons, getline, List.append_assoc,
          List.singleton_append]
        rw [if_neg (by simp)]
        rw [getlineScan_line l _ (fun c hc => (hl1 c hc).1)]
        simp
      simp only [editorOpenLoop, hget, stripLineEnd_line l hl1]
      obtain ⟨hc, hnum, hlen⟩ := insertRow_chars E E.numrows l (by omega) (le_refl _)
      have hn' : (editorInsertRow E E.numrows l).numrows =
          ((editorInsertRow E E.numrows l).row.length : Int) := by
        rw [hnum, hlen, hn]
        push_cast
        rfl
      have hfuel' : (List.map (fun l => l ++ [10]) ls).flatten.length ≤ n := by
        simp only [List.map_cons, List.flatten_cons, List.length_append,
          List.length_singleton] at hfuel
        omega
      obtain ⟨h1, h2⟩ := ih (fun l' hl' => hl l' (by simp [hl'])) n _ hn' hfuel'
      refine ⟨?_, ?_⟩
      · rw [h1, hc, hn, Int.toNat_ofNat, List.take_of_length_le (by simp),
          List.drop_of_length_le (by simp)]
        simp
      · rw [h2, hnum]
        simp only [List.length_cons]
        push_cast
        ring

theorem selectSyntax_empty (E : editorConfig) (h0 : E.numrows = 0) (hr : E.row = []) :
    (editorSelectSyntaxHighlight E).numrows = 0 ∧ (editorSelectSyntaxHighlight E).row = [] := by
  unfold editorSelectSyntaxHighlight
  split
  · exact ⟨h0, hr⟩
  · simp only [HLDB, hldbLoop]
    split <;> simp [updateSyntaxAllRows, h0, hr]

/-- C8: for every buffer of `N` rows in which no row holds a `\n` or `\r`
byte, loading the bytes that `editorRowsToString` produces, the way
`editorOpen` does (one row per line of `getline`, the trailing `\n` and `\r`
bytes stripped), gives exactly `N` rows whose character sequences equal the
original ones, in the same order. -/
theorem C8_persist_then_reload (E : editorConfig) (filename : List Nat) (rows cols : Int)
    (hn : E.numrows = E.row.length)
    (hnl : ∀ r ∈ E.row, ∀ c ∈ r.chars, c ≠ 10 ∧ c ≠ 13) :
    (editorOpen (initEditor rows cols) filename (editorRowsToString E)).row.map (fun r => r.chars) =
      E.row.map (fun r => r.chars) ∧
    (editorOpen (initEditor rows cols) filename (editorRowsToString E)).numrows = E.numrows ∧
    (editorOpen (initEditor rows cols) filename (editorRowsToString E)).row.length =
      E.row.length := by
  have hstr : editorRowsToString E =
      ((E.row.map (fun r => r.chars)).map (fun l => l ++ [10])).flatten := by
    unfold editorRowsToString
    rw [rowsToString_foldl, hn]
    simp [List.map_map, Function.comp_def]
  obtain ⟨hs0, hsr⟩ := selectSyntax_empty
    { initEditor rows cols with filename := some (cstr filename) } rfl rfl
  have hlines : ∀ l ∈ E.row.map (fun r => r.chars), ∀ c ∈ l, c ≠ 10 ∧ c ≠ 13 := by
    intro l hl
    obtain ⟨r, hr, rfl⟩ := List.mem_map.1 hl
    exact hnl r hr
  obtain ⟨h1, h2⟩ := openLoop_lines _ hlines (editorRowsToString E).length
    (editorSelectSyntaxHighlight { initEditor rows cols with filename := some (cstr filename) })
    (by rw [hs0, hsr]; rfl) (by rw [hstr])
  rw [← hstr] at h1 h2
  have hmap : (editorOpen (initEditor rows cols) filename (editorRowsToString E)).row.map
      (fun r => r.chars) = E.row.map (fun r => r.chars) := by
    simp only [editorOpen]
    rw [h1, hsr]
    simp
  refine ⟨hmap, ?_, ?_⟩
  · simp only [editorOpen]
    rw [h2, hs0]
    simp [hn]
  · have := congrArg List.length hmap
    simpa using this

/-- C8, for the two-row buffer `ab`, `<TAB>c`. -/
theorem C8_persist_then_reload_witness :
    (editorOpen (initEditor 24 80) (bytes "a.c") (editorRowsToString
        { initEditor 24 80 with numrows := 2, row := [⟨0, [97, 98], [], [], false⟩,
            ⟨1, [9, 99], [], [], false⟩] })).row.map
      (fun r => r.chars) = [[97, 98], [9, 99]] ∧
    (editorOpen (initEditor 24 80) (bytes "a.c") (editorRowsToString
        { initEditor 24 80 with numrows := 2, row := [⟨0, [97, 98], [], [], false⟩,
            ⟨1, [9, 99], [], [], false⟩] })).numrows = 2 ∧
    (editorOpen (initEditor 24 80) (bytes "a.c") (editorRowsToString
        { initEditor 24 80 with numrows := 2, row := [⟨0, [97, 98], [], [], false⟩,
            ⟨1, [9, 99], [], [], false⟩] })).row.length = 2 :=
  C8_persist_then_reload
    { initEditor 24 80 with numrows := 2, row := [⟨0, [97, 98], [], [], false⟩,
        ⟨1, [9, 99], [], [], false⟩] }
    (bytes "a.c") 24 80 rfl (by decide)

/-! ## The scenario `int main() {` -/

/-- C10: with the C ruleset active and no open block comment carried in, the
highlight pass over the row `int main() {` classifies the three characters of
`int` as `HL_KEYWORD2` and the nine other characters, among them `main`, `(`,
`)` and the opening brace, as `HL_NORMAL`; this is also the highlight sequence
of the row after loading a file `main.c` that holds this line. -/
theorem C10_int_main_scenario :
    (hlRow HLDB_c (bytes "int main() \x7b") false).hl =
      [HL_KEYWORD2, HL_KEYWORD2, HL_KEYWORD2] ++ List.replicate 9 HL_NORMAL ∧
    (editorOpen (initEditor 24 80) (bytes "main.c") (bytes "int main() \x7b\n")).syn =
      some HLDB_c ∧
    (editorOpen (initEditor 24 80) (bytes "main.c") (bytes "int main() \x7b\n")).row.map
      (fun r => (r.render, r.hl)) =
      [(bytes "int main() \x7b",
        [HL_KEYWORD2, HL_KEYWORD2, HL_KEYWORD2] ++ List.replicate 9 HL_NORMAL)] := by
  decide

/-! ## Search -/

theorem strstrFrom_isSome (needle : List Nat) (l : List Nat) (p : Nat) :
    (strstrFrom needle l p).isSome = true ↔ needle <:+: l := by
  induction l generalizing p with
  | nil =>
    simp only [strstrFrom, List.infix_nil]
    split <;> simp_all
  | cons c rest ih =>
    simp only [strstrFrom, List.infix_cons_iff]
    split
    · rename_i h
      simp [h]
    · rename_i h
      rw [ih]
      simp [h]

theorem strstr_isSome (hay needle : List Nat) :
    (strstr hay needle).isSome = true ↔ cstr needle <:+: cstr hay :=
  strstrFrom_isSome _ _ 0

theorem findLoop_hit (query : List Nat) (E : editorConfig) (F : findState) (r : Nat)
    (hr : (r : Int) < E.numrows) (hd : F.direction = 1)
    (hm : (strstr (E.row.getD r default).render query).isSome = true) :
    (findLoop query 1 ((r : Int) - 1) E F).1.cy = r ∧
    (findLoop query 1 ((r : Int) - 1) E F).2.last_match = r := by
  have h1 : ¬ ((r : Int) = -1) := by omega
  have h2 : ¬ ((r : Int) = E.numrows) := by omega
  simp only [findLoop, hd, sub_add_cancel, if_neg h1, if_neg h2, Int.toNat_ofNat]
  cases hs : strstr (E.row.getD r default).render query with
  | none => rw [hs] at hm; simp at hm
  | some m => simp

theorem findLoop_step_miss (query : List Nat) (E : editorConfig) (F : findState)
    (hd : F.direction = 1) (fuel : Nat) (c : Int) (h1 : ¬ (c + 1 = -1))
    (h2 : ¬ (c + 1 = E.numrows))
    (hs : strstr (E.row.getD (c + 1).toNat default).render query = none) :
    findLoop query (fuel + 1) c E F = findLoop query fuel (c + 1) E F := by
  simp only [findLoop, hd, if_neg h1, if_neg h2, hs]

theorem findLoop_step_hit (query : List Nat) (E : editorConfig) (F : findState)
    (hd : F.direction = 1) (fuel : Nat) (c : Int) (h1 : ¬ (c + 1 = -1))
    (h2 : ¬ (c + 1 = E.numrows)) (m : Nat)
    (hs : strstr (E.row.getD (c + 1).toNat default).render query = some m) :
    findLoop query (fuel + 1) c E F = findLoop query 1 c E F := by
  simp only [findLoop, hd, if_neg h1, if_neg h2, hs]

theorem findLoop_scan (query : List Nat) (E : editorConfig) (F : findState)
    (hd : F.direction = 1) (g : Nat) :
    ∀ (f : Nat) (c : Int), -1 ≤ c → c + f < E.numrows →
      findLoop query (f + g) c E F =
        match (List.range' (c + 1).toNat f).find?
            (fun r => (strstr (E.row.getD r default).render query).isSome) with
        | some r => findLoop query 1 ((r : Int) - 1) E F
        | none => findLoop query g (c + f) E F := by
  intro f
  induction f with
  | zero =>
    intro c _ _
    simp
  | succ n ih =>
    intro c hc hlt
    have h1 : ¬ (c + 1 = -1) := by omega
    have h2 : ¬ (c + 1 = E.numrows) := by omega
    have hfg : n + 1 + g = (n + g) + 1 := by omega
    rw [hfg, List.range'_succ]
    simp only [List.find?_cons]
    have hback : (((c + 1).toNat : Nat) : Int) - 1 = c := by omega
    cases hs : strstr (E.row.getD (c + 1).toNat default).render query with
    | some m =>
      simp only [Option.isSome_some, hback]
      exact findLoop_step_hit query E F hd (n + g) c h1 h2 m hs
    | none =>
      simp only [Option.isSome_none]
      rw [findLoop_step_miss query E F hd (n + g) c h1 h2 hs,
        ih (c + 1) (by omega) (by push_cast at hlt ⊢; omega)]
      have e1 : (c + 1 + 1).toNat = (c + 1).toNat + 1 := by omega
      have e2 : c + 1 + (n : Int) = c + ((n + 1 : Nat) : Int) := by push_cast; ring
      rw [e1, e2]

theorem findLoop_wrap (query : List Nat) (E : editorConfig) (F : findState)
    (hd : F.direction = 1) (hn : 1 ≤ E.numrows) (g : Nat) :
    findLoop query (g + 1) (E.numrows - 1) E F = findLoop query (g + 1) (-1) E F := by
  have h1 : ¬ (E.numrows = -1) := by omega
  have h2 : ¬ ((0 : Int) = E.numrows) := by omega
  simp [findLoop, hd, h1, h2]

theorem findLoop_forward (query : List Nat) (E : editorConfig) (F : findState)
    (hd : F.direction = 1) (hn : E.numrows = E.row.length) (m : Int) (hm0 : -1 ≤ m)
    (hm1 : m < E.numrows ∨ m = -1) :
    findLoop query E.numrows.toNat m E F =
      match (forwardOrder E m).find?
          (fun r => (strstr (E.row.getD r default).render query).isSome) with
      | some r => findLoop query 1 ((r : Int) - 1) E F
      | none => (E, F) := by
  have hsplit : E.numrows.toNat = (E.row.length - (m + 1).toNat) + (m + 1).toNat := by omega
  rw [hsplit, findLoop_scan query E F hd (m + 1).toNat (E.row.length - (m + 1).toNat) m hm0
    (by omega)]
  simp only [forwardOrder, List.find?_append]
  cases h1 : (List.range' (m + 1).toNat (E.row.length - (m + 1).toNat)).find?
      (fun r => (strstr (E.row.getD r default).render query).isSome) with
  | some r => simp
  | none =>
    simp only [Option.none_or]
    cases hg : (m + 1).toNat with
    | zero => simp [findLoop]
    | succ g =>
      have hc : m + ((E.row.length - (g + 1) : Nat) : Int) = E.numrows - 1 := by omega
      rw [hc, findLoop_wrap query E F hd (by omega) g]
      have := findLoop_scan query E F hd 0 (g + 1) (-1) (le_refl _) (by omega)
      simp only [Nat.add_zero] at this
      rw [this, List.range_eq_range']
      simp only [neg_add_cancel, Int.toNat_zero]
      cases (List.range' 0 (g + 1)).find?
          (fun r => (strstr (E.row.getD r default).render query).isSome) with
      | some r => rfl
      | none => simp [findLoop]

theorem getD_set_hl_render (l : List erow) (i r : Nat) (hl : List Nat) :
    ((l.set i { l.getD i default with hl := hl }).getD r default).render =
      (l.getD r default).render := by
  simp only [List.getD_eq_getElem?_getD, List.getElem?_set]
  by_cases hir : i = r
  · subst hir
    by_cases hlt : i < l.length
    · simp [hlt]
    · simp [hlt, List.getElem?_eq_none (Nat.le_of_not_lt hlt)]
  · simp [hir]

theorem findCallback_forward (E : editorConfig) (F : findState) (query : List Nat) (key : Int)
    (hkey : key ≠ 13 ∧ key ≠ 27 ∧ key ≠ ARROW_LEFT ∧ key ≠ ARROW_UP) :
    ∃ (E1 : editorConfig) (F3 : findState),
      editorFindCallback E F query key =
        findLoop query E1.numrows.toNat F3.last_match E1 F3 ∧
      F3.direction = 1 ∧
      F3.last_match = (if key = ARROW_RIGHT ∨ key = ARROW_DOWN then F.last_match else -1) ∧
      E1.numrows = E.numrows ∧ E1.cx = E.cx ∧ E1.cy = E.cy ∧ E1.row.length = E.row.length ∧
      ∀ r, (E1.row.getD r default).render = (E.row.getD r default).render := by
  obtain ⟨hk1, hk2, hk3, hk4⟩ := hkey
  have hk : ¬ (key = 13 ∨ key = 27) := by
    rintro (h | h)
    · exact hk1 h
    · exact hk2 h
  have hk' : ¬ (key = ARROW_LEFT ∨ key = ARROW_UP) := by
    rintro (h | h)
    · exact hk3 h
    · exact hk4 h
  simp only [editorFindCallback, if_neg hk, if_neg hk']
  refine ⟨_, _, rfl, ?_, ?_, ?_, ?_, ?_, ?_, ?_⟩
  · by_cases ha : key = ARROW_RIGHT ∨ key = ARROW_DOWN
    · simp only [if_pos ha]
      split <;> rfl
    · simp only [if_neg ha]
      rfl
  · by_cases ha : key = ARROW_RIGHT ∨ key = ARROW_DOWN
    · simp only [if_pos ha]
      split <;> rfl
    · simp only [if_neg ha]
      rfl
  · cases F.saved_hl <;> rfl
  · cases F.saved_hl <;> rfl
  · cases F.saved_hl <;> rfl
  · cases F.saved_hl <;> simp
  · intro r
    cases F.saved_hl with
    | none => rfl
    | some saved => exact getD_set_hl_render E.row _ r _

theorem mem_forwardOrder (E : editorConfig) (m : Int) (hm : m < E.row.length) (r : Nat)
    (hr : r ∈ forwardOrder E m) : r < E.row.length := by
  simp only [forwardOrder, List.mem_append, List.mem_range'_1, List.mem_range] at hr
  omega

/-- For every buffer, every query and every key that steps forward, one call
of `editorFindCallback` with last match `m` sets the cursor row and the last
match to the first row, in the order `m + 1, ..., numrows - 1, 0, ..., m`,
whose render sequence read as a C string (the bytes before its first NUL)
contains the query, and changes neither the cursor nor the last match when
there is no such row; on the rows `alpha`, `beta`, `gamma`, `beta2`, `delta`
with the query `beta` three successive forward steps land on the rows 1, 3
and 1. -/
theorem forwardStep_cstring :
    (∀ (E : editorConfig) (F : findState) (query : List Nat) (key : Int),
      E.numrows = E.row.length →
      key ≠ 13 ∧ key ≠ 27 ∧ key ≠ ARROW_LEFT ∧ key ≠ ARROW_UP →
      -1 ≤ F.last_match ∧ F.last_match < E.numrows →
      forwardStepSpec (fun q render => decide (cstr q <:+: cstr render)) E F query key) ∧
    (editorFindCallback searchScenario findInit (bytes "beta") 97).1.cy = 1 ∧
    (editorFindCallback
      (editorFindCallback searchScenario findInit (bytes "beta") 97).1
      (editorFindCallback searchScenario findInit (bytes "beta") 97).2
      (bytes "beta") ARROW_RIGHT).1.cy = 3 ∧
    (editorFindCallback
      (editorFindCallback
        (editorFindCallback searchScenario findInit (bytes "beta") 97).1
        (editorFindCallback searchScenario findInit (bytes "beta") 97).2
        (bytes "beta") ARROW_RIGHT).1
      (editorFindCallback
        (editorFindCallback searchScenario findInit (bytes "beta") 97).1
        (editorFindCallback searchScenario findInit (bytes "beta") 97).2
        (bytes "beta") ARROW_RIGHT).2
      (bytes "beta") ARROW_RIGHT).1.cy = 1 := by
  refine ⟨?_, by decide, by decide, by decide⟩
  intro E F query key hn hkey hm
  obtain ⟨E1, F3, heq, hd, hlm, hn1, hcx, hcy, hlen, hrender⟩ :=
    findCallback_forward E F query key hkey
  have hm' : -1 ≤ F3.last_match ∧ (F3.last_match < E1.numrows ∨ F3.last_match = -1) := by
    rw [hlm, hn1]
    split <;> omega
  have hfw := findLoop_forward query E1 F3 hd (by rw [hn1, hlen, hn]) F3.last_match hm'.1 hm'.2
  have hord : forwardOrder E1 F3.last_match = forwardOrder E F3.last_match := by
    simp only [forwardOrder, hlen]
  have hpred : (fun r => (strstr (E1.row.getD r default).render query).isSome) =
      (fun r => decide (cstr query <:+: cstr (E.row.getD r default).render)) := by
    funext r
    rw [hrender r, Bool.eq_iff_iff, strstr_isSome]
    simp
  rw [hord, hpred] at hfw
  simp only [forwardStepSpec]
  rw [heq, hfw, ← hlm]
  cases hfind : (forwardOrder E F3.last_match).find?
      (fun r => decide (cstr query <:+: cstr (E.row.getD r default).render)) with
  | none =>
    simp only
    exact ⟨hcy, hcx, trivial⟩
  | some r =>
    simp only
    have hmem := List.mem_of_find?_eq_some hfind
    have hsome := List.find?_some hfind
    have hlt : r < E.row.length := by
      rcases hm'.2 with h | h
      · exact mem_forwardOrder E _ (by rw [hn1, hn] at h; exact h) r hmem
      · rw [h] at hmem
        simp only [forwardOrder] at hmem
        simp at hmem
        exact hmem
    have hmatch : (strstr (E1.row.getD r default).render query).isSome = true := by
      rw [hrender r, strstr_isSome]
      simpa using hsome
    exact findLoop_hit query E1 F3 r (by rw [hn1, hn]; exact_mod_cast hlt) hd hmatch

/-- The statement `forwardStep_cstring` at the scenario buffer, stepping
forward from the match on row 1. -/
theorem forwardStep_cstring_example :
    forwardStepSpec (fun q render => decide (cstr q <:+: cstr render)) searchScenario
      { findInit with last_match := 1 } (bytes "beta") ARROW_RIGHT :=
  forwardStep_cstring.1 searchScenario { findInit with last_match := 1 } (bytes "beta")
    ARROW_RIGHT (by decide) (by decide) (by decide)

/-- C9: a forward search step misses a row whose render sequence contains the
query behind a NUL byte.  The buffer is loaded from a file whose second line
is `a`, NUL, `beta`: the load keeps the six bytes of that row, its render and
highlight sequences have six cells, the buffer is written back byte for byte,
and the render sequence of row 1 contains the query `beta`; yet the step from
the start finds no row, leaves the cursor on row 0 and the last match at `-1`,
because `strstr` stops reading the row at the NUL. -/
theorem C9_search_stops_at_nul :
    searchNulBuffer.numrows = 2 ∧
    rowTexts searchNulBuffer = [bytes "alpha", [97, 0] ++ bytes "beta"] ∧
    (searchNulBuffer.row.getD 1 default).render = [97, 0] ++ bytes "beta" ∧
    (searchNulBuffer.row.getD 1 default).hl.length = 6 ∧
    editorRowsToString searchNulBuffer = bytes "alpha\na" ++ [0] ++ bytes "beta\n" ∧
    bytes "beta" <:+: (searchNulBuffer.row.getD 1 default).render ∧
    (forwardOrder searchNulBuffer (-1)).find?
        (fun r => decide (bytes "beta" <:+: (searchNulBuffer.row.getD r default).render)) =
      some 1 ∧
    searchNulBuffer.cy = 0 ∧
    (editorFindCallback searchNulBuffer findInit (bytes "beta") ARROW_RIGHT).1.cy = 0 ∧
    (editorFindCallback searchNulBuffer findInit (bytes "beta") ARROW_RIGHT).2.last_match = -1 ∧
    ¬ forwardStepSpec (fun q render => decide (q <:+: render)) searchNulBuffer findInit
      (bytes "beta") ARROW_RIGHT := by
  decide

/-! ## The cascade of `editorUpdateSyntax` -/

theorem idx_of_rowsIndexed (E : editorConfig) (h : rowsIndexed E) :
    ∀ (j : Nat) (row : erow), E.row[j]? = some row → row.idx = (j : Int) := by
  intro j row hrow
  have h2 := congrArg (fun l => l[j]?) h.2
  simp only [List.getElem?_map, hrow, Option.map_some'] at h2
  have hj : j < E.row.length := by
    rcases Nat.lt_or_ge j E.row.length with h1 | h1
    · exact h1
    · rw [List.getElem?_eq_none h1] at hrow
      exact absurd hrow (by simp)
  rw [List.getElem?_range hj] at h2
  simpa using h2

theorem lt_length_of_getElem? {α : Type} {l : List α} {j : Nat} {a : α} (h : l[j]? = some a) :
    j < l.length := by
  rcases Nat.lt_or_ge j l.length with h1 | h1
  · exact h1
  · rw [List.getElem?_eq_none h1] at h
    exact absurd h (by simp)

theorem carrySeed_congr (E E' : editorConfig) (m : Nat)
    (h : 0 < m → (E'.row.getD (m - 1) default).hl_open_comment =
      (E.row.getD (m - 1) default).hl_open_comment) :
    carrySeed E' m = carrySeed E m := by
  unfold carrySeed
  by_cases hm : 0 < m
  · rw [h hm]
  · simp [hm]

theorem carrySeed_congr_row (E E' : editorConfig) (m : Nat)
    (h : 0 < m → E'.row[m - 1]? = E.row[m - 1]?) : carrySeed E' m = carrySeed E m := by
  apply carrySeed_congr
  intro hm
  simp only [List.getD_eq_getElem?_getD, h hm]

theorem rowConsistent_congr (E E' : editorConfig) (m : Nat) (hs : E'.syn = E.syn)
    (h1 : E'.row[m]? = E.row[m]?) (h2 : carrySeed E' m = carrySeed E m)
    (h : rowConsistent E m) : rowConsistent E' m := by
  intro row hrow
  rw [hs, h2]
  exact h row (h1 ▸ hrow)

theorem updateSyntaxRow_eq (E : editorConfig) (s : editorSyntax) (row : erow) (k : Nat)
    (hidx : row.idx = (k : Int)) :
    updateSyntaxRow E s row =
      { row with hl := (hlRow s row.render (carrySeed E k)).hl,
                 hl_open_comment := (hlRow s row.render (carrySeed E k)).in_comment } := by
  have hseed : (decide (row.idx > 0 ∧
      (E.row.getD (row.idx - 1).toNat default).hl_open_comment = true)) = carrySeed E k := by
    rw [hidx]
    unfold carrySeed
    cases k with
    | zero => simp
    | succ j =>
      have : ((((j + 1 : Nat) : Int) - 1).toNat) = j := by omega
      rw [this]
      have hpos : (((j + 1 : Nat) : Int)) > 0 := by omega
      simp [hpos]
  simp only [updateSyntaxRow, hseed]

theorem updateSyntaxFuel_syn (fuel : Nat) (E : editorConfig) (k : Nat) :
    (editorUpdateSyntaxFuel fuel E k).syn = E.syn := by
  rw [(updateSyntaxFuel_frame (fun r => r.chars) (fun _ _ _ => rfl) fuel E k).2]

theorem updateSyntaxFuel_numrows (fuel : Nat) (E : editorConfig) (k : Nat) :
    (editorUpdateSyntaxFuel fuel E k).numrows = E.numrows := by
  rw [(updateSyntaxFuel_frame (fun r => r.chars) (fun _ _ _ => rfl) fuel E k).2]

theorem updateSyntaxFuel_length (fuel : Nat) (E : editorConfig) (k : Nat) :
    (editorUpdateSyntaxFuel fuel E k).row.length = E.row.length := by
  have := congrArg List.length
    (updateSyntaxFuel_frame (fun r => r.chars) (fun _ _ _ => rfl) fuel E k).1
  simpa using this

theorem updateSyntaxFuel_idx (fuel : Nat) (E : editorConfig) (k : Nat)
    (hidx : ∀ (j : Nat) (row : erow), E.row[j]? = some row → row.idx = (j : Int)) :
    ∀ (j : Nat) (row : erow), (editorUpdateSyntaxFuel fuel E k).row[j]? = some row →
      row.idx = (j : Int) := by
  intro j row hrow
  have h := congrArg (fun l => l[j]?)
    (updateSyntaxFuel_frame (fun r => r.idx) (fun _ _ _ => rfl) fuel E k).1
  simp only [List.getElem?_map, hrow, Option.map_some'] at h
  cases hr : E.row[j]? with
  | none => rw [hr] at h; simp at h
  | some r =>
    rw [hr] at h
    simp only [Option.map_some', Option.some.injEq] at h
    rw [h]
    exact hidx j r hr

theorem updateSyntaxFuel_render (fuel : Nat) (E : editorConfig) (k j : Nat) :
    ((editorUpdateSyntaxFuel fuel E k).row.getD j default).render =
      (E.row.getD j default).render := by
  have h := congrArg (fun l => l[j]?)
    (updateSyntaxFuel_frame (fun r => r.render) (fun _ _ _ => rfl) fuel E k).1
  simp only [List.getElem?_map] at h
  simp only [List.getD_eq_getElem?_getD]
  cases hr : E.row[j]? with
  | none =>
    rw [hr] at h
    cases hr' : (editorUpdateSyntaxFuel fuel E k).row[j]? with
    | none => rfl
    | some r' => rw [hr'] at h; simp at h
  | some r =>
    rw [hr] at h
    cases hr' : (editorUpdateSyntaxFuel fuel E k).row[j]? with
    | none => rw [hr'] at h; simp at h
    | some r' =>
      rw [hr'] at h
      simpa using h

theorem rowConsistent_set_pass (E : editorConfig) (s : editorSyntax) (k : Nat) (row : erow)
    (hs : E.syn = some s) (hrow : E.row[k]? = some row) :
    rowConsistent
      { E with row := (E.row.set k
          { row with hl := (hlRow s row.render (carrySeed E k)).hl,
                     hl_open_comment := (hlRow s row.render (carrySeed E k)).in_comment }) } k := by
  have hk := lt_length_of_getElem? hrow
  intro r hr
  simp only [List.getElem?_set_self hk, Option.some.injEq] at hr
  subst hr
  have hseed : carrySeed { E with row := (E.row.set k
      { row with hl := (hlRow s row.render (carrySeed E k)).hl,
                 hl_open_comment := (hlRow s row.render (carrySeed E k)).in_comment }) } k =
      carrySeed E k := by
    apply carrySeed_congr_row
    intro hpos
    exact List.getElem?_set_ne (by omega)
  rw [hseed]
  simp only [hs, passResult]

theorem updateSyntaxFuel_cascade :
    ∀ (fuel : Nat) (E : editorConfig) (k : Nat),
      (∀ (j : Nat) (row : erow), E.row[j]? = some row → row.idx = (j : Int)) →
      E.numrows ≤ E.row.length → k < E.row.length → 1 ≤ fuel → E.numrows - k ≤ fuel →
      (∀ m, m < k → (editorUpdateSyntaxFuel fuel E k).row[m]? = E.row[m]?) ∧
      rowConsistent (editorUpdateSyntaxFuel fuel E k) k ∧
      (∀ m, k < m → (m : Int) < E.numrows → rowConsistent E m →
        rowConsistent (editorUpdateSyntaxFuel fuel E k) m) ∧
      (∀ m, k < m → E.numrows ≤ (m : Int) →
        (editorUpdateSyntaxFuel fuel E k).row[m]? = E.row[m]?) := by
  intro fuel
  induction fuel with
  | zero => intro E k _ _ _ h1 _; omega
  | succ n ih =>
    intro E k hidx hn hk _ hfuel
    obtain ⟨row, hrow⟩ : ∃ row, E.row[k]? = some row := ⟨E.row[k], List.getElem?_eq_getElem hk⟩
    have hrowidx := hidx k row hrow
    cases hs : E.syn with
    | none =>
      have heq : editorUpdateSyntaxFuel (n + 1) E k =
          { E with row := (E.row.set k
              { row with hl := List.replicate row.render.length HL_NORMAL }) } := by
        simp only [editorUpdateSyntaxFuel, hrow, hs]
      rw [heq]
      refine ⟨?_, ?_, ?_, ?_⟩
      · intro m hm
        exact List.getElem?_set_ne (by omega)
      · intro r hr
        simp only [List.getElem?_set_self hk, Option.some.injEq] at hr
        subst hr
        simp only [hs, passResult]
      · intro m hkm _ hc
        refine rowConsistent_congr E _ m rfl (List.getElem?_set_ne (by omega)) ?_ hc
        apply carrySeed_congr
        intro _
        simp only [List.getD_eq_getElem?_getD, List.getElem?_set]
        by_cases hkm1 : k = m - 1
        · subst hkm1
          simp [hk, hrow]
        · simp [hkm1]
      · intro m hkm _
        exact List.getElem?_set_ne (by omega)
    | some s =>
      have hrow1 := updateSyntaxRow_eq E s row k hrowidx
      have hcons1 := rowConsistent_set_pass E s k row hs hrow
      rw [← hrow1] at hcons1
      by_cases hcas : (decide (row.hl_open_comment ≠ (updateSyntaxRow E s row).hl_open_comment)
          = true ∧ row.idx + 1 < E.numrows)
      · have heq : editorUpdateSyntaxFuel (n + 1) E k =
            editorUpdateSyntaxFuel n { E with row := E.row.set k (updateSyntaxRow E s row) }
              (k + 1) := by
          have : ((k : Int) + 1).toNat = k + 1 := by omega
          simp only [editorUpdateSyntaxFuel, hrow, hs]
          rw [if_pos hcas, hrowidx, this]
        have hk1 : (k : Int) + 1 < E.numrows := by rw [← hrowidx]; exact hcas.2
        have hidx1 : ∀ (j : Nat) (r : erow),
            (E.row.set k (updateSyntaxRow E s row))[j]? = some r → r.idx = (j : Int) := by
          intro j r hr
          by_cases hkj : k = j
          · subst hkj
            simp only [List.getElem?_set_self hk, Option.some.injEq] at hr
            subst hr
            rw [hrow1]
            exact hrowidx
          · rw [List.getElem?_set_ne hkj] at hr
            exact hidx j r hr
        obtain ⟨ia, ib, ic, id⟩ := ih { E with row := E.row.set k (updateSyntaxRow E s row) }
          (k + 1) hidx1 (by simpa using hn) (by simp only [List.length_set]; omega)
          (by omega) (by simp only; omega)
        rw [heq]
        refine ⟨?_, ?_, ?_, ?_⟩
        · intro m hm
          rw [ia m (by omega)]
          exact List.getElem?_set_ne (by omega)
        · refine rowConsistent_congr _ _ k (updateSyntaxFuel_syn _ _ _) (ia k (by omega)) ?_ hcons1
          apply carrySeed_congr_row
          intro hpos
          exact ia (k - 1) (by omega)
        · intro m hkm hmn hc
          by_cases hm1 : m = k + 1
          · subst hm1
            exact ib
          · apply ic m (by omega) hmn
            refine rowConsistent_congr E _ m rfl (List.getElem?_set_ne (by omega)) ?_ hc
            apply carrySeed_congr_row
            intro _
            exact List.getElem?_set_ne (by omega)
        · intro m hkm hmn
          rw [id m (by omega) hmn]
          exact List.getElem?_set_ne (by omega)
      · have heq : editorUpdateSyntaxFuel (n + 1) E k =
            { E with row := E.row.set k (updateSyntaxRow E s row) } := by
          simp only [editorUpdateSyntaxFuel, hrow, hs]
          rw [if_neg hcas]
        rw [heq]
        refine ⟨?_, hcons1, ?_, ?_⟩
        · intro m hm
          exact List.getElem?_set_ne (by omega)
        · intro m hkm hmn hc
          refine rowConsistent_congr E _ m rfl (List.getElem?_set_ne (by omega)) ?_ hc
          apply carrySeed_congr
          intro _
          simp only [List.getD_eq_getElem?_getD, List.getElem?_set]
          by_cases hkm1 : k = m - 1
          · subst hkm1
            have hsame : row.hl_open_comment = (updateSyntaxRow E s row).hl_open_comment := by
              by_contra hne
              apply hcas
              refine ⟨by simpa using hne, ?_⟩
              rw [hrowidx]
              omega
            simp [hk, hrow, hsame]
          · simp [hkm1]
        · intro m hkm _
          exact List.getElem?_set_ne (by omega)

/-! ## The highlight pass inside a block comment -/

theorem bytes_close : bytes "*/" = [42, 47] := by decide

theorem closeMarkerAt_iff (render : List Nat) (p : Nat) :
    closeMarkerAt render p ↔ strncmpEq (render.drop p) [42, 47] 2 = true := by
  unfold closeMarkerAt
  rw [bytes_close]
  rcases h : render.drop p with _ | ⟨x, _ | ⟨y, rest⟩⟩
  · simp [strncmpEq]
  · simp only [strncmpEq, List.headD_cons, List.tail_cons, List.headD_nil]
    by_cases hx : x = 42
    · subst hx
      simp [List.prefix_cons_inj]
    · simp [hx, List.cons_prefix_cons]
  · simp only [strncmpEq, List.headD_cons, List.tail_cons]
    by_cases hx : x = 42
    · subst hx
      by_cases hy : y = 47
      · subst hy
        simp [List.cons_prefix_cons]
      · simp [hy, List.cons_prefix_cons]
        omega
    · simp [hx, List.cons_prefix_cons]
      omega

theorem closeMarkerAt_le (render : List Nat) (p : Nat) (h : closeMarkerAt render p) :
    p + 2 ≤ render.length := by
  unfold closeMarkerAt at h
  rw [bytes_close] at h
  have := h.length_le
  simp only [List.length_cons, List.length_nil, List.length_drop] at this
  omega

theorem hlStep_in_comment (render : List Nat) (st : HlState) (hc : st.in_comment = true)
    (hs : st.in_string = 0) :
    hlStep HLDB_c render st =
      if strncmpEq (render.drop st.i) [42, 47] 2 = true then
        (false, { st with hl := memset (st.hl.set st.i HL_MLCOMMENT) st.i HL_MLCOMMENT 2,
                          i := st.i + 2, in_comment := false, prev_sep := true })
      else (false, { st with hl := st.hl.set st.i HL_MLCOMMENT, i := st.i + 1 }) := by
  have h1 : strlen (bytes "//") = 2 := by decide
  have h2 : strlen (bytes "/*") = 2 := by decide
  have h3 : strlen (bytes "*/") = 2 := by decide
  have h4 : strlen [42, 47] = 2 := by decide
  simp only [hlStep, hlCommentStep, HLDB_c, Option.getD_some, h1, h2, h3, hc, hs, bytes_close, h4]
  simp

theorem mlState_set (n a : Nat) (h : a < n) :
    (mlState n a).hl.set a HL_MLCOMMENT = (mlState n (a + 1)).hl := by
  simp only [mlState]
  have hn : n - a = (n - (a + 1)) + 1 := by omega
  rw [hn, List.replicate_succ, List.set_append_right _ _ (by simp)]
  simp [List.replicate_succ']

theorem mlState_close (n a : Nat) (h : a + 2 ≤ n) :
    memset ((mlState n a).hl.set a HL_MLCOMMENT) a HL_MLCOMMENT 2 = (closedState n a).hl := by
  rw [mlState_set n a (by omega)]
  simp only [mlState, closedState, memset]
  rw [List.take_append_of_le_length (by simp), List.take_replicate,
    List.drop_append_eq_append_drop, List.drop_replicate, List.drop_replicate]
  simp only [List.length_replicate]
  have e1 : min a (a + 1) = a := by omega
  have e2 : a + 1 - (a + 2) = 0 := by omega
  have e3 : n - (a + 1) - (a + 2 - (a + 1)) = n - (a + 2) := by omega
  rw [e1, e2, e3]
  simp only [List.replicate_zero, List.nil_append]
  rw [← List.replicate_add]

theorem hlStep_mlState (render : List Nat) (a : Nat) (h : a < render.length)
    (hno : ¬ closeMarkerAt render a) :
    hlStep HLDB_c render (mlState render.length a) = (false, mlState render.length (a + 1)) := by
  rw [hlStep_in_comment render _ rfl rfl]
  rw [closeMarkerAt_iff] at hno
  have hi : (mlState render.length a).i = a := rfl
  rw [hi, if_neg hno, mlState_set _ _ h]
  rfl

theorem hlStep_mlState_close (render : List Nat) (a : Nat) (hc : closeMarkerAt render a) :
    hlStep HLDB_c render (mlState render.length a) = (false, closedState render.length a) := by
  rw [hlStep_in_comment render _ rfl rfl]
  have hle := closeMarkerAt_le render a hc
  rw [closeMarkerAt_iff] at hc
  have hi : (mlState render.length a).i = a := rfl
  rw [hi, if_pos hc, mlState_close _ _ hle]
  rfl

theorem hlLoop_mlState (render : List Nat) (fuel : Nat) :
    ∀ (d a : Nat), a + d ≤ render.length →
      (∀ q, a ≤ q → q < a + d → ¬ closeMarkerAt render q) →
      hlLoop HLDB_c render (fuel + d) (mlState render.length a) =
        hlLoop HLDB_c render fuel (mlState render.length (a + d)) := by
  intro d
  induction d with
  | zero => intro a _ _; rfl
  | succ n ih =>
    intro a hle hno
    have hfd : fuel + (n + 1) = (fuel + n) + 1 := by omega
    have hi : (mlState render.length a).i = a := rfl
    have hlt : a < render.length := by omega
    rw [hfd]
    simp only [hlLoop, hi, if_pos hlt]
    rw [hlStep_mlState render a hlt (hno a (le_refl _) (by omega))]
    simp only [Bool.false_eq_true, if_false]
    rw [ih (a + 1) (by omega) (fun q h1 h2 => hno q (by omega) (by omega))]
    have : a + 1 + n = a + (n + 1) := by omega
    rw [this]

theorem hlRow_start (render : List Nat) :
    hlRow HLDB_c render true = hlLoop HLDB_c render render.length (mlState render.length 0) := by
  simp [hlRow, mlState]

theorem hlRow_no_close (render : List Nat) (hno : ∀ q, ¬ closeMarkerAt render q) :
    (hlRow HLDB_c render true).hl = List.replicate render.length HL_MLCOMMENT ∧
    (hlRow HLDB_c render true).in_comment = true := by
  have h := hlLoop_mlState render 0 render.length 0 (by omega) (fun q _ _ => hno q)
  simp only [Nat.zero_add] at h
  rw [hlRow_start, h]
  simp [hlLoop, mlState]

theorem hlRow_first_close (render : List Nat) (p : Nat) (h : firstCloseMarker render p) :
    hlRow HLDB_c render true =
      hlLoop HLDB_c render (render.length - (p + 1)) (closedState render.length p) := by
  have hle := closeMarkerAt_le render p h.1
  have hrun := hlLoop_mlState render (render.length - p) p 0 (by omega)
    (fun q _ h2 => h.2 q (by omega))
  have hfuel : render.length - p + p = render.length := by omega
  simp only [Nat.zero_add, hfuel] at hrun
  rw [hlRow_start, hrun]
  have hf2 : render.length - p = (render.length - (p + 1)) + 1 := by omega
  have hi : (mlState render.length p).i = p := rfl
  have hlt : p < render.length := by omega
  rw [hf2]
  simp only [hlLoop, hi, if_pos hlt]
  rw [hlStep_mlState_close render p h.1]
  simp

/-! ## The highlight loop never rewrites the columns behind it -/

theorem take_set_ge (hl : List Nat) (i j v : Nat) (h : i ≤ j) :
    (hl.set j v).take i = hl.take i := by
  apply List.ext_getElem?
  intro n
  simp only [List.getElem?_take]
  split
  · rw [List.getElem?_set_ne (by omega)]
  · rfl

theorem take_memset (hl : List Nat) (i v k : Nat) (h : i ≤ hl.length) :
    (memset hl i v k).take i = hl.take i := by
  simp only [memset, List.append_assoc]
  rw [List.take_append_of_le_length (by simp; omega), List.take_take, Nat.min_self]

theorem length_memset (hl : List Nat) (i v k : Nat) (h : i ≤ hl.length) :
    hl.length ≤ (memset hl i v k).length := by
  simp only [memset, List.length_append, List.length_take, List.length_replicate,
    List.length_drop]
  omega

theorem hlKeywordStep_take (s : editorSyntax) (render : List Nat) (st : HlState)
    (hI : render.length ≤ st.hl.length) (hi : st.i < render.length) :
    render.length ≤ (hlKeywordStep s render st).2.hl.length ∧
    (hlKeywordStep s render st).2.hl.take st.i = st.hl.take st.i ∧
    st.i ≤ (hlKeywordStep s render st).2.i := by
  have hle : st.i ≤ st.hl.length := by omega
  unfold hlKeywordStep
  simp only
  split
  · exact ⟨Nat.le_trans hI (length_memset _ _ _ _ hle), take_memset _ _ _ _ hle, by simp⟩
  · exact ⟨hI, rfl, by simp⟩

theorem hlNumberStep_take (s : editorSyntax) (render : List Nat) (st : HlState)
    (hI : render.length ≤ st.hl.length) (hi : st.i < render.length) :
    render.length ≤ (hlNumberStep s render st).2.hl.length ∧
    (hlNumberStep s render st).2.hl.take st.i = st.hl.take st.i ∧
    st.i ≤ (hlNumberStep s render st).2.i := by
  unfold hlNumberStep
  simp only
  split_ifs <;>
    first
    | exact hlKeywordStep_take s render st hI hi
    | exact ⟨by simpa using hI, take_set_ge _ _ _ _ (le_refl _), by simp⟩

theorem hlStringStep_take (s : editorSyntax) (render : List Nat) (st : HlState)
    (hI : render.length ≤ st.hl.length) (hi : st.i < render.length) :
    render.length ≤ (hlStringStep s render st).2.hl.length ∧
    (hlStringStep s render st).2.hl.take st.i = st.hl.take st.i ∧
    st.i ≤ (hlStringStep s render st).2.i := by
  unfold hlStringStep
  simp only
  split_ifs <;>
    first
    | exact hlNumberStep_take s render st hI hi
    | exact ⟨by simpa using hI, take_set_ge _ _ _ _ (le_refl _), by simp⟩
    | (refine ⟨by simpa using hI, ?_, by simp⟩
       simp only
       rw [take_set_ge _ _ _ _ (by omega), take_set_ge _ _ _ _ (le_refl _)])

theorem hlCommentStep_take (s : editorSyntax) (render : List Nat) (st : HlState)
    (hI : render.length ≤ st.hl.length) (hi : st.i < render.length) :
    render.length ≤ (hlCommentStep s render st).2.hl.length ∧
    (hlCommentStep s render st).2.hl.take st.i = st.hl.take st.i ∧
    st.i ≤ (hlCommentStep s render st).2.i := by
  have hle : st.i ≤ st.hl.length := by omega
  unfold hlCommentStep
  simp only
  split_ifs <;>
    first
    | exact hlStringStep_take s render st hI hi
    | exact ⟨by simpa using hI, take_set_ge _ _ _ _ (le_refl _), by simp⟩
    | exact ⟨Nat.le_trans hI (length_memset _ _ _ _ hle), take_memset _ _ _ _ hle, by simp⟩
    | (refine ⟨?_, ?_, by simp⟩
       · exact Nat.le_trans (by simpa using hI) (length_memset _ _ _ _ (by simpa using hle))
       · simp only
         rw [take_memset _ _ _ _ (by simpa using hle), take_set_ge _ _ _ _ (le_refl _)])

theorem hlStep_take (s : editorSyntax) (render : List Nat) (st : HlState)
    (hI : render.length ≤ st.hl.length) (hi : st.i < render.length) :
    render.length ≤ (hlStep s render st).2.hl.length ∧
    (hlStep s render st).2.hl.take st.i = st.hl.take st.i ∧
    st.i ≤ (hlStep s render st).2.i := by
  have hle : st.i ≤ st.hl.length := by omega
  unfold hlStep
  simp only
  split_ifs
  · exact ⟨Nat.le_trans hI (length_memset _ _ _ _ hle), take_memset _ _ _ _ hle, le_refl _⟩
  · exact hlCommentStep_take s render st hI hi

theorem hlLoop_take (s : editorSyntax) (render : List Nat) :
    ∀ (fuel : Nat) (st : HlState), render.length ≤ st.hl.length →
      (hlLoop s render fuel st).hl.take st.i = st.hl.take st.i := by
  intro fuel
  induction fuel with
  | zero => intro st _; rfl
  | succ n ih =>
    intro st hI
    simp only [hlLoop]
    split_ifs with hi hb
    · exact (hlStep_take s render st hI hi).2.1
    · obtain ⟨h1, h2, h3⟩ := hlStep_take s render st hI hi
      have := ih (hlStep s render st).2 h1
      have h4 := congrArg (List.take st.i) this
      rw [List.take_take, List.take_take, Nat.min_eq_left h3] at h4
      rw [h4, h2]
    · rfl

/-! ## Buffers whose rows are all consistent -/

theorem no_closeMarker_of_absent (render : List Nat)
    (h : ¬ bytes "*/" <:+: render) (q : Nat) : ¬ closeMarkerAt render q := by
  intro hq
  exact h (hq.isInfix.trans (List.drop_suffix q render).isInfix)

theorem carrySeed_succ (E : editorConfig) (r : Nat) :
    carrySeed E (r + 1) = (E.row.getD r default).hl_open_comment := by
  simp [carrySeed]

theorem consistent_getD (E : editorConfig) (s : editorSyntax) (hs : E.syn = some s) (k : Nat)
    (hk : k < E.row.length) (hc : rowConsistent E k) :
    (E.row.getD k default).hl =
      (hlRow s (E.row.getD k default).render (carrySeed E k)).hl ∧
    (E.row.getD k default).hl_open_comment =
      (hlRow s (E.row.getD k default).render (carrySeed E k)).in_comment := by
  have hrow : E.row[k]? = some (E.row.getD k default) := by
    simp [List.getD_eq_getElem?_getD, List.getElem?_eq_getElem hk]
  have := hc _ hrow
  simp only [hs, passResult, Prod.mk.injEq] at this
  exact this

theorem carried_of_consistent (E : editorConfig) (hs : E.syn = some HLDB_c)
    (hc : ∀ k, rowConsistent E k) : blockCommentCarried E := by
  intro i j hij hj hpass hno
  have hflag : ∀ r, i ≤ r → r < j → (E.row.getD r default).hl_open_comment = true := by
    intro r hir
    induction r, hir using Nat.le_induction with
    | base =>
      intro _
      rw [(consistent_getD E HLDB_c hs i (by omega) (hc i)).2]
      exact hpass
    | succ r hir ih =>
      intro hr
      have hprev := ih (by omega)
      rw [(consistent_getD E HLDB_c hs (r + 1) (by omega) (hc (r + 1))).2, carrySeed_succ, hprev]
      exact (hlRow_no_close _
        (no_closeMarker_of_absent _ (hno (r + 1) (by omega) hr))).2
  refine ⟨hflag, ?_, ?_⟩
  · intro r hir hr
    obtain ⟨r', rfl⟩ : ∃ r', r = r' + 1 := ⟨r - 1, by omega⟩
    rw [(consistent_getD E HLDB_c hs (r' + 1) (by omega) (hc (r' + 1))).1, carrySeed_succ,
      hflag r' (by omega) (by omega)]
    exact (hlRow_no_close _ (no_closeMarker_of_absent _ (hno (r' + 1) hir hr))).1
  · intro p hjl hfirst
    obtain ⟨j', rfl⟩ : ∃ j', j = j' + 1 := ⟨j - 1, by omega⟩
    have hrun := hlRow_first_close _ p hfirst
    refine ⟨?_, hrun⟩
    rw [(consistent_getD E HLDB_c hs (j' + 1) hjl (hc (j' + 1))).1, carrySeed_succ,
      hflag j' (by omega) (by omega), hrun]
    have hle := closeMarkerAt_le _ p hfirst.1
    have htake := hlLoop_take HLDB_c (E.row.getD (j' + 1) default).render
      ((E.row.getD (j' + 1) default).render.length - (p + 1))
      (closedState (E.row.getD (j' + 1) default).render.length p)
      (by simp only [closedState, List.length_append, List.length_replicate]; omega)
    have hi : (closedState (E.row.getD (j' + 1) default).render.length p).i = p + 2 := rfl
    rw [hi] at htake
    rw [htake]
    simp only [closedState]
    rw [List.take_append_of_le_length (by simp), List.take_replicate]
    simp


theorem updateRow_eq (E : editorConfig) (i : Nat) (row : erow) (hrow : E.row[i]? = some row) :
    editorUpdateRow E i =
      editorUpdateSyntaxFuel E.row.length
        { E with row := E.row.set i { row with render := renderChars row.chars } } i := by
  simp only [editorUpdateRow, hrow, editorUpdateSyntax, List.length_set]

theorem rowConsistent_none (E : editorConfig) (k : Nat) (hk : E.row.length ≤ k) :
    rowConsistent E k := by
  intro row hrow
  rw [List.getElem?_eq_none hk] at hrow
  exact absurd hrow (by simp)

theorem updateRow_consistent (E : editorConfig) (i : Nat) (row : erow)
    (hidx : ∀ (j : Nat) (r : erow), E.row[j]? = some r → r.idx = (j : Int))
    (hn : E.numrows = E.row.length) (hrow : E.row[i]? = some row)
    (hbelow : ∀ k, i < k → rowConsistent E k) :
    (∀ k, i ≤ k → rowConsistent (editorUpdateRow E i) k) ∧
    (∀ m, m < i → (editorUpdateRow E i).row[m]? = E.row[m]?) := by
  have hi := lt_length_of_getElem? hrow
  rw [updateRow_eq E i row hrow]
  have hidx2 : ∀ (j : Nat) (r : erow),
      (E.row.set i { row with render := renderChars row.chars })[j]? = some r →
        r.idx = (j : Int) := by
    intro j r hr
    by_cases hij : i = j
    · subst hij
      simp only [List.getElem?_set_self hi, Option.some.injEq] at hr
      subst hr
      exact hidx i row hrow
    · rw [List.getElem?_set_ne hij] at hr
      exact hidx j r hr
  obtain ⟨ca, cb, cc, _⟩ := updateSyntaxFuel_cascade E.row.length
    { E with row := E.row.set i { row with render := renderChars row.chars } } i hidx2
    (by simp [hn]) (by simpa using hi) (by omega) (by simp only [hn]; omega)
  refine ⟨?_, ?_⟩
  · intro k hik
    by_cases hki : k = i
    · subst hki
      exact cb
    · by_cases hkl : k < E.row.length
      · apply cc k (by omega) (by simp only [hn]; exact_mod_cast hkl)
        refine rowConsistent_congr E _ k rfl (List.getElem?_set_ne (by omega)) ?_
          (hbelow k (by omega))
        apply carrySeed_congr
        intro _
        simp only [List.getD_eq_getElem?_getD, List.getElem?_set]
        by_cases hik1 : i = k - 1
        · subst hik1
          simp [hi, hrow]
        · simp [hik1]
      · apply rowConsistent_none
        rw [updateSyntaxFuel_length]
        simp only [List.length_set]
        omega
  · intro m hm
    rw [ca m hm]
    exact List.getElem?_set_ne (by omega)

theorem updateSyntaxAllRows_steps (E : editorConfig)
    (hidx : ∀ (j : Nat) (r : erow), E.row[j]? = some r → r.idx = (j : Int))
    (hn : E.numrows = E.row.length) :
    ∀ t, t ≤ E.row.length →
      (∀ (j : Nat) (r : erow),
        ((List.range t).foldl (fun E filerow => editorUpdateSyntax E filerow) E).row[j]? = some r →
          r.idx = (j : Int)) ∧
      ((List.range t).foldl (fun E filerow => editorUpdateSyntax E filerow) E).numrows =
        E.numrows ∧
      ((List.range t).foldl (fun E filerow => editorUpdateSyntax E filerow) E).row.length =
        E.row.length ∧
      ((List.range t).foldl (fun E filerow => editorUpdateSyntax E filerow) E).syn = E.syn ∧
      ∀ m, m < t →
        rowConsistent ((List.range t).foldl (fun E filerow => editorUpdateSyntax E filerow) E) m := by
  intro t
  induction t with
  | zero =>
    intro _
    exact ⟨hidx, rfl, rfl, rfl, fun m hm => absurd hm (by omega)⟩
  | succ t ih =>
    intro ht
    obtain ⟨h1, h2, h3, h4, h5⟩ := ih (by omega)
    rw [List.range_succ, List.foldl_append]
    simp only [List.foldl_cons, List.foldl_nil]
    rw [show ∀ (E : editorConfig) (k : Nat),
      editorUpdateSyntax E k = editorUpdateSyntaxFuel E.row.length E k from fun _ _ => rfl]
    obtain ⟨ca, cb, _, _⟩ := updateSyntaxFuel_cascade
      ((List.range t).foldl (fun E filerow => editorUpdateSyntax E filerow) E).row.length
      ((List.range t).foldl (fun E filerow => editorUpdateSyntax E filerow) E) t h1
      (by rw [h2, h3, hn]) (by omega) (by omega) (by rw [h2, h3, hn]; omega)
    refine ⟨updateSyntaxFuel_idx _ _ _ h1, ?_, ?_, ?_, ?_⟩
    · rw [updateSyntaxFuel_numrows, h2]
    · rw [updateSyntaxFuel_length, h3]
    · rw [updateSyntaxFuel_syn, h4]
    · intro m hm
      by_cases hmt : m = t
      · subst hmt
        exact cb
      · refine rowConsistent_congr _ _ m (updateSyntaxFuel_syn _ _ _) (ca m (by omega)) ?_
          (h5 m (by omega))
        apply carrySeed_congr_row
        intro _
        exact ca (m - 1) (by omega)

theorem updateSyntaxAllRows_consistent (E : editorConfig)
    (hidx : ∀ (j : Nat) (r : erow), E.row[j]? = some r → r.idx = (j : Int))
    (hn : E.numrows = E.row.length) :
    (∀ k, rowConsistent (updateSyntaxAllRows E) k) ∧ (updateSyntaxAllRows E).syn = E.syn := by
  have hnat : E.numrows.toNat = E.row.length := by omega
  obtain ⟨_, _, h3, h4, h5⟩ := updateSyntaxAllRows_steps E hidx hn E.row.length (le_refl _)
  simp only [updateSyntaxAllRows, hnat]
  refine ⟨?_, h4⟩
  intro k
  by_cases hk : k < E.row.length
  · exact h5 k hk
  · exact rowConsistent_none _ k (by rw [h3]; omega)


theorem insertRow_end_eq (E : editorConfig) (s : List Nat) (hn : E.numrows = E.row.length) :
    editorInsertRow E E.numrows s =
      { editorUpdateSyntaxFuel (E.row.length + 1)
          { E with row := E.row ++ [(⟨E.numrows, s, renderChars s, [], false⟩ : erow)] }
          E.row.length with
        numrows := E.numrows + 1, dirty := wrapInt (E.dirty + 1) } := by
  have hat : ¬ (E.numrows < 0 ∨ E.numrows > E.numrows) := by omega
  have hnat : E.numrows.toNat = E.row.length := by omega
  simp only [editorInsertRow, if_neg hat, hnat, List.take_length, List.drop_length, List.map_nil,
    List.append_nil]
  have hrow : (E.row ++ [(⟨E.numrows, s, [], [], false⟩ : erow)])[E.row.length]? =
      some (⟨E.numrows, s, [], [], false⟩ : erow) := by
    simp
  rw [updateRow_eq _ _ _ hrow]
  simp only [List.length_append, List.length_singleton]
  have hset : (E.row ++ [(⟨E.numrows, s, [], [], false⟩ : erow)]).set E.row.length
        (⟨E.numrows, s, renderChars s, [], false⟩ : erow) =
      E.row ++ [(⟨E.numrows, s, renderChars s, [], false⟩ : erow)] := by
    rw [List.set_append_right _ _ (le_refl _)]
    simp
  rw [hset]
  rw [updateSyntaxFuel_numrows]
  have hd := (updateSyntaxFuel_frame (fun r => r.chars) (fun _ _ _ => rfl) (E.row.length + 1)
    { E with row := E.row ++ [(⟨E.numrows, s, renderChars s, [], false⟩ : erow)] }
    E.row.length).2
  rw [hd]

theorem insertRow_end_consistent (E : editorConfig) (s : List Nat)
    (hidx : ∀ (j : Nat) (r : erow), E.row[j]? = some r → r.idx = (j : Int))
    (hn : E.numrows = E.row.length) (hc : ∀ k, rowConsistent E k) :
    (∀ (j : Nat) (r : erow), (editorInsertRow E E.numrows s).row[j]? = some r →
      r.idx = (j : Int)) ∧
    (editorInsertRow E E.numrows s).numrows = (editorInsertRow E E.numrows s).row.length ∧
    (∀ k, rowConsistent (editorInsertRow E E.numrows s) k) ∧
    (editorInsertRow E E.numrows s).syn = E.syn := by
  rw [insertRow_end_eq E s hn]
  have hidx2 : ∀ (j : Nat) (r : erow),
      (E.row ++ [(⟨E.numrows, s, renderChars s, [], false⟩ : erow)])[j]? = some r → r.idx = (j : Int) := by
    intro j r hr
    by_cases hj : j < E.row.length
    · rw [List.getElem?_append_left hj] at hr
      exact hidx j r hr
    · by_cases hj2 : j = E.row.length
      · subst hj2
        simp only [List.getElem?_concat_length, Option.some.injEq] at hr
        subst hr
        exact hn
      · rw [List.getElem?_eq_none (by simp; omega)] at hr
        exact absurd hr (by simp)
  obtain ⟨ca, cb, _, _⟩ := updateSyntaxFuel_cascade (E.row.length + 1)
    { E with row := E.row ++ [(⟨E.numrows, s, renderChars s, [], false⟩ : erow)] }
    E.row.length hidx2 (by simp [hn]) (by simp) (by omega) (by simp only [hn]; push_cast; omega)
  refine ⟨?_, ?_, ?_, ?_⟩
  · exact updateSyntaxFuel_idx _ _ _ hidx2
  · simp only [updateSyntaxFuel_length, List.length_append, List.length_singleton, hn]
    push_cast
    rfl
  · intro k
    by_cases hk : k < E.row.length
    · have hsame : ∀ m, m < E.row.length →
          (editorUpdateSyntaxFuel (E.row.length + 1)
            { E with row := E.row ++ [(⟨E.numrows, s, renderChars s, [], false⟩ : erow)] }
            E.row.length).row[m]? = E.row[m]? := by
        intro m hm
        rw [ca m hm]
        exact List.getElem?_append_left hm
      refine rowConsistent_congr E _ k ?_ (hsame k hk) ?_ (hc k)
      · exact updateSyntaxFuel_syn _ _ _
      · apply carrySeed_congr_row
        intro _
        exact hsame (k - 1) (by omega)
    · by_cases hk2 : k = E.row.length
      · subst hk2
        exact rowConsistent_congr _ _ E.row.length rfl rfl rfl cb
      · apply rowConsistent_none
        simp only [updateSyntaxFuel_length, List.length_append, List.length_singleton]
        omega
  · exact updateSyntaxFuel_syn _ _ _

theorem openLoop_consistent :
    ∀ (fuel : Nat) (fp : List Nat) (E : editorConfig),
      (∀ (j : Nat) (r : erow), E.row[j]? = some r → r.idx = (j : Int)) →
      E.numrows = E.row.length → (∀ k, rowConsistent E k) →
      (∀ k, rowConsistent (editorOpenLoop fuel fp E) k) ∧ (editorOpenLoop fuel fp E).syn = E.syn := by
  intro fuel
  induction fuel with
  | zero => intro fp E _ _ hc; exact ⟨hc, rfl⟩
  | succ n ih =>
    intro fp E hidx hn hc
    simp only [editorOpenLoop]
    cases hg : getline fp with
    | none => exact ⟨hc, rfl⟩
    | some lr =>
      obtain ⟨line, rest⟩ := lr
      simp only
      obtain ⟨h1, h2, h3, h4⟩ := insertRow_end_consistent E (stripLineEnd line) hidx hn hc
      obtain ⟨h5, h6⟩ := ih rest _ h1 h2 h3
      exact ⟨h5, h6.trans h4⟩


/-! ## Block comments across rows -/

theorem editorOpen_consistent (rows cols : Int) (filename fp : List Nat) :
    ∀ k, rowConsistent (editorOpen (initEditor rows cols) filename fp) k := by
  obtain ⟨h0, hr⟩ := selectSyntax_empty
    { initEditor rows cols with filename := some (cstr filename) } rfl rfl
  obtain ⟨hc, _⟩ := openLoop_consistent fp.length fp
    (editorSelectSyntaxHighlight { initEditor rows cols with filename := some (cstr filename) })
    (by intro j r hjr; rw [hr] at hjr; simp at hjr) (by rw [h0, hr]; rfl)
    (fun k => rowConsistent_none _ k (by rw [hr]; simp))
  intro k
  exact rowConsistent_congr _ _ k rfl rfl rfl (hc k)

/-- C6: with the C ruleset active and the rows highlighted in order, by
`editorSelectSyntaxHighlight` on a well-formed buffer or by loading a file
with `editorOpen`: if the highlight pass over row `i` ends inside an
unterminated block comment and none of the rows `i+1..j-1` contains the close
marker, then every row `i..j-1` has its carry flag set and every render
character of the rows `i+1..j-1` is classified `HL_MLCOMMENT`; and in a row `j`
that contains the close marker, every character up to and including the first
close marker is classified `HL_MLCOMMENT` and the pass goes on behind it
outside of the comment (`blockCommentCarried`). -/
theorem C6_block_comment_carry (E : editorConfig) (filename fp : List Nat) (rows cols : Int)
    (hwf : rowsIndexed E) :
    ((editorSelectSyntaxHighlight E).syn = some HLDB_c →
      blockCommentCarried (editorSelectSyntaxHighlight E)) ∧
    ((editorOpen (initEditor rows cols) filename fp).syn = some HLDB_c →
      blockCommentCarried (editorOpen (initEditor rows cols) filename fp)) := by
  constructor
  · intro hsyn
    apply carried_of_consistent _ hsyn
    revert hsyn
    unfold editorSelectSyntaxHighlight
    cases E.filename with
    | none => intro hsyn; simp at hsyn
    | some f =>
      simp only [HLDB, hldbLoop]
      split
      · intro _
        refine (updateSyntaxAllRows_consistent _ ?_ ?_).1
        · exact idx_of_rowsIndexed E hwf
        · exact hwf.1
      · intro hsyn
        simp at hsyn
  · intro hsyn
    exact carried_of_consistent _ hsyn (editorOpen_consistent rows cols filename fp)

/-- C6, at the buffer `commentScenario`: the comment opened on row 0 is
carried through row 1 and closed on row 2. -/
theorem C6_block_comment_carry_witness :
    blockCommentCarried commentScenario ∧
    commentScenario.row.map (fun r => (r.hl, r.hl_open_comment)) =
      [([0, 0, 2, 2, 2, 2], true), ([2, 2, 2, 2, 2, 2, 2, 2, 2], true),
       ([2, 2, 2, 2, 2, 2, 0, 4, 4, 4], false)] :=
  ⟨(C6_block_comment_carry (initEditor 24 80) (bytes "a.c")
      (bytes "a /* x\n\tint y\nint */ int\n") 24 80 (by decide)).2 (by decide), by decide⟩

/-! ## Edits re-propagate the carry flag -/

theorem edit_consistent (E : editorConfig) (i : Nat) (row : erow) (cs : List Nat)
    (hwf : rowsIndexed E) (hrow : E.row[i]? = some row)
    (hbelow : ∀ k, i < k → rowConsistent E k) :
    (∀ k, i ≤ k →
      rowConsistent (editorUpdateRow { E with row := E.row.set i { row with chars := cs } } i) k) ∧
    (∀ m, m < i →
      (editorUpdateRow { E with row := E.row.set i { row with chars := cs } } i).row[m]? =
        E.row[m]?) := by
  have hi := lt_length_of_getElem? hrow
  have hidx := idx_of_rowsIndexed E hwf
  have hres := updateRow_consistent { E with row := E.row.set i { row with chars := cs } } i
    { row with chars := cs }
    (by
      intro j r hr
      by_cases hij : i = j
      · subst hij
        simp only [List.getElem?_set_self hi, Option.some.injEq] at hr
        subst hr
        exact hidx i row hrow
      · rw [List.getElem?_set_ne hij] at hr
        exact hidx j r hr)
    (by simp [hwf.1]) (by simp [List.getElem?_set_self hi])
    (by
      intro k hik
      refine rowConsistent_congr E _ k rfl (List.getElem?_set_ne (by omega)) ?_ (hbelow k hik)
      apply carrySeed_congr
      intro _
      simp only [List.getD_eq_getElem?_getD, List.getElem?_set]
      by_cases hik1 : i = k - 1
      · subst hik1
        simp [hi, hrow]
      · simp [hik1])
  refine ⟨hres.1, ?_⟩
  intro m hm
  rw [hres.2 m hm]
  exact List.getElem?_set_ne (by omega)

theorem edit_render (E : editorConfig) (i : Nat) (row : erow) (cs : List Nat)
    (hrow : E.row[i]? = some row) :
    ((editorUpdateRow { E with row := E.row.set i { row with chars := cs } } i).row.getD i
      default).render = renderChars cs ∧
    ∀ j, j ≠ i →
      ((editorUpdateRow { E with row := E.row.set i { row with chars := cs } } i).row.getD j
        default).render = (E.row.getD j default).render := by
  have hi := lt_length_of_getElem? hrow
  have hrow0 : ({ E with row := E.row.set i { row with chars := cs } } : editorConfig).row[i]? =
      some { row with chars := cs } := by
    simp [List.getElem?_set_self hi]
  rw [updateRow_eq _ i _ hrow0]
  refine ⟨?_, ?_⟩
  · rw [updateSyntaxFuel_render]
    simp [List.getD_eq_getElem?_getD, List.getElem?_set_self hi]
  · intro j hj
    rw [updateSyntaxFuel_render]
    simp [List.getD_eq_getElem?_getD, List.getElem?_set_ne (Ne.symm hj)]

/-- C7: call row `k` consistent when its highlight sequence and carry flag
are the result of one highlight pass over its render sequence, seeded with
the stored carry flag of row `k - 1` (`rowConsistent`).  In every well-formed
buffer in which all rows below row `i` are consistent, after any edit of the
characters of row `i` followed by `editorUpdateRow` on it, in particular
after `editorRowInsertChar`, an in-range `editorRowDelChar` and
`editorRowAppendString`, every row `k ≥ i` is consistent; and if row `i`
carried an open block comment and the pass over the edited row no longer
ends inside one, then afterwards the carry flag of row `i` is clear and row
`i + 1`, with its render sequence unchanged, is highlighted with seed 0. -/
theorem C7_edit_keeps_rows_consistent (E : editorConfig) (i : Nat) (row : erow)
    (hwf : rowsIndexed E) (hrow : E.row[i]? = some row)
    (hbelow : ∀ k, i < k → rowConsistent E k) :
    (∀ (cs : List Nat) (k : Nat), i ≤ k →
      rowConsistent (editorUpdateRow { E with row := E.row.set i { row with chars := cs } } i) k) ∧
    (∀ (at_ c : Int) (k : Nat), i ≤ k → rowConsistent (editorRowInsertChar E i at_ c) k) ∧
    (∀ (at_ : Int) (k : Nat), 0 ≤ at_ → at_ < row.size → i ≤ k →
      rowConsistent (editorRowDelChar E i at_) k) ∧
    (∀ (s : List Nat) (k : Nat), i ≤ k → rowConsistent (editorRowAppendString E i s) k) ∧
    (∀ (cs : List Nat) (s : editorSyntax), E.syn = some s → row.hl_open_comment = true →
      (hlRow s (renderChars cs) (carrySeed E i)).in_comment = false →
      ((editorUpdateRow { E with row := E.row.set i { row with chars := cs } } i).row.getD i
        default).hl_open_comment = false ∧
      (i + 1 < E.row.length →
        ((editorUpdateRow { E with row := E.row.set i { row with chars := cs } } i).row.getD
            (i + 1) default).render = (E.row.getD (i + 1) default).render ∧
        ((editorUpdateRow { E with row := E.row.set i { row with chars := cs } } i).row.getD
            (i + 1) default).hl = (hlRow s (E.row.getD (i + 1) default).render false).hl ∧
        ((editorUpdateRow { E with row := E.row.set i { row with chars := cs } } i).row.getD
            (i + 1) default).hl_open_comment =
          (hlRow s (E.row.getD (i + 1) default).render false).in_comment)) := by
  have hi := lt_length_of_getElem? hrow
  refine ⟨?_, ?_, ?_, ?_, ?_⟩
  · intro cs k hk
    exact (edit_consistent E i row cs hwf hrow hbelow).1 k hk
  · intro at_ c k hk
    simp only [editorRowInsertChar, hrow]
    exact rowConsistent_congr _ _ k rfl rfl rfl ((edit_consistent E i row _ hwf hrow hbelow).1 k hk)
  · intro at_ k h0 h1 hk
    have hat : ¬ (at_ < 0 ∨ at_ ≥ row.size) := by omega
    simp only [editorRowDelChar, hrow, if_neg hat]
    exact rowConsistent_congr _ _ k rfl rfl rfl ((edit_consistent E i row _ hwf hrow hbelow).1 k hk)
  · intro s k hk
    simp only [editorRowAppendString, hrow]
    exact rowConsistent_congr _ _ k rfl rfl rfl ((edit_consistent E i row _ hwf hrow hbelow).1 k hk)
  · intro cs s hs _ hpass
    obtain ⟨hcons, hsame⟩ := edit_consistent E i row cs hwf hrow hbelow
    obtain ⟨hr1, hr2⟩ := edit_render E i row cs hrow
    have hsyn : (editorUpdateRow { E with row := E.row.set i { row with chars := cs } } i).syn =
        some s := by
      rw [updateRow_syn]
      exact hs
    have hlen : (editorUpdateRow { E with row := E.row.set i { row with chars := cs } } i
        ).row.length = E.row.length := by
      rw [updateRow_length]
      simp
    have hseed : carrySeed (editorUpdateRow
        { E with row := E.row.set i { row with chars := cs } } i) i = carrySeed E i := by
      apply carrySeed_congr_row
      intro _
      exact hsame (i - 1) (by omega)
    have hci := consistent_getD _ s hsyn i (by rw [hlen]; exact hi) (hcons i (le_refl _))
    have hflag : ((editorUpdateRow { E with row := E.row.set i { row with chars := cs } } i
        ).row.getD i default).hl_open_comment = false := by
      rw [hci.2, hr1, hseed]
      exact hpass
    refine ⟨hflag, ?_⟩
    intro hi1
    have hc1 := consistent_getD _ s hsyn (i + 1) (by rw [hlen]; exact hi1)
      (hcons (i + 1) (by omega))
    rw [carrySeed_succ, hflag, hr2 (i + 1) (by omega)] at hc1
    exact ⟨hr2 (i + 1) (by omega), hc1.1, hc1.2⟩

/-- C7, at the buffer `commentScenario`: deleting the `/` of the open marker
on row 0 leaves row 1 consistent. -/
theorem C7_edit_keeps_rows_consistent_witness :
    rowConsistent (editorRowDelChar commentScenario 0 2) 1 :=
  (C7_edit_keeps_rows_consistent commentScenario 0 (commentScenario.row.getD 0 default)
    (by decide) (by decide)
    (fun k _ => editorOpen_consistent 24 80 (bytes "a.c")
      (bytes "a /* x\n\tint y\nint */ int\n") k)).2.2.1 2 1 (by decide) (by decide) (by decide)

/-! ## The bounded loops never run out of iterations -/

theorem keywordLoop_pos (render : List Nat) (i : Nat) :
    ∀ (kws : List (List Nat)),
      (∀ kw ∈ kws, 1 ≤ (if kw.getD (strlen kw - 1) 0 = 124 then strlen kw - 1 else strlen kw)) →
      ∀ (b : Bool) (klen : Nat), keywordLoop render i kws = some (b, klen) → 1 ≤ klen := by
  intro kws
  induction kws with
  | nil => intro _ b klen h; simp [keywordLoop] at h
  | cons kw rest ih =>
    intro hpos b klen h
    have hkw := hpos kw (by simp)
    have hrest := ih (fun k hk => hpos k (by simp [hk])) b klen
    simp only [keywordLoop] at h
    by_cases h124 : kw.getD (strlen kw - 1) 0 = 124
    · rw [if_pos h124] at hkw
      simp only [h124, decide_True, if_true] at h
      by_cases hm : strncmpEq (List.drop i render) kw (strlen kw - 1) = true ∧
          is_separator (render.getD (i + (strlen kw - 1)) 0) = true
      · rw [if_pos hm] at h
        simp only [Option.some.injEq, Prod.mk.injEq] at h
        omega
      · rw [if_neg hm] at h
        exact hrest h
    · rw [if_neg h124] at hkw
      simp only [h124, decide_False, Bool.false_eq_true, if_false] at h
      by_cases hm : strncmpEq (List.drop i render) kw (strlen kw) = true ∧
          is_separator (render.getD (i + strlen kw) 0) = true
      · rw [if_pos hm] at h
        simp only [Option.some.injEq, Prod.mk.injEq] at h
        omega
      · rw [if_neg hm] at h
        exact hrest h

theorem C_HL_keywords_pos :
    ∀ kw ∈ C_HL_keywords,
      1 ≤ (if kw.getD (strlen kw - 1) 0 = 124 then strlen kw - 1 else strlen kw) := by
  decide

theorem hlKeywordStep_progress (render : List Nat) (st : HlState) :
    st.i < (hlKeywordStep HLDB_c render st).2.i := by
  unfold hlKeywordStep
  simp only
  split
  · rename_i kw2 klen h
    have hpos : 1 ≤ klen := by
      by_cases hp : st.prev_sep = true
      · rw [if_pos hp] at h
        exact keywordLoop_pos render st.i _ C_HL_keywords_pos kw2 klen h
      · rw [if_neg hp] at h
        simp at h
    simp only
    omega
  · simp

theorem hlNumberStep_progress (render : List Nat) (st : HlState) :
    st.i < (hlNumberStep HLDB_c render st).2.i := by
  unfold hlNumberStep
  simp only
  split_ifs <;>
    first
    | exact hlKeywordStep_progress render st
    | simp

theorem hlStringStep_progress (render : List Nat) (st : HlState) :
    st.i < (hlStringStep HLDB_c render st).2.i := by
  unfold hlStringStep
  simp only
  split_ifs <;>
    first
    | exact hlNumberStep_progress render st
    | simp

theorem hlCommentStep_progress (render : List Nat) (st : HlState) :
    st.i < (hlCommentStep HLDB_c render st).2.i := by
  unfold hlCommentStep
  simp only
  split_ifs <;>
    first
    | exact hlStringStep_progress render st
    | (simp only; omega)

theorem hlStep_progress (render : List Nat) (st : HlState)
    (h : (hlStep HLDB_c render st).1 = false) : st.i < (hlStep HLDB_c render st).2.i := by
  unfold hlStep at h ⊢
  dsimp only at h ⊢
  split_ifs at h ⊢
  exact hlCommentStep_progress render st

theorem hlLoop_fuel (render : List Nat) :
    ∀ (n fuel : Nat) (st : HlState), render.length - st.i ≤ n → n ≤ fuel →
      hlLoop HLDB_c render fuel st = hlLoop HLDB_c render n st := by
  intro n
  induction n with
  | zero =>
    intro fuel st h _
    have hge : ¬ st.i < render.length := by omega
    cases fuel <;> simp [hlLoop, hge]
  | succ n ih =>
    intro fuel st h hf
    obtain ⟨f, rfl⟩ : ∃ f, fuel = f + 1 := ⟨fuel - 1, by omega⟩
    simp only [hlLoop]
    split_ifs with hlt hb
    · rfl
    · have hp := hlStep_progress render st (by simpa using hb)
      exact ih f _ (by omega) (by omega)
    · rfl

theorem updateSyntaxFuel_fuel :
    ∀ (f1 f2 : Nat) (E : editorConfig) (k : Nat),
      (∀ (j : Nat) (row : erow), E.row[j]? = some row → row.idx = (j : Int)) →
      E.numrows ≤ E.row.length → 1 ≤ f1 → E.numrows - k ≤ f1 → 1 ≤ f2 → E.numrows - k ≤ f2 →
      editorUpdateSyntaxFuel f1 E k = editorUpdateSyntaxFuel f2 E k := by
  intro f1
  induction f1 with
  | zero => intro f2 E k _ _ h _ _ _; omega
  | succ a ih =>
    intro f2 E k hidx hn _ h1 h2 h3
    obtain ⟨b, rfl⟩ : ∃ b, f2 = b + 1 := ⟨f2 - 1, by omega⟩
    simp only [editorUpdateSyntaxFuel]
    cases hrow : E.row[k]? with
    | none => rfl
    | some row =>
      have hk := lt_length_of_getElem? hrow
      have hrowidx := hidx k row hrow
      cases hs : E.syn with
      | none => rfl
      | some s =>
        simp only
        split_ifs with hcas
        · have hk1 : (k : Int) + 1 < E.numrows := by rw [← hrowidx]; exact hcas.2
          have hto : (row.idx + 1).toNat = k + 1 := by omega
          rw [hto]
          apply ih
          · intro j r hr
            by_cases hkj : k = j
            · subst hkj
              simp only [List.getElem?_set_self hk, Option.some.injEq] at hr
              subst hr
              exact hrowidx
            · rw [List.getElem?_set_ne hkj] at hr
              exact hidx j r hr
          · simpa using hn
          · omega
          · simp only; omega
          · omega
          · simp only; omega
        · rfl

theorem getlineScan_length :
    ∀ (fp line : List Nat), (getlineScan line fp).2.length + 1 ≤ fp.length ∨ fp = [] := by
  intro fp
  induction fp with
  | nil => intro _; exact Or.inr rfl
  | cons c rest ih =>
    intro line
    left
    simp only [getlineScan]
    split
    · simp
    · rcases ih (line ++ [c]) with h | h
      · simp only [List.length_cons]
        omega
      · subst h
        simp [getlineScan]

theorem openLoop_fuel :
    ∀ (n fuel : Nat) (fp : List Nat) (E : editorConfig), fp.length ≤ n → n ≤ fuel →
      editorOpenLoop fuel fp E = editorOpenLoop n fp E := by
  intro n
  induction n with
  | zero =>
    intro fuel fp E h _
    have : fp = [] := List.length_eq_zero.1 (by omega)
    subst this
    cases fuel <;> simp [editorOpenLoop, getline]
  | succ n ih =>
    intro fuel fp E h hf
    obtain ⟨f, rfl⟩ : ∃ f, fuel = f + 1 := ⟨fuel - 1, by omega⟩
    simp only [editorOpenLoop]
    cases hg : getline fp with
    | none => rfl
    | some lr =>
      obtain ⟨line, rest⟩ := lr
      simp only
      apply ih
      · unfold getline at hg
        split at hg
        · simp at hg
        · simp only [Option.some.injEq] at hg
          rcases getlineScan_length fp [] with h1 | h1
          · rw [hg] at h1
            simp only at h1
            omega
          · contradiction
      · omega

theorem padToStop_stop (render : List Nat) :
    (padToStop HELIS_TAB_STOP (render ++ [32])).length % HELIS_TAB_STOP = 0 := by
  have h : ∀ (fuel : Nat) (r : List Nat),
      (HELIS_TAB_STOP - r.length % HELIS_TAB_STOP) % HELIS_TAB_STOP ≤ fuel →
        (padToStop fuel r).length % HELIS_TAB_STOP = 0 := by
    intro fuel
    induction fuel with
    | zero =>
      intro r hr
      simp only [padToStop, HELIS_TAB_STOP] at hr ⊢
      omega
    | succ n ih =>
      intro r hr
      simp only [padToStop]
      split_ifs with hne
      · apply ih
        simp only [List.length_append, List.length_singleton, HELIS_TAB_STOP] at hr hne ⊢
        omega
      · simpa using hne
  apply h
  simp only [HELIS_TAB_STOP]
  omega

/-! ## Row store: insert and delete rows -/

theorem rowsIndexed_iff (E : editorConfig) :
    rowsIndexed E ↔ E.numrows = E.row.length ∧
      ∀ (j : Nat) (row : erow), E.row[j]? = some row → row.idx = (j : Int) := by
  constructor
  · intro h
    exact ⟨h.1, idx_of_rowsIndexed E h⟩
  · rintro ⟨h1, h2⟩
    refine ⟨h1, ?_⟩
    apply List.ext_getElem?
    intro j
    simp only [List.getElem?_map]
    by_cases hj : j < E.row.length
    · rw [List.getElem?_eq_getElem hj, List.getElem?_range hj]
      simp only [Option.map_some', Option.some.injEq]
      exact h2 j _ (List.getElem?_eq_getElem hj)
    · rw [List.getElem?_eq_none (by omega), List.getElem?_eq_none (by simp; omega)]
      rfl

theorem updateRow_cx (E : editorConfig) (k : Nat) : (editorUpdateRow E k).cx = E.cx := by
  rw [(updateRow_frame (fun r => r.chars) (fun _ _ _ _ => rfl) E k).2]

theorem updateRow_cy (E : editorConfig) (k : Nat) : (editorUpdateRow E k).cy = E.cy := by
  rw [(updateRow_frame (fun r => r.chars) (fun _ _ _ _ => rfl) E k).2]

theorem updateRow_dirty (E : editorConfig) (k : Nat) :
    (editorUpdateRow E k).dirty = E.dirty := by
  rw [(updateRow_frame (fun r => r.chars) (fun _ _ _ _ => rfl) E k).2]

theorem updateRow_mode (E : editorConfig) (k : Nat) : (editorUpdateRow E k).mode = E.mode := by
  rw [(updateRow_frame (fun r => r.chars) (fun _ _ _ _ => rfl) E k).2]

theorem updateRow_idx_map (E : editorConfig) (k : Nat) :
    (editorUpdateRow E k).row.map (fun r => r.idx) = E.row.map (fun r => r.idx) :=
  (updateRow_frame (fun r => r.idx) (fun _ _ _ _ => rfl) E k).1

theorem updateRow_chars_map (E : editorConfig) (k : Nat) :
    (editorUpdateRow E k).row.map (fun r => r.chars) = E.row.map (fun r => r.chars) :=
  (updateRow_frame (fun r => r.chars) (fun _ _ _ _ => rfl) E k).1

theorem wrapInt_succ (x : Int) (h1 : INT_MIN ≤ x) (h2 : x < INT_MAX) :
    wrapInt (x + 1) = x + 1 := by
  unfold wrapInt
  unfold INT_MIN at h1
  unfold INT_MAX at h2
  omega

theorem wrapInt_max : wrapInt (INT_MAX + 1) = INT_MIN := by
  decide

theorem insertRow_out_of_range (E : editorConfig) (at_ : Int) (s : List Nat)
    (h : at_ < 0 ∨ at_ > E.numrows) : editorInsertRow E at_ s = E := by
  simp only [editorInsertRow, if_pos h]

theorem insertRow_fields (E : editorConfig) (at_ : Int) (s : List Nat) (h0 : 0 ≤ at_)
    (h1 : at_ ≤ E.numrows) :
    (editorInsertRow E at_ s).dirty = wrapInt (E.dirty + 1) ∧
    (editorInsertRow E at_ s).cx = E.cx ∧
    (editorInsertRow E at_ s).cy = E.cy ∧ (editorInsertRow E at_ s).mode = E.mode ∧
    (editorInsertRow E at_ s).syn = E.syn := by
  have hat : ¬ (at_ < 0 ∨ at_ > E.numrows) := by omega
  simp only [editorInsertRow, if_neg hat, updateRow_dirty, updateRow_cx, updateRow_cy,
    updateRow_mode, updateRow_syn, and_self]

theorem insertRow_idx (E : editorConfig) (at_ : Int) (s : List Nat) (h0 : 0 ≤ at_)
    (h1 : at_ ≤ E.numrows) :
    (editorInsertRow E at_ s).row.map (fun r => r.idx) =
      (E.row.map (fun r => r.idx)).take at_.toNat ++ [at_] ++
        ((E.row.map (fun r => r.idx)).drop at_.toNat).map (fun i => i + 1) := by
  have hat : ¬ (at_ < 0 ∨ at_ > E.numrows) := by omega
  simp only [editorInsertRow, if_neg hat]
  rw [updateRow_idx_map]
  simp [List.map_take, List.map_drop, Function.comp_def]

theorem delRow_out_of_range (E : editorConfig) (at_ : Int) (h : at_ < 0 ∨ at_ ≥ E.numrows) :
    editorDelRow E at_ = E := by
  simp only [editorDelRow, if_pos h]

theorem delRow_in_range (E : editorConfig) (at_ : Int) (h0 : 0 ≤ at_) (h1 : at_ < E.numrows) :
    (editorDelRow E at_).row.map (fun r => r.chars) =
      (E.row.map (fun r => r.chars)).take at_.toNat ++
        (E.row.map (fun r => r.chars)).drop (at_.toNat + 1) ∧
    (editorDelRow E at_).row.map (fun r => r.idx) =
      (E.row.map (fun r => r.idx)).take at_.toNat ++
        ((E.row.map (fun r => r.idx)).drop (at_.toNat + 1)).map (fun i => i - 1) ∧
    (editorDelRow E at_).numrows = E.numrows - 1 ∧
    (editorDelRow E at_).dirty = wrapInt (E.dirty + 1) ∧ (editorDelRow E at_).cx = E.cx ∧
    (editorDelRow E at_).cy = E.cy := by
  have hat : ¬ (at_ < 0 ∨ at_ ≥ E.numrows) := by omega
  simp only [editorDelRow, if_neg hat]
  simp [List.map_take, List.map_drop, Function.comp_def]

theorem range_cast_getElem? (n j : Nat) :
    ((List.range n).map (fun (k : Nat) => (k : Int)))[j]? = if j < n then some (j : Int) else none := by
  by_cases hj : j < n
  · simp [hj, List.getElem?_range hj]
  · simp only [hj, if_false]
    exact List.getElem?_eq_none (by simp; omega)

/-- C12: if `numrows` counts the rows and the `idx` field of every row is its
position, then the same holds after any `editorInsertRow(at, text)` and after
any `editorDelRow(at)`, whether `at` is in range or not. -/
theorem C12_row_idx_is_position (E : editorConfig) (at_ : Int) (s : List Nat)
    (hwf : rowsIndexed E) :
    rowsIndexed (editorInsertRow E at_ s) ∧ rowsIndexed (editorDelRow E at_) := by
  have hn := hwf.1
  have hidx := hwf.2
  have hnat : ∀ a : Int, 0 ≤ a → ((a.toNat : Nat) : Int) = a := fun a ha => by omega
  constructor
  · by_cases hat : at_ < 0 ∨ at_ > E.numrows
    · rw [insertRow_out_of_range E at_ s hat]
      exact hwf
    · have h0 : 0 ≤ at_ := by omega
      have h1 : at_ ≤ E.numrows := by omega
      obtain ⟨_, hnum, hlen⟩ := insertRow_chars E at_ s h0 h1
      refine ⟨by rw [hnum, hlen, hn]; push_cast; rfl, ?_⟩
      rw [insertRow_idx E at_ s h0 h1, hlen, hidx]
      apply List.ext_getElem?
      intro j
      rw [range_cast_getElem?]
      have hlt : at_.toNat ≤ E.row.length := by omega
      have hlen1 : (List.take at_.toNat
          (List.map (fun (k : Nat) => (k : Int)) (List.range E.row.length))).length = at_.toNat := by
        simp; omega
      rcases Nat.lt_trichotomy j at_.toNat with hj | hj | hj
      · rw [List.append_assoc, List.getElem?_append_left (by omega), List.getElem?_take,
          if_pos hj, range_cast_getElem?, if_pos (by omega), if_pos (by omega)]
      · rw [List.append_assoc, List.getElem?_append_right (by omega), hlen1, hj]
        simp only [Nat.sub_self, List.singleton_append, List.getElem?_cons_zero, hnat at_ h0]
        rw [if_pos (by omega)]
      · rw [List.getElem?_append_right (by simp; omega)]
        simp only [List.length_append, hlen1, List.length_singleton, List.getElem?_map,
          List.getElem?_drop, range_cast_getElem?]
        have e : at_.toNat + (j - (at_.toNat + 1)) = j - 1 := by omega
        rw [e]
        by_cases hjn : j < E.row.length + 1
        · rw [if_pos hjn, List.getElem?_range (by omega)]
          simp only [Option.map_some', Option.some.injEq]
          omega
        · rw [if_neg hjn, List.getElem?_eq_none (by simp; omega)]
          rfl
  · by_cases hat : at_ < 0 ∨ at_ ≥ E.numrows
    · rw [delRow_out_of_range E at_ hat]
      exact hwf
    · have h0 : 0 ≤ at_ := by omega
      have h1 : at_ < E.numrows := by omega
      obtain ⟨hc, hi, hnum, _⟩ := delRow_in_range E at_ h0 h1
      have hlen : (editorDelRow E at_).row.length = E.row.length - 1 := by
        have := congrArg List.length hc
        simp only [List.length_map, List.length_append, List.length_take, List.length_drop] at this
        omega
      refine ⟨by rw [hnum, hlen, hn]; omega, ?_⟩
      rw [hi, hlen, hidx]
      apply List.ext_getElem?
      intro j
      rw [range_cast_getElem?]
      have hlen1 : (List.take at_.toNat
          (List.map (fun (k : Nat) => (k : Int)) (List.range E.row.length))).length = at_.toNat := by
        simp; omega
      by_cases hj : j < at_.toNat
      · rw [List.getElem?_append_left (by omega), List.getElem?_take, if_pos hj,
          range_cast_getElem?, if_pos (by omega), if_pos (by omega)]
      · rw [List.getElem?_append_right (by omega), hlen1]
        simp only [List.getElem?_map, List.getElem?_drop, range_cast_getElem?]
        have e : at_.toNat + 1 + (j - at_.toNat) = j + 1 := by omega
        rw [e]
        by_cases hjn : j < E.row.length - 1
        · rw [if_pos hjn, List.getElem?_range (by omega)]
          simp only [Option.map_some', Option.some.injEq]
          omega
        · rw [if_neg hjn, List.getElem?_eq_none (by simp; omega)]
          rfl

/-- C12, at the buffer `twoRowBuffer`, inserting and deleting at index 1. -/
theorem C12_row_idx_is_position_witness :
    rowsIndexed (editorInsertRow twoRowBuffer 1 (bytes "x")) ∧
      rowsIndexed (editorDelRow twoRowBuffer 1) :=
  C12_row_idx_is_position twoRowBuffer 1 (bytes "x") (by decide)

/-- C14: for every buffer, text and index `at`: when `at < 0` or
`at > numrows`, `editorInsertRow(at, text)` leaves the rows, the row count and
the dirty counter (the whole state) unchanged; when `0 ≤ at ≤ numrows`, the
sequence of row character sequences afterwards is the old one with the text
inserted at index `at`, the row count is one greater, the dirty counter is the
`int` increment of the old one, and it is exactly one greater when the old
counter is an `int` below `INT_MAX`. -/
theorem C14_insert_row (E : editorConfig) (at_ : Int) (s : List Nat) :
    (at_ < 0 ∨ at_ > E.numrows →
      editorInsertRow E at_ s = E) ∧
    (0 ≤ at_ ∧ at_ ≤ E.numrows →
      rowTexts (editorInsertRow E at_ s) =
        (rowTexts E).take at_.toNat ++ [s] ++ (rowTexts E).drop at_.toNat ∧
      (editorInsertRow E at_ s).numrows = E.numrows + 1 ∧
      (editorInsertRow E at_ s).row.length = E.row.length + 1 ∧
      (editorInsertRow E at_ s).dirty = wrapInt (E.dirty + 1) ∧
      (INT_MIN ≤ E.dirty ∧ E.dirty < INT_MAX →
        (editorInsertRow E at_ s).dirty = E.dirty + 1)) := by
  refine ⟨insertRow_out_of_range E at_ s, ?_⟩
  rintro ⟨h0, h1⟩
  obtain ⟨hc, hnum, hlen⟩ := insertRow_chars E at_ s h0 h1
  have hd := (insertRow_fields E at_ s h0 h1).1
  exact ⟨hc, hnum, hlen, hd, fun hb => by rw [hd, wrapInt_succ _ hb.1 hb.2]⟩

/-- C14, at the buffer `twoRowBuffer`, whose dirty counter is 0: inserting `x`
at index 1. -/
theorem C14_insert_row_witness :
    rowTexts (editorInsertRow twoRowBuffer 1 (bytes "x")) = [bytes "abc", bytes "x", bytes "a"] ∧
      (editorInsertRow twoRowBuffer 1 (bytes "x")).numrows = 3 ∧
      (editorInsertRow twoRowBuffer 1 (bytes "x")).row.length = 3 ∧
      (editorInsertRow twoRowBuffer 1 (bytes "x")).dirty = twoRowBuffer.dirty + 1 ∧
      twoRowBuffer.dirty + 1 = 1 :=
  ⟨((C14_insert_row twoRowBuffer 1 (bytes "x")).2 (by decide)).1,
    ((C14_insert_row twoRowBuffer 1 (bytes "x")).2 (by decide)).2.1,
    ((C14_insert_row twoRowBuffer 1 (bytes "x")).2 (by decide)).2.2.1,
    ((C14_insert_row twoRowBuffer 1 (bytes "x")).2 (by decide)).2.2.2.2 (by decide),
    by decide⟩

/-- C15: for every buffer and index `at`: when `at < 0` or `at ≥ numrows`,
`editorDelRow(at)` leaves the rows, the row count and the dirty counter (the
whole state) unchanged; when `0 ≤ at < numrows`, the sequence of row character
sequences afterwards is the old one without its element at index `at`, the
row count is one smaller, the dirty counter is the `int` increment of the old
one, and it is exactly one greater when the old counter is an `int` below
`INT_MAX`. -/
theorem C15_delete_row (E : editorConfig) (at_ : Int) :
    (at_ < 0 ∨ at_ ≥ E.numrows → editorDelRow E at_ = E) ∧
    (0 ≤ at_ ∧ at_ < E.numrows →
      rowTexts (editorDelRow E at_) = (rowTexts E).eraseIdx at_.toNat ∧
      (editorDelRow E at_).numrows = E.numrows - 1 ∧
      (editorDelRow E at_).dirty = wrapInt (E.dirty + 1) ∧
      (INT_MIN ≤ E.dirty ∧ E.dirty < INT_MAX → (editorDelRow E at_).dirty = E.dirty + 1)) := by
  refine ⟨delRow_out_of_range E at_, ?_⟩
  rintro ⟨h0, h1⟩
  obtain ⟨hc, _, hnum, hd, _⟩ := delRow_in_range E at_ h0 h1
  refine ⟨?_, hnum, hd, fun hb => by rw [hd, wrapInt_succ _ hb.1 hb.2]⟩
  rw [List.eraseIdx_eq_take_drop_succ]
  exact hc

/-- C15, at the buffer `twoRowBuffer`, whose dirty counter is 0: deleting
row 0. -/
theorem C15_delete_row_witness :
    rowTexts (editorDelRow twoRowBuffer 0) = [bytes "a"] ∧
      (editorDelRow twoRowBuffer 0).numrows = 1 ∧
      (editorDelRow twoRowBuffer 0).dirty = twoRowBuffer.dirty + 1 ∧
      twoRowBuffer.dirty + 1 = 1 :=
  ⟨((C15_delete_row twoRowBuffer 0).2 (by decide)).1,
    ((C15_delete_row twoRowBuffer 0).2 (by decide)).2.1,
    ((C15_delete_row twoRowBuffer 0).2 (by decide)).2.2.2 (by decide),
    by decide⟩

/-- At `INT_MAX` the increment of the dirty counter wraps around: deleting a
row of a buffer whose dirty counter is `INT_MAX` leaves it at `INT_MIN`. -/
theorem dirty_wraps_example :
    (editorDelRow { twoRowBuffer with dirty := INT_MAX } 0).dirty = INT_MIN ∧
    (editorInsertRow { twoRowBuffer with dirty := INT_MAX } 1 (bytes "x")).dirty = INT_MIN := by
  decide

/-! ## Splitting and joining rows -/

theorem rowAt_chars (E : editorConfig) (i : Int) (h : 0 ≤ i) :
    (rowAt E i).chars = (rowTexts E).getD i.toNat [] := by
  simp only [rowAt, if_pos h, rowTexts, List.getD_eq_getElem?_getD, List.getElem?_map]
  cases E.row[i.toNat]? <;> rfl

theorem take_succ_getD {α : Type} (L : List α) (c : Nat) (d : α) (h : c < L.length) :
    L.take (c + 1) = L.take c ++ [L.getD c d] := by
  rw [List.take_succ, List.getD_eq_getElem?_getD, List.getElem?_eq_getElem h]
  rfl

theorem drop_getD_cons {α : Type} (L : List α) (c : Nat) (d : α) (h : c < L.length) :
    L.drop c = L.getD c d :: L.drop (c + 1) := by
  rw [List.getD_eq_getElem?_getD, List.getElem?_eq_getElem h]
  exact List.drop_eq_getElem_cons h

theorem set_take_append {α : Type} (L rest : List α) (c : Nat) (u v : α) (h : c ≤ L.length) :
    (L.take c ++ [u] ++ rest).set c v = L.take c ++ [v] ++ rest := by
  have hl : (L.take c).length = c := by simp; omega
  rw [List.append_assoc, List.append_assoc, List.set_append_right _ _ (by omega), hl]
  simp

theorem getD_take_append {α : Type} (L rest : List α) (c : Nat) (u d : α) (h : c ≤ L.length) :
    (L.take c ++ [u] ++ rest).getD c d = u := by
  have hl : (L.take c).length = c := by simp; omega
  rw [List.append_assoc, List.getD_eq_getElem?_getD, List.getElem?_append_right (by omega), hl]
  simp

theorem rowTexts_updateRow (E : editorConfig) (k : Nat) :
    rowTexts (editorUpdateRow E k) = rowTexts E := updateRow_chars_map E k

theorem rowTexts_set_chars (E : editorConfig) (k : Nat) (row : erow) (cs : List Nat) :
    rowTexts { E with row := E.row.set k { row with chars := cs } } = (rowTexts E).set k cs := by
  simp [rowTexts]

theorem insertNewline_spec (E : editorConfig) (hn : E.numrows = E.row.length)
    (hcy0 : 0 ≤ E.cy) (hcy1 : E.cy < E.numrows) (hcx0 : 0 ≤ E.cx)
    (hcx1 : E.cx ≤ (rowAt E E.cy).size) :
    rowTexts (editorInsertNewline E) =
      (rowTexts E).take E.cy.toNat ++
        [(rowAt E E.cy).chars.take E.cx.toNat, (rowAt E E.cy).chars.drop E.cx.toNat] ++
        (rowTexts E).drop (E.cy.toNat + 1) ∧
    (rowAt E E.cy).chars.take E.cx.toNat ++ (rowAt E E.cy).chars.drop E.cx.toNat =
      (rowAt E E.cy).chars ∧
    (editorInsertNewline E).numrows = E.numrows + 1 ∧
    (editorInsertNewline E).cx = 0 ∧ (editorInsertNewline E).cy = E.cy + 1 ∧
    (editorInsertNewline E).mode = E.mode := by
  have hlen : E.cy.toNat < (rowTexts E).length := by simp [rowTexts]; omega
  have hrow := rowAt_chars E E.cy hcy0
  by_cases hx : E.cx = 0
  · obtain ⟨hc, hnum, _⟩ := insertRow_chars E E.cy [] hcy0 (by omega)
    obtain ⟨_, _, hcy, hmode, _⟩ := insertRow_fields E E.cy [] hcy0 (by omega)
    have hc' : rowTexts (editorInsertRow E E.cy []) =
        (rowTexts E).take E.cy.toNat ++ [[]] ++ (rowTexts E).drop E.cy.toNat := hc
    have hE : editorInsertNewline E =
        { editorInsertRow E E.cy [] with cy := (editorInsertRow E E.cy []).cy + 1, cx := 0 } := by
      simp only [editorInsertNewline, if_pos hx]
    rw [hE]
    refine ⟨?_, List.take_append_drop _ _, hnum, rfl, by rw [hcy], hmode⟩
    show rowTexts (editorInsertRow E E.cy []) = _
    rw [hc', hx, hrow, drop_getD_cons (rowTexts E) E.cy.toNat [] hlen]
    simp
  · have h1 : 0 ≤ E.cy + 1 := by omega
    have h2 : E.cy + 1 ≤ E.numrows := by omega
    obtain ⟨hc, hnum, _⟩ := insertRow_chars E (E.cy + 1)
      ((rowAt E E.cy).chars.drop E.cx.toNat) h1 h2
    obtain ⟨_, hcx, hcy, hmode, _⟩ := insertRow_fields E (E.cy + 1)
      ((rowAt E E.cy).chars.drop E.cx.toNat) h1 h2
    have hc' : rowTexts (editorInsertRow E (E.cy + 1) ((rowAt E E.cy).chars.drop E.cx.toNat)) =
        (rowTexts E).take (E.cy + 1).toNat ++ [(rowAt E E.cy).chars.drop E.cx.toNat] ++
          (rowTexts E).drop (E.cy + 1).toNat := hc
    have hto : (E.cy + 1).toNat = E.cy.toNat + 1 := by omega
    rw [hto, take_succ_getD (rowTexts E) E.cy.toNat [] hlen, ← hrow] at hc'
    have hrow2 : (rowAt (editorInsertRow E (E.cy + 1) ((rowAt E E.cy).chars.drop E.cx.toNat))
        E.cy).chars = (rowAt E E.cy).chars := by
      rw [rowAt_chars _ _ hcy0, hc']
      rw [List.append_assoc, List.append_assoc, ← List.append_assoc (List.take _ _)]
      exact getD_take_append _ _ _ _ _ (by omega)
    simp only [editorInsertNewline, if_neg hx, updateRow_numrows, updateRow_cy, updateRow_mode,
      hcy, hcx, hnum, hmode]
    refine ⟨?_, List.take_append_drop _ _, trivial, trivial, trivial, trivial⟩
    show rowTexts (editorUpdateRow _ _) = _
    rw [rowTexts_updateRow]
    show ((editorInsertRow E (E.cy + 1) ((rowAt E E.cy).chars.drop E.cx.toNat)).row.set _ _).map
      (fun r => r.chars) = _
    rw [List.map_set]
    show (rowTexts (editorInsertRow E (E.cy + 1) ((rowAt E E.cy).chars.drop E.cx.toNat))).set
      E.cy.toNat ((rowAt (editorInsertRow E (E.cy + 1) ((rowAt E E.cy).chars.drop E.cx.toNat))
        E.cy).chars.take E.cx.toNat) = _
    rw [hrow2, hc', List.append_assoc (List.take _ _ ++ _), set_take_append _ _ _ _ _ (by omega)]
    simp

/-- C16: for every editor state with `0 ≤ cy < numrows` and
`0 ≤ cx ≤ size` of row `cy`, after `editorInsertNewline` the row sequence is
the old one with row `cy` replaced by two rows, the first holding the first
`cx` characters of the old row `cy` and the second the characters from `cx`
to its end, all other rows keep content and order, the row count is one
greater, and the cursor is at `cx = 0`, `cy = old cy + 1`. -/
theorem C16_insert_newline_splits (E : editorConfig) (hn : E.numrows = E.row.length)
    (hcy0 : 0 ≤ E.cy) (hcy1 : E.cy < E.numrows) (hcx0 : 0 ≤ E.cx)
    (hcx1 : E.cx ≤ (rowAt E E.cy).size) :
    rowTexts (editorInsertNewline E) =
      (rowTexts E).take E.cy.toNat ++
        [(rowAt E E.cy).chars.take E.cx.toNat, (rowAt E E.cy).chars.drop E.cx.toNat] ++
        (rowTexts E).drop (E.cy.toNat + 1) ∧
    (rowAt E E.cy).chars.take E.cx.toNat ++ (rowAt E E.cy).chars.drop E.cx.toNat =
      (rowAt E E.cy).chars ∧
    (editorInsertNewline E).numrows = E.numrows + 1 ∧
    (editorInsertNewline E).cx = 0 ∧ (editorInsertNewline E).cy = E.cy + 1 := by
  obtain ⟨a, b, c, d, e, _⟩ := insertNewline_spec E hn hcy0 hcy1 hcx0 hcx1
  exact ⟨a, b, c, d, e⟩

/-- C16, at the buffer `twoRowBuffer` with the cursor behind the `a` of row
0. -/
theorem C16_insert_newline_splits_witness :
    rowTexts (editorInsertNewline { twoRowBuffer with cx := 1 }) =
        [bytes "a", bytes "bc", bytes "a"] ∧
      bytes "a" ++ bytes "bc" = bytes "abc" ∧
      (editorInsertNewline { twoRowBuffer with cx := 1 }).numrows = 3 ∧
      (editorInsertNewline { twoRowBuffer with cx := 1 }).cx = 0 ∧
      (editorInsertNewline { twoRowBuffer with cx := 1 }).cy = 1 :=
  C16_insert_newline_splits { twoRowBuffer with cx := 1 } (by decide) (by decide) (by decide)
    (by decide) (by decide)

theorem getElem?_rowAt (E : editorConfig) (i : Int) (h0 : 0 ≤ i) (h1 : i.toNat < E.row.length) :
    E.row[i.toNat]? = some (rowAt E i) := by
  simp [rowAt, h0, List.getD_eq_getElem?_getD, List.getElem?_eq_getElem h1]

theorem rowDelChar_fields (E : editorConfig) (k : Nat) (at_ : Int) :
    (editorRowDelChar E k at_).cx = E.cx ∧ (editorRowDelChar E k at_).cy = E.cy ∧
    (editorRowDelChar E k at_).numrows = E.numrows := by
  unfold editorRowDelChar
  split
  · exact ⟨rfl, rfl, rfl⟩
  · split
    · exact ⟨rfl, rfl, rfl⟩
    · simp only [updateRow_cx, updateRow_cy, updateRow_numrows, and_self]

theorem rowAppendString_chars (E : editorConfig) (k : Nat) (row : erow) (s : List Nat)
    (hrow : E.row[k]? = some row) :
    rowTexts (editorRowAppendString E k s) = (rowTexts E).set k (row.chars ++ s) ∧
    (editorRowAppendString E k s).cx = E.cx ∧ (editorRowAppendString E k s).cy = E.cy ∧
    (editorRowAppendString E k s).numrows = E.numrows := by
  simp only [editorRowAppendString, hrow, updateRow_cx, updateRow_cy, updateRow_numrows,
    and_self, and_true]
  show rowTexts (editorUpdateRow _ _) = _
  rw [rowTexts_updateRow]
  simp [rowTexts]

theorem take_set_le {α : Type} (L : List α) (i j : Nat) (v : α) (h : i ≤ j) :
    (L.set j v).take i = L.take i := by
  apply List.ext_getElem?
  intro n
  simp only [List.getElem?_take]
  split
  · rw [List.getElem?_set_ne (by omega)]
  · rfl

theorem take_succ_set {α : Type} (L : List α) (p : Nat) (v : α) (h : p < L.length) :
    (L.set p v).take (p + 1) = L.take p ++ [v] := by
  rw [take_succ_getD (L.set p v) p v (by simpa using h), take_set_le L p p v (le_refl _)]
  simp [List.getD_eq_getElem?_getD, List.getElem?_set_self h]

/-- C17: for every editor state with `0 ≤ cy < numrows` and
`0 ≤ cx ≤ size` of row `cy`, `editorDelChar` does the following: when
`cx > 0` it removes exactly the character at index `cx - 1` of row `cy` and
moves the cursor to `(cx - 1, cy)`; when `cx = 0` and `cy > 0` it replaces the
rows `cy - 1` and `cy` by the single row made of the old row `cy - 1` followed
by the old row `cy`, leaves all other rows unchanged, and puts the cursor at
(old size of row `cy - 1`, `cy - 1`); when `cx = 0` and `cy = 0` it changes
nothing. -/
theorem C17_backspace (E : editorConfig) (hn : E.numrows = E.row.length)
    (hcy0 : 0 ≤ E.cy) (hcy1 : E.cy < E.numrows) (hcx0 : 0 ≤ E.cx)
    (hcx1 : E.cx ≤ (rowAt E E.cy).size) :
    (0 < E.cx →
      rowTexts (editorDelChar E) =
        (rowTexts E).set E.cy.toNat ((rowAt E E.cy).chars.eraseIdx (E.cx - 1).toNat) ∧
      (editorDelChar E).cx = E.cx - 1 ∧ (editorDelChar E).cy = E.cy ∧
      (editorDelChar E).numrows = E.numrows) ∧
    (E.cx = 0 ∧ 0 < E.cy →
      rowTexts (editorDelChar E) =
        (rowTexts E).take (E.cy - 1).toNat ++
          [(rowAt E (E.cy - 1)).chars ++ (rowAt E E.cy).chars] ++
          (rowTexts E).drop (E.cy.toNat + 1) ∧
      (editorDelChar E).cx = (rowAt E (E.cy - 1)).size ∧ (editorDelChar E).cy = E.cy - 1 ∧
      (editorDelChar E).numrows = E.numrows - 1) ∧
    (E.cx = 0 ∧ E.cy = 0 → editorDelChar E = E) := by
  have hne : ¬ E.cy = E.numrows := by omega
  have hlt : E.cy.toNat < E.row.length := by omega
  refine ⟨?_, ?_, ?_⟩
  · intro hpos
    have h00 : ¬ (E.cx = 0 ∧ E.cy = 0) := by omega
    have hE : editorDelChar E = { editorRowDelChar E E.cy.toNat (E.cx - 1) with
        cx := (editorRowDelChar E E.cy.toNat (E.cx - 1)).cx - 1 } := by
      simp only [editorDelChar, if_neg hne, if_neg h00, if_pos (show E.cx > 0 from hpos)]
    obtain ⟨f1, f2, f3⟩ := rowDelChar_fields E E.cy.toNat (E.cx - 1)
    rw [hE]
    refine ⟨?_, by simp only [f1], f2, f3⟩
    show rowTexts (editorRowDelChar E E.cy.toNat (E.cx - 1)) = _
    rw [List.eraseIdx_eq_take_drop_succ]
    exact rowDelChar_chars E E.cy.toNat (rowAt E E.cy) (E.cx - 1)
      (getElem?_rowAt E E.cy hcy0 hlt) (by omega) (by omega)
  · rintro ⟨hx, hy⟩
    have h00 : ¬ (E.cx = 0 ∧ E.cy = 0) := by omega
    have hx' : ¬ E.cx > 0 := by omega
    have hp0 : 0 ≤ E.cy - 1 := by omega
    have hplt : (E.cy - 1).toNat < E.row.length := by omega
    obtain ⟨a1, a2, a3, a4⟩ := rowAppendString_chars
      { E with cx := (rowAt E (E.cy - 1)).size } (E.cy - 1).toNat (rowAt E (E.cy - 1))
      (rowAt E E.cy).chars (getElem?_rowAt E (E.cy - 1) hp0 hplt)
    obtain ⟨d1, _, d3, _, d5, d6⟩ := delRow_in_range
      (editorRowAppendString { E with cx := (rowAt E (E.cy - 1)).size } (E.cy - 1).toNat
        (rowAt E E.cy).chars) E.cy hcy0 (by rw [a4]; exact hcy1)
    have hE : editorDelChar E = { editorDelRow
        (editorRowAppendString { E with cx := (rowAt E (E.cy - 1)).size } (E.cy - 1).toNat
          (rowAt E E.cy).chars) E.cy with
        cy := (editorDelRow
          (editorRowAppendString { E with cx := (rowAt E (E.cy - 1)).size } (E.cy - 1).toNat
            (rowAt E E.cy).chars) E.cy).cy - 1 } := by
      simp only [editorDelChar, if_neg hne, if_neg h00, if_neg hx', a3]
    rw [hE]
    refine ⟨?_, by simp only [d5, a2], by simp only [d6, a3], by simp only [d3, a4]⟩
    show rowTexts (editorDelRow _ _) = _
    have d1' : rowTexts (editorDelRow
        (editorRowAppendString { E with cx := (rowAt E (E.cy - 1)).size } (E.cy - 1).toNat
          (rowAt E E.cy).chars) E.cy) =
        (rowTexts (editorRowAppendString { E with cx := (rowAt E (E.cy - 1)).size }
          (E.cy - 1).toNat (rowAt E E.cy).chars)).take E.cy.toNat ++
        (rowTexts (editorRowAppendString { E with cx := (rowAt E (E.cy - 1)).size }
          (E.cy - 1).toNat (rowAt E E.cy).chars)).drop (E.cy.toNat + 1) := d1
    rw [d1', a1]
    have hc : E.cy.toNat = (E.cy - 1).toNat + 1 := by omega
    have hT : rowTexts { E with cx := (rowAt E (E.cy - 1)).size } = rowTexts E := rfl
    rw [hT]
    have hL : (E.cy - 1).toNat < (rowTexts E).length := by simp [rowTexts]; omega
    rw [List.drop_set_of_lt _ _ (by omega)]
    nth_rewrite 1 [hc]
    rw [take_succ_set _ _ _ hL]
  · rintro ⟨hx, hy⟩
    simp only [editorDelChar, if_neg hne, if_pos (And.intro hx hy)]

/-- C17, at the buffer `twoRowBuffer` with the cursor at the start of row
1. -/
theorem C17_backspace_witness :
    rowTexts (editorDelChar { twoRowBuffer with cy := 1 }) = [bytes "abca"] ∧
      (editorDelChar { twoRowBuffer with cy := 1 }).cx = 3 ∧
      (editorDelChar { twoRowBuffer with cy := 1 }).cy = 0 ∧
      (editorDelChar { twoRowBuffer with cy := 1 }).numrows = 1 :=
  (C17_backspace { twoRowBuffer with cy := 1 } (by decide) (by decide) (by decide) (by decide)
    (by decide)).2.1 (by decide)

/-! ## Scrolling -/

theorem editorScroll_spec (E : editorConfig) :
    (editorScroll E).rx = (if E.cy < E.numrows then editorRowCxToRx (rowAt E E.cy) E.cx else 0) ∧
    (editorScroll E).cy = E.cy ∧ (editorScroll E).cx = E.cx ∧
    (editorScroll E).screenrows = E.screenrows ∧ (editorScroll E).screencols = E.screencols ∧
    (editorScroll E).numrows = E.numrows ∧ (editorScroll E).row = E.row ∧
    (editorScroll E).rowoff =
      (if E.cy ≥ (if E.cy < E.rowoff then E.cy else E.rowoff) + E.screenrows then
         E.cy - E.screenrows + 1
       else (if E.cy < E.rowoff then E.cy else E.rowoff)) ∧
    (editorScroll E).coloff =
      (if (editorScroll E).rx ≥
          (if (editorScroll E).rx < E.coloff then (editorScroll E).rx else E.coloff) +
            E.screencols then
         (editorScroll E).rx - E.screencols + 1
       else (if (editorScroll E).rx < E.coloff then (editorScroll E).rx else E.coloff)) := by
  suffices key : ∀ (E1 E2 E3 E4 E5 S : editorConfig), E1 = { E with rx := 0 } →
      E2 = (if E1.cy < E1.numrows then { E1 with rx := editorRowCxToRx (rowAt E1 E1.cy) E1.cx }
            else E1) →
      E3 = (if E2.cy < E2.rowoff then { E2 with rowoff := E2.cy } else E2) →
      E4 = (if E3.cy ≥ E3.rowoff + E3.screenrows then
              { E3 with rowoff := E3.cy - E3.screenrows + 1 } else E3) →
      E5 = (if E4.rx < E4.coloff then { E4 with coloff := E4.rx } else E4) →
      S = (if E5.rx ≥ E5.coloff + E5.screencols then
             { E5 with coloff := E5.rx - E5.screencols + 1 } else E5) →
      S.rx = (if E.cy < E.numrows then editorRowCxToRx (rowAt E E.cy) E.cx else 0) ∧
      S.cy = E.cy ∧ S.cx = E.cx ∧ S.screenrows = E.screenrows ∧
      S.screencols = E.screencols ∧ S.numrows = E.numrows ∧ S.row = E.row ∧
      S.rowoff =
        (if E.cy ≥ (if E.cy < E.rowoff then E.cy else E.rowoff) + E.screenrows then
           E.cy - E.screenrows + 1
         else (if E.cy < E.rowoff then E.cy else E.rowoff)) ∧
      S.coloff =
        (if S.rx ≥ (if S.rx < E.coloff then S.rx else E.coloff) + E.screencols then
           S.rx - E.screencols + 1
         else (if S.rx < E.coloff then S.rx else E.coloff)) by
    exact key _ _ _ _ _ (editorScroll E) rfl rfl rfl rfl rfl rfl
  intro E1 E2 E3 E4 E5 S hE1 hE2 hE3 hE4 hE5 hS
  have h2 : E2.rx = (if E.cy < E.numrows then editorRowCxToRx (rowAt E E.cy) E.cx else 0) ∧
      E2.cy = E.cy ∧ E2.cx = E.cx ∧ E2.screenrows = E.screenrows ∧
      E2.screencols = E.screencols ∧ E2.numrows = E.numrows ∧ E2.row = E.row ∧
      E2.rowoff = E.rowoff ∧ E2.coloff = E.coloff := by
    rw [hE2, hE1]
    simp only [rowAt]
    split_ifs <;> exact ⟨rfl, rfl, rfl, rfl, rfl, rfl, rfl, rfl, rfl⟩
  obtain ⟨a1, a2, a3, a4, a5, a6, a7, a8, a9⟩ := h2
  have h3 : E3.rx = E2.rx ∧ E3.cy = E2.cy ∧ E3.cx = E2.cx ∧ E3.screenrows = E2.screenrows ∧
      E3.screencols = E2.screencols ∧ E3.numrows = E2.numrows ∧ E3.row = E2.row ∧
      E3.rowoff = (if E2.cy < E2.rowoff then E2.cy else E2.rowoff) ∧ E3.coloff = E2.coloff := by
    rw [hE3]
    split_ifs <;> exact ⟨rfl, rfl, rfl, rfl, rfl, rfl, rfl, rfl, rfl⟩
  obtain ⟨b1, b2, b3, b4, b5, b6, b7, b8, b9⟩ := h3
  have h4 : E4.rx = E3.rx ∧ E4.cy = E3.cy ∧ E4.cx = E3.cx ∧ E4.screenrows = E3.screenrows ∧
      E4.screencols = E3.screencols ∧ E4.numrows = E3.numrows ∧ E4.row = E3.row ∧
      E4.rowoff = (if E3.cy ≥ E3.rowoff + E3.screenrows then E3.cy - E3.screenrows + 1
        else E3.rowoff) ∧ E4.coloff = E3.coloff := by
    rw [hE4]
    split_ifs <;> exact ⟨rfl, rfl, rfl, rfl, rfl, rfl, rfl, rfl, rfl⟩
  obtain ⟨c1, c2, c3, c4, c5, c6, c7, c8, c9⟩ := h4
  have h5 : E5.rx = E4.rx ∧ E5.cy = E4.cy ∧ E5.cx = E4.cx ∧ E5.screenrows = E4.screenrows ∧
      E5.screencols = E4.screencols ∧ E5.numrows = E4.numrows ∧ E5.row = E4.row ∧
      E5.rowoff = E4.rowoff ∧ E5.coloff = (if E4.rx < E4.coloff then E4.rx else E4.coloff) := by
    rw [hE5]
    split_ifs <;> exact ⟨rfl, rfl, rfl, rfl, rfl, rfl, rfl, rfl, rfl⟩
  obtain ⟨d1, d2, d3, d4, d5, d6, d7, d8, d9⟩ := h5
  have h6 : (if E5.rx ≥ E5.coloff + E5.screencols then
        { E5 with coloff := E5.rx - E5.screencols + 1 } else E5).rx = E5.rx ∧
      (if E5.rx ≥ E5.coloff + E5.screencols then
        { E5 with coloff := E5.rx - E5.screencols + 1 } else E5).cy = E5.cy ∧
      (if E5.rx ≥ E5.coloff + E5.screencols then
        { E5 with coloff := E5.rx - E5.screencols + 1 } else E5).cx = E5.cx ∧
      (if E5.rx ≥ E5.coloff + E5.screencols then
        { E5 with coloff := E5.rx - E5.screencols + 1 } else E5).screenrows = E5.screenrows ∧
      (if E5.rx ≥ E5.coloff + E5.screencols then
        { E5 with coloff := E5.rx - E5.screencols + 1 } else E5).screencols = E5.screencols ∧
      (if E5.rx ≥ E5.coloff + E5.screencols then
        { E5 with coloff := E5.rx - E5.screencols + 1 } else E5).numrows = E5.numrows ∧
      (if E5.rx ≥ E5.coloff + E5.screencols then
        { E5 with coloff := E5.rx - E5.screencols + 1 } else E5).row = E5.row ∧
      (if E5.rx ≥ E5.coloff + E5.screencols then
        { E5 with coloff := E5.rx - E5.screencols + 1 } else E5).rowoff = E5.rowoff ∧
      (if E5.rx ≥ E5.coloff + E5.screencols then
        { E5 with coloff := E5.rx - E5.screencols + 1 } else E5).coloff =
        (if E5.rx ≥ E5.coloff + E5.screencols then E5.rx - E5.screencols + 1 else E5.coloff) := by
    split_ifs <;> exact ⟨rfl, rfl, rfl, rfl, rfl, rfl, rfl, rfl, rfl⟩
  rw [← hS] at h6
  obtain ⟨e1, e2, e3, e4, e5, e6, e7, e8, e9⟩ := h6
  refine ⟨?_, ?_, ?_, ?_, ?_, ?_, ?_, ?_, ?_⟩
  · rw [e1, d1, c1, b1, a1]
  · rw [e2, d2, c2, b2, a2]
  · rw [e3, d3, c3, b3, a3]
  · rw [e4, d4, c4, b4, a4]
  · rw [e5, d5, c5, b5, a5]
  · rw [e6, d6, c6, b6, a6]
  · rw [e7, d7, c7, b7, a7]
  · rw [e8, d8, c8, b2, b8, b4, a2, a8, a4]
  · rw [e9, e1, d1, d9, d5, c1, c9, c5, b1, b9, b5, a9, a5]

/-- C19: for every editor state with `screenrows ≥ 1`, `screencols ≥ 1` and
a valid cursor, after `editorScroll`: `rx` is the render column of the cursor
(`0` when `cy = numrows`), `rowoff ≤ cy < rowoff + screenrows` and
`coloff ≤ rx < coloff + screencols`; each offset is unchanged when the cursor
was inside its window already, and otherwise no offset that has the cursor
inside the window is closer to the old offset. -/
theorem C19_scroll_keeps_cursor_in_window (E : editorConfig) (hr : 1 ≤ E.screenrows)
    (hc : 1 ≤ E.screencols) (hcur : cursorValid E) :
    (editorScroll E).rx =
      (if E.cy < E.numrows then editorRowCxToRx (rowAt E E.cy) E.cx else 0) ∧
    (editorScroll E).cy = E.cy ∧ (editorScroll E).cx = E.cx ∧
    ((editorScroll E).rowoff ≤ E.cy ∧ E.cy < (editorScroll E).rowoff + E.screenrows) ∧
    ((editorScroll E).coloff ≤ (editorScroll E).rx ∧
      (editorScroll E).rx < (editorScroll E).coloff + E.screencols) ∧
    (E.rowoff ≤ E.cy ∧ E.cy < E.rowoff + E.screenrows → (editorScroll E).rowoff = E.rowoff) ∧
    (E.coloff ≤ (editorScroll E).rx ∧ (editorScroll E).rx < E.coloff + E.screencols →
      (editorScroll E).coloff = E.coloff) ∧
    (∀ o : Int, o ≤ E.cy ∧ E.cy < o + E.screenrows →
      ((editorScroll E).rowoff - E.rowoff).natAbs ≤ (o - E.rowoff).natAbs) ∧
    (∀ o : Int, o ≤ (editorScroll E).rx ∧ (editorScroll E).rx < o + E.screencols →
      ((editorScroll E).coloff - E.coloff).natAbs ≤ (o - E.coloff).natAbs) := by
  obtain ⟨h1, h2, h3, _, _, _, _, h8, h9⟩ := editorScroll_spec E
  refine ⟨h1, h2, h3, ?_, ?_, ?_, ?_, ?_, ?_⟩
  · rw [h8]
    split_ifs <;> omega
  · rw [h9]
    split_ifs <;> omega
  · intro hw
    rw [h8]
    split_ifs <;> omega
  · intro hw
    rw [h9]
    split_ifs <;> omega
  · intro o ho
    rw [h8]
    split_ifs <;> omega
  · intro o ho
    rw [h9]
    split_ifs <;> omega

/-- C19, at the buffer `twoRowBuffer` with the cursor on row 1 and both
offsets past it. -/
theorem C19_scroll_keeps_cursor_in_window_witness :
    (editorScroll { twoRowBuffer with cy := 1, cx := 1, rowoff := 5, coloff := 7 }).rx = 1 ∧
    (editorScroll { twoRowBuffer with cy := 1, cx := 1, rowoff := 5, coloff := 7 }).rowoff = 1 ∧
    (editorScroll { twoRowBuffer with cy := 1, cx := 1, rowoff := 5, coloff := 7 }).coloff = 1 :=
  ⟨(C19_scroll_keeps_cursor_in_window
      { twoRowBuffer with cy := 1, cx := 1, rowoff := 5, coloff := 7 }
      (by decide) (by decide) (by decide)).1, by decide, by decide⟩

/-! ## Cursor movement -/

theorem clampCx_spec (E : editorConfig) :
    (clampCx E).numrows = E.numrows ∧ (clampCx E).row = E.row ∧ (clampCx E).cy = E.cy ∧
    (clampCx E).rowoff = E.rowoff ∧ (clampCx E).screenrows = E.screenrows ∧
    (clampCx E).dirty = E.dirty ∧ (clampCx E).mode = E.mode ∧
    (clampCx E).cx =
      (if E.cx > (if E.cy ≥ E.numrows then 0 else (rowAt E E.cy).size) then
        (if E.cy ≥ E.numrows then 0 else (rowAt E E.cy).size) else E.cx) := by
  unfold clampCx
  dsimp only
  split_ifs <;> exact ⟨rfl, rfl, rfl, rfl, rfl, rfl, rfl, rfl⟩

theorem rowAt_congr (E E' : editorConfig) (i : Int) (h : E'.row = E.row) :
    rowAt E' i = rowAt E i := by
  simp only [rowAt, h]

theorem clampCx_valid (E : editorConfig) (h0 : 0 ≤ E.cy) (h1 : E.cy ≤ E.numrows)
    (h2 : 0 ≤ E.cx) : cursorValid (clampCx E) := by
  obtain ⟨a1, a2, a3, _, _, _, _, a8⟩ := clampCx_spec E
  have hsz : 0 ≤ (rowAt E E.cy).size := by simp [erow.size]
  unfold cursorValid
  rw [a1, a3, a8, rowAt_congr _ _ _ a2]
  refine ⟨h0, h1, ?_, ?_⟩
  · split_ifs <;> omega
  · split_ifs <;> omega

theorem moveCursorSwitch_spec (E : editorConfig) (key : Int) :
    (moveCursorSwitch E key).numrows = E.numrows ∧ (moveCursorSwitch E key).row = E.row ∧
    (moveCursorSwitch E key).rowoff = E.rowoff ∧
    (moveCursorSwitch E key).screenrows = E.screenrows ∧
    (moveCursorSwitch E key).dirty = E.dirty ∧ (moveCursorSwitch E key).mode = E.mode ∧
    (0 ≤ E.cy → E.cy ≤ E.numrows → 0 ≤ E.cx →
      0 ≤ (moveCursorSwitch E key).cy ∧ (moveCursorSwitch E key).cy ≤ E.numrows ∧
      0 ≤ (moveCursorSwitch E key).cx) := by
  have hsz : ∀ i, 0 ≤ (rowAt E i).size := fun i => by simp [erow.size]
  have hs1 := hsz (E.cy - 1)
  unfold moveCursorSwitch
  dsimp only
  split_ifs <;> (try dsimp only) <;> (try split_ifs) <;>
    first
    | exact ⟨rfl, rfl, rfl, rfl, rfl, rfl, fun _ _ _ => by omega⟩
    | exact ⟨rfl, rfl, rfl, rfl, rfl, rfl, fun _ _ _ => by
        refine ⟨?_, ?_, ?_⟩ <;> dsimp only <;> omega⟩

theorem moveCursor_valid (E : editorConfig) (key : Int) (h0 : 0 ≤ E.cy)
    (h1 : E.cy ≤ E.numrows) (h2 : 0 ≤ E.cx) : cursorValid (editorMoveCursor E key) := by
  obtain ⟨a1, _, _, _, _, _, a7⟩ := moveCursorSwitch_spec E key
  obtain ⟨b1, b2, b3⟩ := a7 h0 h1 h2
  exact clampCx_valid _ b1 (by rw [a1]; exact b2) b3

theorem moveCursor_fields (E : editorConfig) (key : Int) :
    (editorMoveCursor E key).numrows = E.numrows ∧ (editorMoveCursor E key).row = E.row ∧
    (editorMoveCursor E key).rowoff = E.rowoff ∧
    (editorMoveCursor E key).screenrows = E.screenrows ∧
    (editorMoveCursor E key).dirty = E.dirty ∧ (editorMoveCursor E key).mode = E.mode := by
  obtain ⟨a1, a2, a3, a4, a5, a6, _⟩ := moveCursorSwitch_spec E key
  obtain ⟨b1, b2, _, b4, b5, b6, b7, _⟩ := clampCx_spec (moveCursorSwitch E key)
  unfold editorMoveCursor
  exact ⟨b1.trans a1, b2.trans a2, b4.trans a3, b5.trans a4, b6.trans a5, b7.trans a6⟩

theorem moveCursorTimes_valid (key : Int) :
    ∀ (n : Nat) (E : editorConfig), cursorValid E → cursorValid (moveCursorTimes key n E) := by
  intro n
  induction n with
  | zero => intro E h; exact h
  | succ n ih =>
    intro E h
    simp only [moveCursorTimes]
    exact ih _ (moveCursor_valid E key h.1 h.2.1 h.2.2.1)

theorem moveCursorTimes_valid_pos (key : Int) (n : Nat) (E : editorConfig) (hn : 1 ≤ n)
    (h0 : 0 ≤ E.cy) (h1 : E.cy ≤ E.numrows) (h2 : 0 ≤ E.cx) :
    cursorValid (moveCursorTimes key n E) := by
  obtain ⟨m, rfl⟩ : ∃ m, n = m + 1 := ⟨n - 1, by omega⟩
  simp only [moveCursorTimes]
  exact moveCursorTimes_valid key m _ (moveCursor_valid E key h0 h1 h2)

theorem pageMove_valid (E : editorConfig) (c : Int) (hcur : cursorValid E)
    (hoff : 0 ≤ E.rowoff ∧ E.rowoff ≤ E.numrows) (hsr : 1 ≤ E.screenrows) :
    cursorValid (pageMove E c) := by
  unfold pageMove
  dsimp only
  split_ifs <;>
    (apply moveCursorTimes_valid_pos <;> dsimp only <;> first | omega | exact hcur.2.2.1)

theorem normalKey_eq (find cmd : editorConfig → editorConfig) (E : editorConfig) :
    editorProcessNormalKeypress find cmd E 71 = { E with cy := E.numrows - 1 } ∧
    editorProcessNormalKeypress find cmd E GG_SEQ = { E with cy := 0 } ∧
    editorProcessNormalKeypress find cmd E 79 =
      editorInsertNewline (editorEnableInsertMode
        (if (editorMoveCursor E ARROW_UP).cy < (editorMoveCursor E ARROW_UP).numrows then
          { editorMoveCursor E ARROW_UP with
            cx := (rowAt (editorMoveCursor E ARROW_UP) (editorMoveCursor E ARROW_UP).cy).size }
         else editorMoveCursor E ARROW_UP)) := by
  have h1 : CTRL_KEY 104 = 8 := by decide
  have h2 : CTRL_KEY 108 = 12 := by decide
  refine ⟨?_, ?_, ?_⟩ <;>
    simp [editorProcessNormalKeypress, GG_SEQ, HOME_KEY, END_KEY, BACKSPACE, h1, h2, DEL_KEY,
      PAGE_UP, PAGE_DOWN, ARROW_LEFT, ARROW_RIGHT, ARROW_UP, ARROW_DOWN]

/-- Every Normal-mode key that moves the cursor, other than `G` and the
`gg` sequence, keeps the cursor invariant, in a state whose row offset lies in
`[0, numrows]` and whose window has at least one row. -/
theorem normalKeys_keep_cursor (find cmd : editorConfig → editorConfig) (E : editorConfig)
    (c : Int) (hcur : cursorValid E) (hoff : 0 ≤ E.rowoff ∧ E.rowoff ≤ E.numrows)
    (hsr : 1 ≤ E.screenrows)
    (hc : c ∈ [104, 106, 107, 108, ARROW_LEFT, ARROW_DOWN, ARROW_UP, ARROW_RIGHT, 48, 36,
      HOME_KEY, END_KEY, PAGE_UP, PAGE_DOWN, 13, 32, BACKSPACE]) :
    cursorValid (editorProcessNormalKeypress find cmd E c) := by
  have hmove := fun key => moveCursor_valid E key hcur.1 hcur.2.1 hcur.2.2.1
  have hpage := fun key => pageMove_valid E key hcur hoff hsr
  have hzero : cursorValid { E with cx := 0 } := by
    obtain ⟨h0, h1, h2, h3⟩ := hcur
    refine ⟨h0, h1, le_refl _, ?_⟩
    show (if E.cy < E.numrows then (0 : Int) ≤ (rowAt E E.cy).size else (0 : Int) = 0)
    split_ifs
    · simp [erow.size]
    · rfl
  have hend : cursorValid (if E.cy < E.numrows then { E with cx := (rowAt E E.cy).size } else E) := by
    split_ifs with h
    · refine ⟨hcur.1, hcur.2.1, by simp [erow.size], ?_⟩
      show (if E.cy < E.numrows then (rowAt E E.cy).size ≤ (rowAt E E.cy).size
        else (rowAt E E.cy).size = 0)
      rw [if_pos h]
    · exact hcur
  have h1 : CTRL_KEY 104 = 8 := by decide
  have h2 : CTRL_KEY 108 = 12 := by decide
  simp only [List.mem_cons, List.mem_singleton, List.not_mem_nil, or_false] at hc
  rcases hc with rfl | rfl | rfl | rfl | rfl | rfl | rfl | rfl | rfl | rfl | rfl | rfl | rfl |
    rfl | rfl | rfl | rfl <;>
    simp [editorProcessNormalKeypress, GG_SEQ, HOME_KEY, END_KEY, BACKSPACE, h1, h2, DEL_KEY,
      PAGE_UP, PAGE_DOWN, ARROW_LEFT, ARROW_RIGHT, ARROW_UP, ARROW_DOWN] <;>
    first
    | exact hmove _
    | exact hzero
    | exact hend
    | exact hpage _

/-! ## Opening a line above -/

theorem moveCursor_up (E : editorConfig) (h : E.cy ≠ 0) :
    (editorMoveCursor E ARROW_UP).cy = E.cy - 1 ∧ (editorMoveCursor E ARROW_UP).row = E.row ∧
    (editorMoveCursor E ARROW_UP).numrows = E.numrows := by
  obtain ⟨b1, b2, b3, _⟩ := clampCx_spec (moveCursorSwitch E ARROW_UP)
  have hs : moveCursorSwitch E ARROW_UP = { E with cy := E.cy - 1 } := by
    simp [moveCursorSwitch, h]
  unfold editorMoveCursor
  rw [b1, b2, b3, hs]
  exact ⟨rfl, rfl, rfl⟩

/-- Below the first row, `O` opens a line above the current row: an empty row
enters the row sequence at the index of the cursor row, the cursor is at
column 0 of it, and the mode is Insert. -/
theorem openAbove_below_first (find cmd : editorConfig → editorConfig) (E : editorConfig)
    (hn : E.numrows = E.row.length) (h0 : 0 < E.cy) (h1 : E.cy < E.numrows) :
    rowTexts (editorProcessNormalKeypress find cmd E 79) =
      (rowTexts E).take E.cy.toNat ++ [[]] ++ (rowTexts E).drop E.cy.toNat ∧
    (editorProcessNormalKeypress find cmd E 79).numrows = E.numrows + 1 ∧
    (editorProcessNormalKeypress find cmd E 79).cx = 0 ∧
    (editorProcessNormalKeypress find cmd E 79).cy = E.cy ∧
    (editorProcessNormalKeypress find cmd E 79).mode = editorMode.Insert := by
  rw [(normalKey_eq find cmd E).2.2]
  obtain ⟨u1, u2, u3⟩ := moveCursor_up E (by omega)
  suffices key : ∀ E1 : editorConfig, E1.cy = E.cy - 1 → E1.row = E.row →
      E1.numrows = E.numrows →
      rowTexts (editorInsertNewline (editorEnableInsertMode
        (if E1.cy < E1.numrows then { E1 with cx := (rowAt E1 E1.cy).size } else E1))) =
        (rowTexts E).take E.cy.toNat ++ [[]] ++ (rowTexts E).drop E.cy.toNat ∧
      (editorInsertNewline (editorEnableInsertMode
        (if E1.cy < E1.numrows then { E1 with cx := (rowAt E1 E1.cy).size } else E1))).numrows =
        E.numrows + 1 ∧
      (editorInsertNewline (editorEnableInsertMode
        (if E1.cy < E1.numrows then { E1 with cx := (rowAt E1 E1.cy).size } else E1))).cx = 0 ∧
      (editorInsertNewline (editorEnableInsertMode
        (if E1.cy < E1.numrows then { E1 with cx := (rowAt E1 E1.cy).size } else E1))).cy =
        E.cy ∧
      (editorInsertNewline (editorEnableInsertMode
        (if E1.cy < E1.numrows then { E1 with cx := (rowAt E1 E1.cy).size } else E1))).mode =
        editorMode.Insert by
    exact key _ u1 u2 u3
  intro E1 v1 v2 v3
  rw [if_pos (by omega)]
  have hsz : (0 : Int) ≤ (rowAt E1 E1.cy).size := by simp [erow.size]
  obtain ⟨a, _, c, d, e, f⟩ := insertNewline_spec
    (editorEnableInsertMode { E1 with cx := (rowAt E1 E1.cy).size })
    (by show E1.numrows = E1.row.length; rw [v2, v3]; exact hn)
    (by show 0 ≤ E1.cy; omega) (by show E1.cy < E1.numrows; omega) hsz (le_refl _)
  refine ⟨?_, by rw [c]; exact congrArg (· + 1) v3, d, by rw [e]; show E1.cy + 1 = E.cy; omega, f⟩
  rw [a]
  have hT : rowTexts (editorEnableInsertMode { E1 with cx := (rowAt E1 E1.cy).size }) =
      rowTexts E := by
    show E1.row.map _ = E.row.map _
    rw [v2]
  have hR : rowAt (editorEnableInsertMode { E1 with cx := (rowAt E1 E1.cy).size })
      (editorEnableInsertMode { E1 with cx := (rowAt E1 E1.cy).size }).cy = rowAt E1 E1.cy := rfl
  have hcy : (editorEnableInsertMode { E1 with cx := (rowAt E1 E1.cy).size }).cy = E1.cy := rfl
  have hcx : (editorEnableInsertMode { E1 with cx := (rowAt E1 E1.cy).size }).cx =
      (rowAt E1 E1.cy).size := rfl
  rw [hT, hR, hcy, hcx]
  have hlen : E1.cy.toNat < (rowTexts E).length := by simp [rowTexts]; omega
  have hto : E1.cy.toNat + 1 = E.cy.toNat := by omega
  have hch : (rowAt E1 E1.cy).chars = (rowTexts E).getD E1.cy.toNat [] := by
    rw [rowAt_chars E1 E1.cy (by omega)]
    show (E1.row.map _).getD _ _ = (E.row.map _).getD _ _
    rw [v2]
  have htk : (rowTexts E).take E.cy.toNat =
      (rowTexts E).take E1.cy.toNat ++ [(rowAt E1 E1.cy).chars] := by
    rw [← hto, take_succ_getD (rowTexts E) E1.cy.toNat [] hlen, hch]
  rw [htk, hto]
  simp [erow.size]

/-- The statement `openAbove_below_first` at the buffer `twoRowBuffer` with
the cursor on row 1. -/
theorem openAbove_below_first_example :
    rowTexts (editorProcessNormalKeypress id id { twoRowBuffer with cy := 1 } 79) =
      [bytes "abc", [], bytes "a"] ∧
    (editorProcessNormalKeypress id id { twoRowBuffer with cy := 1 } 79).cy = 1 := by
  decide

/-! ## Highlight writes stay inside the row -/

theorem strlen_getD_ne : ∀ (b : List Nat) (t : Nat), t < strlen b → b.getD t 0 ≠ 0 := by
  intro b
  induction b with
  | nil => intro t h; simp [strlen, cstr] at h
  | cons x rest ih =>
    intro t h
    by_cases hx : x = 0
    · simp [strlen, cstr, hx] at h
    · have hs : strlen (x :: rest) = strlen rest + 1 := by simp [strlen, cstr, hx]
      cases t with
      | zero => simpa using hx
      | succ t =>
        have := ih t (by omega)
        simpa using this

theorem strncmpEq_length : ∀ (n : Nat) (a b : List Nat), strncmpEq a b n = true →
    (∀ t, t < n → b.getD t 0 ≠ 0) → n ≤ a.length := by
  intro n
  induction n with
  | zero => intro a b _ _; exact Nat.zero_le _
  | succ n ih =>
    intro a b h hb
    simp only [strncmpEq] at h
    have hb0 : b.headD 0 ≠ 0 := by
      have := hb 0 (by omega)
      cases b with
      | nil => simp at this
      | cons y b' => simpa using this
    split_ifs at h with h1 h2
    · exact absurd ((not_not.1 h1).symm.trans h2) hb0
    · cases a with
      | nil => exact absurd rfl h2
      | cons x a' =>
        have := ih a' b.tail h (fun t ht => by
          have := hb (t + 1) (by omega)
          cases b with
          | nil => simp at this
          | cons y b' => simpa using this)
        simp only [List.length_cons]
        omega

theorem strncmpEq_bound (render pat : List Nat) (i n : Nat) (hi : i < render.length)
    (hn : n ≤ strlen pat) (h : strncmpEq (render.drop i) pat n = true) :
    i + n ≤ render.length := by
  have := strncmpEq_length n (render.drop i) pat h
    (fun t ht => strlen_getD_ne pat t (by omega))
  simp only [List.length_drop] at this
  omega

theorem keywordLoop_bound (render : List Nat) (i : Nat) (hi : i < render.length) :
    ∀ (kws : List (List Nat)) (b : Bool) (klen : Nat),
      keywordLoop render i kws = some (b, klen) → i + klen ≤ render.length := by
  intro kws
  induction kws with
  | nil => intro b klen h; simp [keywordLoop] at h
  | cons kw rest ih =>
    intro b klen h
    simp only [keywordLoop] at h
    by_cases h124 : kw.getD (strlen kw - 1) 0 = 124
    · simp only [h124, decide_True, if_true] at h
      by_cases hm : strncmpEq (List.drop i render) kw (strlen kw - 1) = true ∧
          is_separator (render.getD (i + (strlen kw - 1)) 0) = true
      · rw [if_pos hm] at h
        simp only [Option.some.injEq, Prod.mk.injEq] at h
        rw [← h.2]
        exact strncmpEq_bound render kw i _ hi (by omega) hm.1
      · rw [if_neg hm] at h
        exact ih b klen h
    · simp only [h124, decide_False, Bool.false_eq_true, if_false] at h
      by_cases hm : strncmpEq (List.drop i render) kw (strlen kw) = true ∧
          is_separator (render.getD (i + strlen kw) 0) = true
      · rw [if_pos hm] at h
        simp only [Option.some.injEq, Prod.mk.injEq] at h
        rw [← h.2]
        exact strncmpEq_bound render kw i _ hi (le_refl _) hm.1
      · rw [if_neg hm] at h
        exact ih b klen h

theorem memset_length (buf : List Nat) (i v n : Nat) (h : i + n ≤ buf.length) :
    (memset buf i v n).length = buf.length := by
  simp only [memset, List.length_append, List.length_take, List.length_replicate,
    List.length_drop]
  omega

theorem memset_getElem?_outside (buf : List Nat) (i v n j : Nat) (h : i + n ≤ buf.length)
    (hj : j < i ∨ i + n ≤ j) : (memset buf i v n)[j]? = buf[j]? := by
  simp only [memset, List.append_assoc]
  rcases hj with hj | hj
  · rw [List.getElem?_append_left (by simp; omega), List.getElem?_take]
    simp [hj]
  · rw [List.getElem?_append_right (by simp; omega),
      List.getElem?_append_right (by simp; omega)]
    simp only [List.length_take, List.length_replicate, List.getElem?_drop]
    congr 1
    omega

theorem writesWithin_nil (n : Nat) (hl : List Nat) (h : hl.length = n) :
    writesWithin n hl hl [] :=
  ⟨by simp, h, fun _ _ => rfl⟩

theorem writesWithin_memset (n : Nat) (hl : List Nat) (i v k : Nat) (h : hl.length = n)
    (hb : i + k ≤ n) : writesWithin n hl (memset hl i v k) [(i, k)] := by
  refine ⟨by simpa using hb, by rw [memset_length _ _ _ _ (by omega), h], ?_⟩
  intro j hj
  exact memset_getElem?_outside _ _ _ _ _ (by omega) (by simpa using hj)

theorem writesWithin_set (n : Nat) (hl : List Nat) (i v : Nat) (h : hl.length = n)
    (hb : i < n) : writesWithin n hl (hl.set i v) [(i, 1)] := by
  refine ⟨by simpa using hb, by simpa using h, ?_⟩
  intro j hj
  have : j < i ∨ i + 1 ≤ j := by simpa using hj
  exact List.getElem?_set_ne (by omega)

theorem writesWithin_cons (n : Nat) (old mid new : List Nat) (sp : Nat × Nat)
    (rest : List (Nat × Nat)) (h1 : writesWithin n old mid [sp])
    (h2 : writesWithin n mid new rest) : writesWithin n old new (sp :: rest) := by
  refine ⟨?_, h2.2.1, ?_⟩
  · intro span hs
    rcases List.mem_cons.1 hs with rfl | hs
    · exact h1.1 _ (by simp)
    · exact h2.1 _ hs
  · intro j hj
    rw [h2.2.2 j (fun span hs => hj span (by simp [hs])),
      h1.2.2 j (fun span hs => hj span (by
        have : span = sp := by simpa using hs
        simp [this]))]

theorem hlKeywordStep_writes (s : editorSyntax) (render : List Nat) (st : HlState)
    (hI : st.hl.length = render.length) (hi : st.i < render.length) :
    writesWithin render.length st.hl (hlKeywordStep s render st).2.hl
      (hlKeywordWrites s render st) := by
  unfold hlKeywordStep hlKeywordWrites
  simp only
  cases hk : (if st.prev_sep then keywordLoop render st.i s.keywords else none) with
  | none => exact writesWithin_nil _ _ hI
  | some p =>
    obtain ⟨kw2, klen⟩ := p
    have hb : st.i + klen ≤ render.length := by
      split_ifs at hk
      exact keywordLoop_bound render st.i hi _ _ _ hk
    exact writesWithin_memset _ _ _ _ _ hI hb

theorem hlNumberStep_writes (s : editorSyntax) (render : List Nat) (st : HlState)
    (hI : st.hl.length = render.length) (hi : st.i < render.length) :
    writesWithin render.length st.hl (hlNumberStep s render st).2.hl
      (hlNumberWrites s render st) := by
  unfold hlNumberStep hlNumberWrites
  simp only
  split_ifs <;>
    first
    | exact writesWithin_set _ _ _ _ hI hi
    | exact hlKeywordStep_writes s render st hI hi

theorem hlStringStep_writes (s : editorSyntax) (render : List Nat) (st : HlState)
    (hI : st.hl.length = render.length) (hi : st.i < render.length) :
    writesWithin render.length st.hl (hlStringStep s render st).2.hl
      (hlStringWrites s render st) := by
  unfold hlStringStep hlStringWrites
  simp only
  split_ifs <;>
    first
    | exact hlNumberStep_writes s render st hI hi
    | exact writesWithin_set _ _ _ _ hI hi
    | exact writesWithin_cons _ _ _ _ _ _ (writesWithin_set _ _ _ _ hI hi)
        (writesWithin_set _ _ _ _ (by simpa using hI)
          (by have h : render.getD st.i 0 = 92 ∧ st.i + 1 < render.length := by assumption
              exact h.2))

theorem hlCommentStep_writes (s : editorSyntax) (render : List Nat) (st : HlState)
    (hI : st.hl.length = render.length) (hi : st.i < render.length) :
    writesWithin render.length st.hl (hlCommentStep s render st).2.hl
      (hlCommentWrites s render st) := by
  unfold hlCommentStep hlCommentWrites
  simp only
  split_ifs <;>
    first
    | exact hlStringStep_writes s render st hI hi
    | exact writesWithin_set _ _ _ _ hI hi
    | exact writesWithin_memset _ _ _ _ _ hI
        (strncmpEq_bound render _ st.i _ hi (le_refl _) (by assumption))
    | exact writesWithin_cons _ _ _ _ _ _ (writesWithin_set _ _ _ _ hI hi)
        (writesWithin_memset _ _ _ _ _ (by simpa using hI)
          (strncmpEq_bound render _ st.i _ hi (le_refl _) (by assumption)))

theorem hlStep_writes (s : editorSyntax) (render : List Nat) (st : HlState)
    (hI : st.hl.length = render.length) (hi : st.i < render.length) :
    writesWithin render.length st.hl (hlStep s render st).2.hl (hlStepWrites s render st) := by
  unfold hlStep hlStepWrites
  simp only
  split_ifs <;>
    first
    | exact hlCommentStep_writes s render st hI hi
    | exact writesWithin_memset _ _ _ _ _ hI (by omega)

theorem hlLoop_length (s : editorSyntax) (render : List Nat) :
    ∀ (fuel : Nat) (st : HlState), st.hl.length = render.length →
      (hlLoop s render fuel st).hl.length = render.length := by
  intro fuel
  induction fuel with
  | zero => intro st h; exact h
  | succ n ih =>
    intro st hI
    simp only [hlLoop]
    split_ifs with hi hb
    · exact (hlStep_writes s render st hI hi).2.1
    · exact ih _ (hlStep_writes s render st hI hi).2.1
    · exact hI

theorem hlRow_length (s : editorSyntax) (render : List Nat) (seed : Bool) :
    (hlRow s render seed).hl.length = render.length :=
  hlLoop_length s render _ _ (by simp)

theorem updateSyntaxFuel_hl :
    ∀ (fuel : Nat) (E : editorConfig) (k j : Nat) (r : erow),
      (editorUpdateSyntaxFuel fuel E k).row[j]? = some r →
      E.row[j]? = some r ∨ r.hl.length = r.render.length := by
  intro fuel
  induction fuel with
  | zero => intro E k j r h; exact Or.inl h
  | succ n ih =>
    intro E k j r h
    simp only [editorUpdateSyntaxFuel] at h
    cases hrow : E.row[k]? with
    | none => rw [hrow] at h; exact Or.inl h
    | some row =>
      rw [hrow] at h
      have hkl : k < E.row.length := lt_length_of_getElem? hrow
      have hset : ∀ (new : erow), new.hl.length = new.render.length →
          (E.row.set k new)[j]? = some r → E.row[j]? = some r ∨ r.hl.length = r.render.length := by
        intro new hnew hj
        by_cases hjk : k = j
        · subst hjk
          rw [List.getElem?_set_self hkl] at hj
          cases hj
          exact Or.inr hnew
        · rw [List.getElem?_set_ne hjk] at hj
          exact Or.inl hj
      cases hsyn : E.syn with
      | none =>
        rw [hsyn] at h
        exact hset _ (by simp) h
      | some s =>
        rw [hsyn] at h
        have hgood : (updateSyntaxRow E s row).hl.length = (updateSyntaxRow E s row).render.length :=
          hlRow_length s row.render _
        dsimp only at h
        split_ifs at h
        · rcases ih _ _ _ _ h with h' | h'
          · exact hset _ hgood h'
          · exact Or.inr h'
        · exact hset _ hgood h

theorem updateSyntaxFuel_hl_at (fuel : Nat) (E : editorConfig) (k : Nat)
    (hk : k < E.row.length) (r : erow)
    (hget : (editorUpdateSyntaxFuel (fuel + 1) E k).row[k]? = some r) :
    r.hl.length = r.render.length := by
  simp only [editorUpdateSyntaxFuel] at hget
  rw [List.getElem?_eq_getElem hk] at hget
  dsimp only at hget
  have hself : ∀ (new : erow), (E.row.set k new)[k]? = some r → r = new := by
    intro new h
    rw [List.getElem?_set_self hk] at h
    cases h
    rfl
  cases hsyn : E.syn with
  | none =>
    rw [hsyn] at hget
    dsimp only at hget
    rw [hself _ hget]
    simp
  | some s =>
    rw [hsyn] at hget
    dsimp only at hget
    split_ifs at hget
    · rcases updateSyntaxFuel_hl _ _ _ _ _ hget with h1 | h1
      · rw [hself _ h1]
        exact hlRow_length s _ _
      · exact h1
    · rw [hself _ hget]
      exact hlRow_length s _ _

theorem updateSyntax_hl_at (E : editorConfig) (k : Nat) (hk : k < E.row.length) (r : erow)
    (hget : (editorUpdateSyntax E k).row[k]? = some r) : r.hl.length = r.render.length := by
  unfold editorUpdateSyntax at hget
  obtain ⟨m, hm⟩ : ∃ m, E.row.length = m + 1 := ⟨E.row.length - 1, by omega⟩
  rw [hm] at hget
  exact updateSyntaxFuel_hl_at m E k hk r hget

theorem updateRow_hl_length (E : editorConfig) (k : Nat) (hk : k < E.row.length) :
    ∃ row, (editorUpdateRow E k).row[k]? = some row ∧ row.hl.length = row.render.length := by
  have hlen : k < (editorUpdateRow E k).row.length := by rw [updateRow_length]; exact hk
  refine ⟨(editorUpdateRow E k).row[k], List.getElem?_eq_getElem hlen, ?_⟩
  have hget := List.getElem?_eq_getElem hlen
  generalize (editorUpdateRow E k).row[k] = r at hget ⊢
  unfold editorUpdateRow at hget
  rw [List.getElem?_eq_getElem hk] at hget
  exact updateSyntax_hl_at _ k (by simpa using hk) r hget

/-- C13: after `editorUpdateRow` on a row of the buffer, with or without a
ruleset, the row's `hl` has as many cells as its `render`, which is `rsize`;
the highlight pass `hlRow` ends with as many cells as `render` under every
ruleset; in every loop state with `i < rsize` and an `hl` of `rsize` cells,
every span the iteration writes (keyword, comment markers, comment rest,
string and escaped characters, numbers) ends at or before `rsize`, `hl` keeps
`rsize` cells and is unchanged outside of the spans; and every state the loop
reaches from such a state has an `hl` of `rsize` cells again. -/
theorem C13_hl_covers_render (E : editorConfig) (k : Nat) (hk : k < E.row.length) :
    (∃ row, (editorUpdateRow E k).row[k]? = some row ∧ row.hl.length = row.render.length ∧
      (row.hl.length : Int) = row.rsize) ∧
    (∀ (s : editorSyntax) (render : List Nat) (seed : Bool),
      (hlRow s render seed).hl.length = render.length) ∧
    (∀ (s : editorSyntax) (render : List Nat) (st : HlState),
      st.hl.length = render.length → st.i < render.length →
      writesWithin render.length st.hl (hlStep s render st).2.hl (hlStepWrites s render st)) ∧
    (∀ (s : editorSyntax) (render : List Nat) (fuel : Nat) (st : HlState),
      st.hl.length = render.length → (hlLoop s render fuel st).hl.length = render.length) := by
  refine ⟨?_, hlRow_length, hlStep_writes, hlLoop_length⟩
  obtain ⟨row, h1, h2⟩ := updateRow_hl_length E k hk
  exact ⟨row, h1, h2, by rw [h2]; rfl⟩

/-- C13, at row 1 of the buffer `commentScenario`, which is highlighted under
the C ruleset and starts inside a block comment. -/
theorem C13_hl_covers_render_witness :
    1 < commentScenario.row.length ∧
    ∃ row, (editorUpdateRow commentScenario 1).row[1]? = some row ∧
      row.hl.length = row.render.length ∧ (row.hl.length : Int) = row.rsize :=
  ⟨by decide, (C13_hl_covers_render commentScenario 1 (by decide)).1⟩

/-! ## Evaluations: the keys `G`, `gg` and `O`, and file names -/

/-- C11: the keys `G` and `gg` break the cursor invariant.  On the empty
buffer `G` moves the cursor to row `-1`; on the rows `abc`, `a` with the cursor
behind the `c` of row 0, `G` leaves `cx = 3` on row 1, whose size is 1; on the
rows `a`, `abc` with the cursor behind the `c` of row 1, `gg` leaves `cx = 3`
on row 0, whose size is 1.  In all three the state before satisfies the
invariant and the state after does not. -/
theorem C11_goto_line_keys_break_cursor :
    (cursorValid (initEditor 24 80) ∧
      (editorProcessNormalKeypress id id (initEditor 24 80) 71).cy = -1 ∧
      ¬ cursorValid (editorProcessNormalKeypress id id (initEditor 24 80) 71)) ∧
    (cursorValid { twoRowBuffer with cx := 3 } ∧
      (editorProcessNormalKeypress id id { twoRowBuffer with cx := 3 } 71).cx = 3 ∧
      (editorProcessNormalKeypress id id { twoRowBuffer with cx := 3 } 71).cy = 1 ∧
      (rowAt twoRowBuffer 1).size = 1 ∧
      ¬ cursorValid (editorProcessNormalKeypress id id { twoRowBuffer with cx := 3 } 71)) ∧
    (cursorValid { editorOpen (initEditor 24 80) (bytes "notes.txt") (bytes "a\nabc\n") with
        cx := 3, cy := 1 } ∧
      ¬ cursorValid (editorProcessNormalKeypress id id
        { editorOpen (initEditor 24 80) (bytes "notes.txt") (bytes "a\nabc\n") with
          cx := 3, cy := 1 } GG_SEQ)) := by
  decide

/-- C18: on the first row `O` opens the line below, not above.  In the buffer
with the single row `abc` and the cursor on row 0, after `O` the rows are
`abc` and the empty row, in this order, and the cursor is on row 1. -/
theorem C18_open_above_on_first_row :
    oneRowBuffer.cy = 0 ∧ oneRowBuffer.numrows = 1 ∧ rowTexts oneRowBuffer = [bytes "abc"] ∧
    rowTexts (editorProcessNormalKeypress id id oneRowBuffer 79) = [bytes "abc", []] ∧
    (editorProcessNormalKeypress id id oneRowBuffer 79).numrows = 2 ∧
    (editorProcessNormalKeypress id id oneRowBuffer 79).cx = 0 ∧
    (editorProcessNormalKeypress id id oneRowBuffer 79).cy = 1 ∧
    (editorProcessNormalKeypress id id oneRowBuffer 79).mode = editorMode.Insert := by
  decide

/-- C20: a name that ends with `.c` and holds `.c` earlier too selects no
ruleset: `strstr` finds the first occurrence only, and the byte after it is
not the end of the name. -/
theorem C20_suffix_after_earlier_match :
    bytes ".c" <:+ bytes "my.config.c" ∧
    (editorSelectSyntaxHighlight
      { initEditor 24 80 with filename := some (bytes "my.config.c") }).syn = none ∧
    (editorSelectSyntaxHighlight
      { initEditor 24 80 with filename := some (bytes "main.c") }).syn = some HLDB_c := by
  decide

/-! ## The dirty counter -/

theorem dirtyTracks_refl (E E' : editorConfig) (h1 : E'.numrows = E.numrows)
    (h2 : rowTexts E' = rowTexts E) (h3 : E'.dirty = E.dirty) :
    dirtyTracks E E' ∧ E'.dirty ≤ E.dirty + 0 := by
  refine ⟨⟨by omega, ?_⟩, by omega⟩
  rintro (h | h)
  · exact absurd h1 h
  · exact absurd h2 h

theorem dirtyTracks_trans (E E' E'' : editorConfig) (a b : Int)
    (h1 : dirtyTracks E E' ∧ E'.dirty ≤ E.dirty + a)
    (h2 : dirtyTracks E' E'' ∧ E''.dirty ≤ E'.dirty + b) :
    dirtyTracks E E'' ∧ E''.dirty ≤ E.dirty + (a + b) := by
  refine ⟨⟨le_trans h1.1.1 h2.1.1, ?_⟩, by omega⟩
  intro h
  by_cases ha : E'.numrows ≠ E.numrows ∨ rowTexts E' ≠ rowTexts E
  · exact lt_of_lt_of_le (h1.1.2 ha) h2.1.1
  · have hb : E''.numrows ≠ E'.numrows ∨ rowTexts E'' ≠ rowTexts E' := by
      simp only [not_or, not_not] at ha
      rw [ha.1, ha.2]
      exact h
    exact lt_of_le_of_lt h1.1.1 (h2.1.2 hb)

/-- A call that changes nothing or runs `E.dirty++` once, made with a dirty
counter that is an `int` below `INT_MAX`, raises the counter by at most one and
by one when it changes anything. -/
theorem dirtyTracks_step (E E' : editorConfig)
    (h : E' = E ∨ E'.dirty = wrapInt (E.dirty + 1)) (h1 : INT_MIN ≤ E.dirty)
    (h2 : E.dirty < INT_MAX) : dirtyTracks E E' ∧ E'.dirty ≤ E.dirty + 1 := by
  rcases h with h | h
  · rw [h]
    exact ⟨(dirtyTracks_refl E E rfl rfl rfl).1, by omega⟩
  · rw [wrapInt_succ _ h1 h2] at h
    exact ⟨⟨by omega, fun _ => by omega⟩, by omega⟩

/-- What the dirty-counter argument needs to know of a row-store call: it
changes nothing, or it runs `E.dirty++` once; it keeps the cursor; and
`numrows` keeps counting the rows. -/
theorem insertRow_step (E : editorConfig) (at_ : Int) (s : List Nat)
    (hn : E.numrows = E.row.length) :
    (editorInsertRow E at_ s = E ∨
      (editorInsertRow E at_ s).dirty = wrapInt (E.dirty + 1)) ∧
    (editorInsertRow E at_ s).numrows = (editorInsertRow E at_ s).row.length ∧
    (editorInsertRow E at_ s).cx = E.cx ∧ (editorInsertRow E at_ s).cy = E.cy := by
  by_cases hat : at_ < 0 ∨ at_ > E.numrows
  · rw [insertRow_out_of_range E at_ s hat]
    exact ⟨Or.inl rfl, hn, rfl, rfl⟩
  · obtain ⟨hd, hcx, hcy, _⟩ := insertRow_fields E at_ s (by omega) (by omega)
    obtain ⟨_, hnum, hlen⟩ := insertRow_chars E at_ s (by omega) (by omega)
    exact ⟨Or.inr hd, by rw [hnum, hlen, hn]; push_cast; rfl, hcx, hcy⟩

theorem delRow_step (E : editorConfig) (at_ : Int) (hn : E.numrows = E.row.length) :
    (editorDelRow E at_ = E ∨ (editorDelRow E at_).dirty = wrapInt (E.dirty + 1)) ∧
    (editorDelRow E at_).numrows = (editorDelRow E at_).row.length ∧
    (editorDelRow E at_).cx = E.cx ∧ (editorDelRow E at_).cy = E.cy := by
  by_cases hat : at_ < 0 ∨ at_ ≥ E.numrows
  · rw [delRow_out_of_range E at_ hat]
    exact ⟨Or.inl rfl, hn, rfl, rfl⟩
  · obtain ⟨hc, _, hnum, hd, hcx, hcy⟩ := delRow_in_range E at_ (by omega) (by omega)
    refine ⟨Or.inr hd, ?_, hcx, hcy⟩
    have hl := congrArg List.length hc
    simp only [List.length_map, List.length_append, List.length_take, List.length_drop] at hl
    rw [hnum, hl, hn]
    omega

theorem rowInsertChar_step (E : editorConfig) (k : Nat) (at_ c : Int) :
    (editorRowInsertChar E k at_ c = E ∨
      (editorRowInsertChar E k at_ c).dirty = wrapInt (E.dirty + 1)) ∧
    (editorRowInsertChar E k at_ c).numrows = E.numrows ∧
    (editorRowInsertChar E k at_ c).row.length = E.row.length ∧
    (editorRowInsertChar E k at_ c).cx = E.cx ∧ (editorRowInsertChar E k at_ c).cy = E.cy := by
  unfold editorRowInsertChar
  cases E.row[k]? with
  | none => exact ⟨Or.inl rfl, rfl, rfl, rfl, rfl⟩
  | some row =>
    dsimp only
    refine ⟨Or.inr ?_, ?_, ?_, ?_, ?_⟩ <;>
      simp only [updateRow_dirty, updateRow_numrows, updateRow_length, updateRow_cx,
        updateRow_cy, List.length_set]

theorem rowDelChar_step (E : editorConfig) (k : Nat) (at_ : Int) :
    (editorRowDelChar E k at_ = E ∨
      (editorRowDelChar E k at_).dirty = wrapInt (E.dirty + 1)) ∧
    (editorRowDelChar E k at_).numrows = E.numrows ∧
    (editorRowDelChar E k at_).row.length = E.row.length ∧
    (editorRowDelChar E k at_).cx = E.cx ∧ (editorRowDelChar E k at_).cy = E.cy := by
  unfold editorRowDelChar
  cases E.row[k]? with
  | none => exact ⟨Or.inl rfl, rfl, rfl, rfl, rfl⟩
  | some row =>
    dsimp only
    split_ifs
    · exact ⟨Or.inl rfl, rfl, rfl, rfl, rfl⟩
    · refine ⟨Or.inr ?_, ?_, ?_, ?_, ?_⟩ <;>
        simp only [updateRow_dirty, updateRow_numrows, updateRow_length, updateRow_cx,
          updateRow_cy, List.length_set]

theorem rowAppendString_step (E : editorConfig) (k : Nat) (s : List Nat) :
    (editorRowAppendString E k s = E ∨
      (editorRowAppendString E k s).dirty = wrapInt (E.dirty + 1)) ∧
    (editorRowAppendString E k s).numrows = E.numrows ∧
    (editorRowAppendString E k s).row.length = E.row.length ∧
    (editorRowAppendString E k s).cx = E.cx ∧ (editorRowAppendString E k s).cy = E.cy := by
  unfold editorRowAppendString
  cases E.row[k]? with
  | none => exact ⟨Or.inl rfl, rfl, rfl, rfl, rfl⟩
  | some row =>
    dsimp only
    refine ⟨Or.inr ?_, ?_, ?_, ?_, ?_⟩ <;>
      simp only [updateRow_dirty, updateRow_numrows, updateRow_length, updateRow_cx,
        updateRow_cy, List.length_set]

theorem insertChar_step (E : editorConfig) (c : Int) (hn : E.numrows = E.row.length)
    (h1 : INT_MIN ≤ E.dirty) (h2 : E.dirty + 2 ≤ INT_MAX) :
    (dirtyTracks E (editorInsertChar E c) ∧ (editorInsertChar E c).dirty ≤ E.dirty + 2) ∧
    (editorInsertChar E c).numrows = (editorInsertChar E c).row.length := by
  suffices key : ∀ E1 : editorConfig, dirtyTracks E E1 ∧ E1.dirty ≤ E.dirty + 1 →
      E1.numrows = E1.row.length →
      (dirtyTracks E { editorRowInsertChar E1 E1.cy.toNat E1.cx c with
          cx := (editorRowInsertChar E1 E1.cy.toNat E1.cx c).cx + 1 } ∧
        ({ editorRowInsertChar E1 E1.cy.toNat E1.cx c with
          cx := (editorRowInsertChar E1 E1.cy.toNat E1.cx c).cx + 1 } : editorConfig).dirty ≤
          E.dirty + 2) ∧
      ({ editorRowInsertChar E1 E1.cy.toNat E1.cx c with
          cx := (editorRowInsertChar E1 E1.cy.toNat E1.cx c).cx + 1 } : editorConfig).numrows =
        ({ editorRowInsertChar E1 E1.cy.toNat E1.cx c with
          cx := (editorRowInsertChar E1 E1.cy.toNat E1.cx c).cx + 1 } :
            editorConfig).row.length by
    by_cases hc : E.cy = E.numrows
    · obtain ⟨a, b, _, _⟩ := insertRow_step E E.numrows [] hn
      have := key (editorInsertRow E E.numrows []) (dirtyTracks_step _ _ a h1 (by omega)) b
      simpa only [editorInsertChar, if_pos hc] using this
    · have := key E ⟨(dirtyTracks_refl E E rfl rfl rfl).1, by omega⟩ hn
      simpa only [editorInsertChar, if_neg hc] using this
  intro E1 t1 n1
  obtain ⟨a, b, c1, _, _⟩ := rowInsertChar_step E1 E1.cy.toNat E1.cx c
  have hle := t1.1.1
  constructor
  · exact dirtyTracks_trans E E1 _ 1 (1 + 0) t1
      (dirtyTracks_trans E1 _ _ 1 0 (dirtyTracks_step _ _ a (by omega) (by omega))
        (dirtyTracks_refl _ _ rfl rfl rfl))
  · show (editorRowInsertChar E1 E1.cy.toNat E1.cx c).numrows =
      (editorRowInsertChar E1 E1.cy.toNat E1.cx c).row.length
    rw [b, c1, n1]

theorem insertNewline_step (E : editorConfig) (hn : E.numrows = E.row.length)
    (hcy : 0 ≤ E.cy) (h1 : INT_MIN ≤ E.dirty) (h2 : E.dirty + 1 ≤ INT_MAX) :
    (dirtyTracks E (editorInsertNewline E) ∧ (editorInsertNewline E).dirty ≤ E.dirty + 1) ∧
    (editorInsertNewline E).numrows = (editorInsertNewline E).row.length := by
  by_cases hx : E.cx = 0
  · obtain ⟨a, b, _, _⟩ := insertRow_step E E.cy [] hn
    have hE : editorInsertNewline E =
        { editorInsertRow E E.cy [] with cy := (editorInsertRow E E.cy []).cy + 1, cx := 0 } := by
      simp only [editorInsertNewline, if_pos hx]
    rw [hE]
    exact ⟨dirtyTracks_trans E _ _ 1 0 (dirtyTracks_step _ _ a h1 (by omega))
      (dirtyTracks_refl _ _ rfl rfl rfl), b⟩
  · by_cases hr : E.cy + 1 ≤ E.numrows
    · obtain ⟨hd, _, _, _⟩ := insertRow_fields E (E.cy + 1)
        ((rowAt E E.cy).chars.drop E.cx.toNat) (by omega) hr
      obtain ⟨_, hnum, hlen⟩ := insertRow_chars E (E.cy + 1)
        ((rowAt E E.cy).chars.drop E.cx.toNat) (by omega) hr
      rw [wrapInt_succ _ h1 (by omega)] at hd
      simp only [editorInsertNewline, if_neg hx]
      have hdirty : (editorUpdateRow
          { editorInsertRow E (E.cy + 1) ((rowAt E E.cy).chars.drop E.cx.toNat) with
            row := (editorInsertRow E (E.cy + 1)
              ((rowAt E E.cy).chars.drop E.cx.toNat)).row.set
                (editorInsertRow E (E.cy + 1) ((rowAt E E.cy).chars.drop E.cx.toNat)).cy.toNat
                { rowAt (editorInsertRow E (E.cy + 1) ((rowAt E E.cy).chars.drop E.cx.toNat))
                    (editorInsertRow E (E.cy + 1)
                      ((rowAt E E.cy).chars.drop E.cx.toNat)).cy with
                  chars := (rowAt (editorInsertRow E (E.cy + 1)
                      ((rowAt E E.cy).chars.drop E.cx.toNat))
                    (editorInsertRow E (E.cy + 1)
                      ((rowAt E E.cy).chars.drop E.cx.toNat)).cy).chars.take
                    (editorInsertRow E (E.cy + 1)
                      ((rowAt E E.cy).chars.drop E.cx.toNat)).cx.toNat } }
          (editorInsertRow E (E.cy + 1) ((rowAt E E.cy).chars.drop E.cx.toNat)).cy.toNat).dirty =
          E.dirty + 1 := by
        rw [updateRow_dirty]
        exact hd
      refine ⟨⟨⟨?_, fun _ => ?_⟩, ?_⟩, ?_⟩
      · show E.dirty ≤ (editorUpdateRow _ _).dirty
        rw [hdirty]
        omega
      · show E.dirty < (editorUpdateRow _ _).dirty
        rw [hdirty]
        omega
      · show (editorUpdateRow _ _).dirty ≤ E.dirty + 1
        rw [hdirty]
      · show (editorUpdateRow _ _).numrows = (editorUpdateRow _ _).row.length
        rw [updateRow_numrows, updateRow_length]
        show (editorInsertRow E (E.cy + 1) _).numrows = (List.set _ _ _).length
        rw [List.length_set, hnum, hlen, hn]
        push_cast
        rfl
    · have hout : editorInsertRow E (E.cy + 1) ((rowAt E E.cy).chars.drop E.cx.toNat) = E :=
        insertRow_out_of_range E _ _ (Or.inr (by omega))
      have hlen : E.row.length ≤ E.cy.toNat := by omega
      have hE : editorInsertNewline E = { E with cy := E.cy + 1, cx := 0 } := by
        simp only [editorInsertNewline, if_neg hx, hout]
        rw [List.set_eq_of_length_le hlen]
        have hnone : E.row[E.cy.toNat]? = none := List.getElem?_eq_none hlen
        simp only [editorUpdateRow, hnone]
      rw [hE]
      exact ⟨⟨(dirtyTracks_refl _ _ rfl rfl rfl).1, by show E.dirty ≤ E.dirty + 1; omega⟩, hn⟩

theorem delChar_step (E : editorConfig) (hn : E.numrows = E.row.length)
    (h1 : INT_MIN ≤ E.dirty) (h2 : E.dirty + 2 ≤ INT_MAX) :
    (dirtyTracks E (editorDelChar E) ∧ (editorDelChar E).dirty ≤ E.dirty + 2) ∧
    (editorDelChar E).numrows = (editorDelChar E).row.length := by
  have hsame : (dirtyTracks E E ∧ E.dirty ≤ E.dirty + 2) ∧ E.numrows = E.row.length :=
    ⟨⟨(dirtyTracks_refl E E rfl rfl rfl).1, by omega⟩, hn⟩
  unfold editorDelChar
  split_ifs with h3 h4 h5
  · exact hsame
  · exact hsame
  · obtain ⟨a, b, c1, _, _⟩ := rowDelChar_step E E.cy.toNat (E.cx - 1)
    dsimp only
    constructor
    · have := dirtyTracks_trans E _
        { editorRowDelChar E E.cy.toNat (E.cx - 1) with
          cx := (editorRowDelChar E E.cy.toNat (E.cx - 1)).cx - 1 } 1 0
        (dirtyTracks_step _ _ a h1 (by omega)) (dirtyTracks_refl _ _ rfl rfl rfl)
      exact ⟨this.1, le_trans this.2 (by omega)⟩
    · show (editorRowDelChar E E.cy.toNat (E.cx - 1)).numrows =
        (editorRowDelChar E E.cy.toNat (E.cx - 1)).row.length
      rw [b, c1, hn]
  · dsimp only
    suffices key : ∀ E1 E2 : editorConfig, dirtyTracks E E1 ∧ E1.dirty ≤ E.dirty + 0 →
        E1.numrows = E1.row.length →
        E2 = editorRowAppendString E1 (E1.cy - 1).toNat (rowAt E E.cy).chars →
        (dirtyTracks E { editorDelRow E2 E2.cy with cy := (editorDelRow E2 E2.cy).cy - 1 } ∧
          ({ editorDelRow E2 E2.cy with cy := (editorDelRow E2 E2.cy).cy - 1 } :
            editorConfig).dirty ≤ E.dirty + 2) ∧
        ({ editorDelRow E2 E2.cy with cy := (editorDelRow E2 E2.cy).cy - 1 } :
            editorConfig).numrows =
          ({ editorDelRow E2 E2.cy with cy := (editorDelRow E2 E2.cy).cy - 1 } :
            editorConfig).row.length by
      exact key { E with cx := (rowAt E (E.cy - 1)).size } _ (dirtyTracks_refl _ _ rfl rfl rfl)
        hn rfl
    intro E1 E2 t1 n1 hE2
    obtain ⟨a, b, c1, _, _⟩ := rowAppendString_step E1 (E1.cy - 1).toNat (rowAt E E.cy).chars
    rw [← hE2] at a b c1
    obtain ⟨a', b', _, _⟩ := delRow_step E2 E2.cy (by rw [b, c1, n1])
    have hle := t1.1.1
    have s1 := dirtyTracks_step E1 E2 a (by omega) (by omega)
    have hle2 := s1.1.1
    have s2 := dirtyTracks_step E2 _ a' (by omega) (by omega)
    have := dirtyTracks_trans E E1 _ 0 (1 + (1 + 0)) t1
      (dirtyTracks_trans E1 E2 _ 1 (1 + 0) s1
        (dirtyTracks_trans E2 _
          { editorDelRow E2 E2.cy with cy := (editorDelRow E2 E2.cy).cy - 1 } 1 0 s2
          (dirtyTracks_refl _ _ rfl rfl rfl)))
    exact ⟨⟨this.1, le_trans this.2 (by omega)⟩, b'⟩

theorem applyOp_step (E : editorConfig) (op : editOp) (hn : E.numrows = E.row.length)
    (hdef : opDefined E op) (h1 : INT_MIN ≤ E.dirty)
    (h2 : E.dirty + dirtyIncrements op ≤ INT_MAX) :
    (dirtyTracks E (applyOp E op) ∧ (applyOp E op).dirty ≤ E.dirty + dirtyIncrements op) ∧
    (applyOp E op).numrows = (applyOp E op).row.length := by
  cases op with
  | insertRow at_ s =>
    have h2' : E.dirty + 1 ≤ INT_MAX := h2
    obtain ⟨a, b, _, _⟩ := insertRow_step E at_ s hn
    exact ⟨dirtyTracks_step _ _ a h1 (by omega), b⟩
  | delRow at_ =>
    have h2' : E.dirty + 1 ≤ INT_MAX := h2
    obtain ⟨a, b, _, _⟩ := delRow_step E at_ hn
    exact ⟨dirtyTracks_step _ _ a h1 (by omega), b⟩
  | rowInsertChar k at_ c =>
    have h2' : E.dirty + 1 ≤ INT_MAX := h2
    obtain ⟨a, b, c1, _, _⟩ := rowInsertChar_step E k at_ c
    exact ⟨dirtyTracks_step _ _ a h1 (by omega),
      by show (editorRowInsertChar E k at_ c).numrows = _; rw [b, hn]; exact congrArg _ c1.symm⟩
  | rowDelChar k at_ =>
    have h2' : E.dirty + 1 ≤ INT_MAX := h2
    obtain ⟨a, b, c1, _, _⟩ := rowDelChar_step E k at_
    exact ⟨dirtyTracks_step _ _ a h1 (by omega),
      by show (editorRowDelChar E k at_).numrows = _; rw [b, hn]; exact congrArg _ c1.symm⟩
  | rowAppendString k s =>
    have h2' : E.dirty + 1 ≤ INT_MAX := h2
    obtain ⟨a, b, c1, _, _⟩ := rowAppendString_step E k s
    exact ⟨dirtyTracks_step _ _ a h1 (by omega),
      by show (editorRowAppendString E k s).numrows = _; rw [b, hn]; exact congrArg _ c1.symm⟩
  | insertChar c => exact insertChar_step E c hn h1 h2
  | insertNewline =>
    have hcur : cursorValid E := hdef
    exact insertNewline_step E hn hcur.1 h1 h2
  | delChar => exact delChar_step E hn h1 h2

theorem applyOps_step : ∀ (ops : List editOp) (E : editorConfig),
    E.numrows = E.row.length → opsDefined E ops → INT_MIN ≤ E.dirty →
    E.dirty + (ops.map dirtyIncrements).sum ≤ INT_MAX →
    (dirtyTracks E (ops.foldl applyOp E) ∧
      (ops.foldl applyOp E).dirty ≤ E.dirty + (ops.map dirtyIncrements).sum) ∧
    (ops.foldl applyOp E).numrows = (ops.foldl applyOp E).row.length := by
  intro ops
  induction ops with
  | nil =>
    intro E hn _ _ _
    exact ⟨by simpa using dirtyTracks_refl E E rfl rfl rfl, hn⟩
  | cons op rest ih =>
    intro E hn hdef h1 h2
    simp only [List.map_cons, List.sum_cons] at h2 ⊢
    have hpos : ∀ l : List editOp, 0 ≤ (l.map dirtyIncrements).sum := by
      intro l
      induction l with
      | nil => simp
      | cons o r ihl =>
        simp only [List.map_cons, List.sum_cons]
        have : 0 ≤ dirtyIncrements o := by cases o <;> simp [dirtyIncrements]
        omega
    have hr := hpos rest
    obtain ⟨a, b⟩ := applyOp_step E op hn hdef.1 h1 (by omega)
    have hle := a.1.1
    obtain ⟨c, d⟩ := ih (applyOp E op) b hdef.2 (by omega) (by have := a.2; omega)
    exact ⟨dirtyTracks_trans _ _ _ _ _ a c, d⟩

/-- C21: in a state in which `numrows` counts the rows and the dirty counter
is an `int`, for each of the calls `editorInsertRow`, `editorDelRow`,
`editorRowInsertChar`, `editorRowDelChar`, `editorRowAppendString`,
`editorInsertChar`, `editorInsertNewline` and `editorDelChar` that the program
is defined on (a row pointer points to a row, the cursor of an editing
operation is valid) and whose increments do not take the counter past
`INT_MAX`: the dirty counter after the call is not smaller than before, and it
is strictly greater when the row count or the characters of some row changed.
After any sequence of such calls whose increments stay within `INT_MAX`, a
dirty counter equal to the one at the start (zero after a load or a save)
means that the row count and the characters of all rows are those of the
start. -/
theorem C21_dirty_counts_changes (E : editorConfig) (hn : E.numrows = E.row.length)
    (hd : INT_MIN ≤ E.dirty) :
    (∀ op : editOp, opDefined E op → E.dirty + dirtyIncrements op ≤ INT_MAX →
      E.dirty ≤ (applyOp E op).dirty ∧
      ((applyOp E op).numrows ≠ E.numrows ∨ rowTexts (applyOp E op) ≠ rowTexts E →
        E.dirty < (applyOp E op).dirty)) ∧
    (∀ ops : List editOp, opsDefined E ops →
      E.dirty + (ops.map dirtyIncrements).sum ≤ INT_MAX →
      (ops.foldl applyOp E).dirty = E.dirty →
      (ops.foldl applyOp E).numrows = E.numrows ∧ rowTexts (ops.foldl applyOp E) = rowTexts E) := by
  constructor
  · intro op hdef hb
    exact (applyOp_step E op hn hdef hd hb).1.1
  · intro ops hdef hb heq
    have ht := (applyOps_step ops E hn hdef hd hb).1.1.2
    by_contra hne
    have : E.dirty < (ops.foldl applyOp E).dirty := ht (by
      by_cases h1 : (ops.foldl applyOp E).numrows = E.numrows
      · right
        intro h2
        exact hne ⟨h1, h2⟩
      · left
        exact h1)
    omega

/-- C21, at the buffer `twoRowBuffer`, whose dirty counter is zero after the
load: deleting row 1 raises the counter to 1, and the sequence that inserts
`x` at the cursor and deletes it again restores the rows but leaves the
counter at 2. -/
theorem C21_dirty_counts_changes_witness :
    twoRowBuffer.dirty = 0 ∧
    (twoRowBuffer.dirty ≤ (applyOp twoRowBuffer (editOp.delRow 1)).dirty ∧
      ((applyOp twoRowBuffer (editOp.delRow 1)).numrows ≠ twoRowBuffer.numrows ∨
          rowTexts (applyOp twoRowBuffer (editOp.delRow 1)) ≠ rowTexts twoRowBuffer →
        twoRowBuffer.dirty < (applyOp twoRowBuffer (editOp.delRow 1)).dirty)) ∧
    (applyOp twoRowBuffer (editOp.delRow 1)).dirty = 1 ∧
    opsDefined twoRowBuffer [editOp.insertChar 120, editOp.delChar] ∧
    rowTexts ([editOp.insertChar 120, editOp.delChar].foldl applyOp twoRowBuffer) =
      rowTexts twoRowBuffer ∧
    ([editOp.insertChar 120, editOp.delChar].foldl applyOp twoRowBuffer).dirty = 2 :=
  ⟨by decide,
    (C21_dirty_counts_changes twoRowBuffer (by decide) (by decide)).1 (editOp.delRow 1)
      trivial (by decide),
    by decide, ⟨by decide, by decide, trivial⟩, by decide, by decide⟩

/-! ## The end-of-line key -/

theorem endKey_eq (find cmd : editorConfig → editorConfig) (E : editorConfig) (c : Int)
    (hc : c = 36 ∨ c = END_KEY) :
    editorProcessNormalKeypress find cmd E c =
      (if E.cy < E.numrows then { E with cx := (rowAt E E.cy).size } else E) := by
  have h1 : CTRL_KEY 104 = 8 := by decide
  have h2 : CTRL_KEY 108 = 12 := by decide
  rcases hc with rfl | rfl <;>
    simp [editorProcessNormalKeypress, GG_SEQ, HOME_KEY, END_KEY, BACKSPACE, h1, h2, DEL_KEY,
      PAGE_UP, PAGE_DOWN, ARROW_LEFT, ARROW_RIGHT, ARROW_UP, ARROW_DOWN]

/-- C22: in a state with `0 ≤ cy < numrows`, the key `$` or End sets `cx` to
the size of row `cy` and changes no other field of the state, and the same key
pressed again leaves the whole state as it is. -/
theorem C22_end_of_line_key (find cmd : editorConfig → editorConfig) (E : editorConfig)
    (c : Int) (hc : c = 36 ∨ c = END_KEY) (h0 : 0 ≤ E.cy) (h1 : E.cy < E.numrows) :
    editorProcessNormalKeypress find cmd E c = { E with cx := (rowAt E E.cy).size } ∧
    editorProcessNormalKeypress find cmd (editorProcessNormalKeypress find cmd E c) c =
      editorProcessNormalKeypress find cmd E c := by
  have e1 : editorProcessNormalKeypress find cmd E c = { E with cx := (rowAt E E.cy).size } := by
    rw [endKey_eq find cmd E c hc, if_pos h1]
  refine ⟨e1, ?_⟩
  rw [e1, endKey_eq find cmd _ c hc]
  have h2 : ({ E with cx := (rowAt E E.cy).size } : editorConfig).cy <
      ({ E with cx := (rowAt E E.cy).size } : editorConfig).numrows := h1
  rw [if_pos h2]
  rfl

/-- C22, at the buffer `fiveCharBuffer` with the cursor at `(cx = 3, cy = 0)`:
the key `$` gives `cx = 5`, and pressed again it changes nothing. -/
theorem C22_end_of_line_key_witness :
    (rowAt { fiveCharBuffer with cx := 3 } 0).size = 5 ∧
    (editorProcessNormalKeypress id id { fiveCharBuffer with cx := 3 } 36).cx = 5 ∧
    (editorProcessNormalKeypress id id { fiveCharBuffer with cx := 3 } 36 =
        { ({ fiveCharBuffer with cx := 3 } : editorConfig) with
          cx := (rowAt { fiveCharBuffer with cx := 3 }
            ({ fiveCharBuffer with cx := 3 } : editorConfig).cy).size } ∧
      editorProcessNormalKeypress id id
          (editorProcessNormalKeypress id id { fiveCharBuffer with cx := 3 } 36) 36 =
        editorProcessNormalKeypress id id { fiveCharBuffer with cx := 3 } 36) :=
  ⟨by decide, by decide,
    C22_end_of_line_key id id { fiveCharBuffer with cx := 3 } 36 (Or.inl rfl) (by decide)
      (by decide)⟩

/-! ## The keyword step takes the longest keyword -/

theorem strncmpEq_take_iff : ∀ (n : Nat) (a b : List Nat), (∀ t, t < n → b.getD t 0 ≠ 0) →
    n ≤ b.length → (strncmpEq a b n = true ↔ a.take n = b.take n) := by
  intro n
  induction n with
  | zero => intro a b _ _; simp [strncmpEq]
  | succ n ih =>
    intro a b hb hlen
    cases b with
    | nil => simp at hlen
    | cons y b' =>
      have hy : y ≠ 0 := by simpa using hb 0 (by omega)
      have hb' : ∀ t, t < n → b'.getD t 0 ≠ 0 := fun t ht => by
        simpa using hb (t + 1) (by omega)
      have hlen' : n ≤ b'.length := by simpa using hlen
      cases a with
      | nil => simp [strncmpEq, Ne.symm hy]
      | cons x a' =>
        simp only [strncmpEq, List.headD_cons, List.tail_cons, List.take_succ_cons,
          List.cons.injEq]
        by_cases hxy : x = y
        · subst hxy
          simp only [ne_eq, not_true_eq_false, if_false, hy, true_and]
          exact ih a' b' hb' hlen'
        · simp [hxy]

theorem keyword_cond_iff (render : List Nat) (i : Nat) (kw : List Nat) (hk : keywordEntryOk kw) :
    (strncmpEq (render.drop i) kw (keywordText kw).length = true ∧
      is_separator (render.getD (i + (keywordText kw).length) 0) = true) ↔
    keywordAccepted render i kw := by
  obtain ⟨h1, h2, h3, h4, _, _⟩ := hk
  have hle : (keywordText kw).length ≤ strlen kw := by rw [← h3]; exact h1
  rw [strncmpEq_take_iff _ _ _ (fun t ht => strlen_getD_ne kw t (by omega)) (by omega), h4]
  unfold keywordAccepted
  constructor
  · rintro ⟨a, b⟩
    exact ⟨a, Or.inr b⟩
  · rintro ⟨a, b | b⟩
    · refine ⟨a, ?_⟩
      rw [b, List.getD_eq_getElem?_getD, List.getElem?_eq_none (le_refl _)]
      decide
    · exact ⟨a, b⟩

theorem keywordLoop_find (render : List Nat) (i : Nat) :
    ∀ (kws : List (List Nat)), (∀ kw ∈ kws, keywordEntryOk kw) →
      keywordLoop render i kws =
        (kws.find? (fun kw => decide (keywordAccepted render i kw))).map
          (fun kw => (keywordSecondary kw, (keywordText kw).length)) := by
  intro kws
  induction kws with
  | nil => intro _; rfl
  | cons kw rest ih =>
    intro hall
    have hk := hall kw (by simp)
    have hrest := ih (fun k hk' => hall k (by simp [hk']))
    have hcond := keyword_cond_iff render i kw hk
    obtain ⟨_, _, h3, _, h5, _⟩ := hk
    simp only [keywordLoop, List.find?_cons]
    rw [h5]
    have h3' : (if keywordSecondary kw = true then strlen kw - 1 else strlen kw) =
        (keywordText kw).length := by
      rw [← h5, ← h3]
      simp
    rw [h3']
    by_cases hacc : keywordAccepted render i kw
    · rw [if_pos (hcond.2 hacc)]
      simp [hacc]
    · rw [if_neg (fun h => hacc (hcond.1 h))]
      simp [hacc, hrest]

theorem accepted_le (render : List Nat) (i : Nat) (kw : List Nat) (hi : i ≤ render.length)
    (h : keywordAccepted render i kw) : i + (keywordText kw).length ≤ render.length := by
  have := congrArg List.length h.1
  simp only [List.length_take, List.length_drop] at this
  omega

theorem accepted_same_text (render : List Nat) (i : Nat) (k1 k2 : List Nat)
    (hi : i ≤ render.length) (h1 : keywordEntryOk k1) (h2 : keywordEntryOk k2)
    (a1 : keywordAccepted render i k1) (a2 : keywordAccepted render i k2) :
    keywordText k1 = keywordText k2 := by
  have key : ∀ (p q : List Nat), keywordEntryOk q → keywordAccepted render i p →
      keywordAccepted render i q → ¬ (keywordText p).length < (keywordText q).length := by
    intro p q hq ap aq hlt
    have hql := accepted_le render i q hi aq
    have hc : render.getD (i + (keywordText p).length) 0 =
        (keywordText q).getD (keywordText p).length 0 := by
      have := congrArg (fun l => l.getD (keywordText p).length 0) aq.1
      simp only [List.getD_eq_getElem?_getD, List.getElem?_take, List.getElem?_drop, hlt,
        if_true] at this
      rw [List.getD_eq_getElem?_getD, List.getD_eq_getElem?_getD]
      exact this
    have hmem : (keywordText q).getD (keywordText p).length 0 ∈ keywordText q := by
      rw [List.getD_eq_getElem?_getD, List.getElem?_eq_getElem hlt]
      exact List.getElem_mem _
    have hns := hq.2.2.2.2.2 _ hmem
    rcases ap.2 with e | e
    · omega
    · rw [hc, hns] at e
      exact absurd e (by decide)
  have e : (keywordText k1).length = (keywordText k2).length :=
    le_antisymm (Nat.le_of_not_lt (key k2 k1 h1 a2 a1)) (Nat.le_of_not_lt (key k1 k2 h2 a1 a2))
  rw [← a1.1, ← a2.1, e]

theorem C_HL_keywords_ok : ∀ kw ∈ C_HL_keywords, keywordEntryOk kw := by
  decide

theorem C_HL_keywords_texts : (C_HL_keywords.map keywordText).Nodup := by
  decide

theorem keywordStep_found (render : List Nat) (st : HlState) (hp : st.prev_sep = true)
    (kw : List Nat)
    (hf : C_HL_keywords.find? (fun kw => decide (keywordAccepted render st.i kw)) = some kw) :
    (hlKeywordStep HLDB_c render st).2.hl =
        memset st.hl st.i (if keywordSecondary kw then HL_KEYWORD2 else HL_KEYWORD1)
          (keywordText kw).length ∧
    (hlKeywordStep HLDB_c render st).2.i = st.i + (keywordText kw).length := by
  have hk : HLDB_c.keywords = C_HL_keywords := rfl
  unfold hlKeywordStep
  simp only [hp, if_true, hk, keywordLoop_find render st.i C_HL_keywords C_HL_keywords_ok, hf,
    Option.map_some', and_self]

theorem keywordStep_none (render : List Nat) (st : HlState) (hp : st.prev_sep = true)
    (hf : C_HL_keywords.find? (fun kw => decide (keywordAccepted render st.i kw)) = none) :
    (hlKeywordStep HLDB_c render st).2.hl = st.hl ∧
    (hlKeywordStep HLDB_c render st).2.i = st.i + 1 := by
  have hk : HLDB_c.keywords = C_HL_keywords := rfl
  unfold hlKeywordStep
  simp only [hp, if_true, hk, keywordLoop_find render st.i C_HL_keywords C_HL_keywords_ok, hf,
    Option.map_none', and_self]

/-- C23: with the C ruleset, in a loop state with `i < rsize` and `prev_sep`
set, the keyword step classifies the longest accepted keyword of the list: for
the keyword `kw` that is a longest one accepted at `i`, the cells
`hl[i .. i + len)` become keyword-secondary when `kw` carries the `|` marker
and keyword-primary otherwise, all other cells keep their class, and the scan
resumes at `i + len`; such a keyword exists as soon as any keyword is accepted
and it is the only accepted one; when no keyword is accepted `hl` is unchanged
and the scan resumes at `i + 1`. -/
theorem C23_keyword_step_takes_longest (render : List Nat) (st : HlState)
    (hi : st.i < render.length) (hp : st.prev_sep = true) :
    (∀ kw, longestKeywordAt render st.i C_HL_keywords kw →
      (hlKeywordStep HLDB_c render st).2.hl =
        memset st.hl st.i (if keywordSecondary kw then HL_KEYWORD2 else HL_KEYWORD1)
          (keywordText kw).length ∧
      (hlKeywordStep HLDB_c render st).2.i = st.i + (keywordText kw).length) ∧
    ((∃ kw ∈ C_HL_keywords, keywordAccepted render st.i kw) →
      ∃ kw, longestKeywordAt render st.i C_HL_keywords kw ∧
        ∀ k ∈ C_HL_keywords, keywordAccepted render st.i k → k = kw) ∧
    ((∀ kw ∈ C_HL_keywords, ¬ keywordAccepted render st.i kw) →
      (hlKeywordStep HLDB_c render st).2.hl = st.hl ∧
      (hlKeywordStep HLDB_c render st).2.i = st.i + 1) := by
  have huniq : ∀ k1 ∈ C_HL_keywords, ∀ k2 ∈ C_HL_keywords, keywordAccepted render st.i k1 →
      keywordAccepted render st.i k2 → k1 = k2 := by
    intro k1 m1 k2 m2 a1 a2
    exact List.inj_on_of_nodup_map C_HL_keywords_texts m1 m2
      (accepted_same_text render st.i k1 k2 (by omega) (C_HL_keywords_ok k1 m1)
        (C_HL_keywords_ok k2 m2) a1 a2)
  refine ⟨?_, ?_, ?_⟩
  · rintro kw ⟨hm, ha, _⟩
    cases hf : C_HL_keywords.find? (fun kw => decide (keywordAccepted render st.i kw)) with
    | none =>
      have := List.find?_eq_none.1 hf kw hm
      simp only [decide_eq_true_eq] at this
      exact absurd ha this
    | some k =>
      have hk := List.find?_some hf
      simp only [decide_eq_true_eq] at hk
      have e := huniq k (List.mem_of_find?_eq_some hf) kw hm hk ha
      subst e
      exact keywordStep_found render st hp k hf
  · rintro ⟨kw, hm, ha⟩
    refine ⟨kw, ⟨hm, ha, ?_⟩, fun k m a => huniq k m kw hm a ha⟩
    intro k m a
    rw [huniq k m kw hm a ha]
  · intro hnone
    have hf : C_HL_keywords.find? (fun kw => decide (keywordAccepted render st.i kw)) = none := by
      rw [List.find?_eq_none]
      intro kw hm
      simpa using hnone kw hm
    exact keywordStep_none render st hp hf

/-- C23, at the start of the row `int x`: the keyword `int|` is the longest
accepted one, the first three cells become keyword-secondary and the scan
resumes at 3. -/
theorem C23_keyword_step_takes_longest_witness :
    longestKeywordAt (bytes "int x") 0 C_HL_keywords (bytes "int|") ∧
    (hlKeywordStep HLDB_c (bytes "int x")
        { i := 0, hl := [0, 0, 0, 0, 0], prev_sep := true, in_string := 0,
          in_comment := false }).2.hl = [4, 4, 4, 0, 0] ∧
    (hlKeywordStep HLDB_c (bytes "int x")
        { i := 0, hl := [0, 0, 0, 0, 0], prev_sep := true, in_string := 0,
          in_comment := false }).2.i = 3 :=
  ⟨by decide,
    (C23_keyword_step_takes_longest (bytes "int x")
      { i := 0, hl := [0, 0, 0, 0, 0], prev_sep := true, in_string := 0, in_comment := false }
      (by decide) rfl).1 (bytes "int|") (by decide)⟩

/-! ## Inserting and deleting rows under a ruleset -/

/-- C24: `editorDelRow` and `editorInsertRow` can leave a carry-consistent
buffer inconsistent.  In the buffer with the rows `/*` and `x` under the C
ruleset, deleting row 0 leaves the row `x` classified as block comment with
its carry flag set, although it is row 0 now; inserting `*/` at index 1 leaves
the row `x` below it classified as block comment; and in the buffer with the
rows `a` and `b`, inserting `/*` at index 1 leaves the row `b` below it
classified as normal text. -/
theorem C24_row_store_breaks_carry :
    (openCommentBuffer.syn = some HLDB_c ∧ rowsIndexed openCommentBuffer ∧
      carryConsistent openCommentBuffer) ∧
    (rowTexts (editorDelRow openCommentBuffer 0) = [bytes "x"] ∧
      (editorDelRow openCommentBuffer 0).row.map (fun r => (r.hl, r.hl_open_comment)) =
        [([HL_MLCOMMENT], true)] ∧
      ¬ carryConsistent (editorDelRow openCommentBuffer 0)) ∧
    (rowTexts (editorInsertRow openCommentBuffer 1 (bytes "*/")) =
        [bytes "/*", bytes "*/", bytes "x"] ∧
      (editorInsertRow openCommentBuffer 1 (bytes "*/")).row.map
          (fun r => (r.hl, r.hl_open_comment)) =
        [([HL_MLCOMMENT, HL_MLCOMMENT], true), ([HL_MLCOMMENT, HL_MLCOMMENT], false),
          ([HL_MLCOMMENT], true)] ∧
      ¬ carryConsistent (editorInsertRow openCommentBuffer 1 (bytes "*/"))) ∧
    (plainCodeBuffer.syn = some HLDB_c ∧ rowsIndexed plainCodeBuffer ∧
      carryConsistent plainCodeBuffer ∧
      rowTexts (editorInsertRow plainCodeBuffer 1 (bytes "/*")) =
        [bytes "a", bytes "/*", bytes "b"] ∧
      (editorInsertRow plainCodeBuffer 1 (bytes "/*")).row.map
          (fun r => (r.hl, r.hl_open_comment)) =
        [([HL_NORMAL], false), ([HL_MLCOMMENT, HL_MLCOMMENT], true), ([HL_NORMAL], false)] ∧
      ¬ carryConsistent (editorInsertRow plainCodeBuffer 1 (bytes "/*"))) := by
  decide

/-! ## The highlight pass and its cascade end -/

theorem hlLoopTrace_spec (render : List Nat) :
    ∀ (n : Nat) (st : HlState), render.length - st.i ≤ n →
      ∃ tr, hlLoopTrace HLDB_c render n st = some (hlLoop HLDB_c render n st, tr) ∧
        tr.length ≤ render.length - st.i ∧ (∀ p ∈ tr, st.i ≤ p ∧ p < render.length) ∧
        tr.Pairwise (· < ·) := by
  intro n
  induction n with
  | zero =>
    intro st h
    have hge : ¬ st.i < render.length := by omega
    exact ⟨[], by simp [hlLoopTrace, hlLoop, hge], by simp, by simp, List.Pairwise.nil⟩
  | succ n ih =>
    intro st h
    by_cases hlt : st.i < render.length
    · by_cases hb : (hlStep HLDB_c render st).1 = true
      · refine ⟨[st.i], by simp [hlLoopTrace, hlLoop, hlt, hb], by simp; omega, by simp [hlt],
          List.pairwise_singleton _ _⟩
      · have hp := hlStep_progress render st (by simpa using hb)
        obtain ⟨tr, h1, h2, h3, h4⟩ := ih (hlStep HLDB_c render st).2 (by omega)
        refine ⟨st.i :: tr, by simp [hlLoopTrace, hlLoop, hlt, hb, h1], by simp; omega, ?_, ?_⟩
        · intro p hpm
          rcases List.mem_cons.1 hpm with rfl | hpm
          · exact ⟨le_refl _, hlt⟩
          · exact ⟨by have := (h3 p hpm).1; omega, (h3 p hpm).2⟩
        · exact List.Pairwise.cons (fun p hpm => by have := (h3 p hpm).1; omega) h4
    · exact ⟨[], by simp [hlLoopTrace, hlLoop, hlt], by simp, by simp, List.Pairwise.nil⟩

theorem carryFlag_set_ne (E : editorConfig) (k j : Nat) (r : erow) (h : k ≠ j) :
    carryFlag { E with row := E.row.set k r } j = carryFlag E j := by
  simp [carryFlag, List.getD_eq_getElem?_getD, List.getElem?_set_ne h]

theorem carryFlag_congr (E E' : editorConfig) (j : Nat) (h : E'.row[j]? = E.row[j]?) :
    carryFlag E' j = carryFlag E j := by
  simp [carryFlag, List.getD_eq_getElem?_getD, h]

theorem updateSyntaxTrace_spec :
    ∀ (fuel : Nat) (E : editorConfig) (k : Nat),
      (∀ (j : Nat) (row : erow), E.row[j]? = some row → row.idx = (j : Int)) →
      E.numrows = E.row.length → k < E.row.length → E.row.length - k ≤ fuel →
      ∃ m, updateSyntaxTrace fuel E k =
          some (editorUpdateSyntaxFuel fuel E k, List.range' k m) ∧
        1 ≤ m ∧ k + m ≤ E.row.length ∧
        (∀ j, k ≤ j → j + 1 < k + m →
          carryFlag (editorUpdateSyntaxFuel fuel E k) j ≠ carryFlag E j) ∧
        (k + m = E.row.length ∨
          carryFlag (editorUpdateSyntaxFuel fuel E k) (k + m - 1) = carryFlag E (k + m - 1)) := by
  intro fuel
  induction fuel with
  | zero => intro E k _ _ hk hf; omega
  | succ f ih =>
    intro E k hidx hn hk hf
    have hrow : E.row[k]? = some E.row[k] := List.getElem?_eq_getElem hk
    have hrowidx := hidx k _ hrow
    simp only [updateSyntaxTrace, editorUpdateSyntaxFuel, hrow]
    cases hs : E.syn with
    | none =>
      refine ⟨1, by simp, le_refl _, by omega, fun j h1 h2 => by omega, Or.inr ?_⟩
      simp [carryFlag, List.getD_eq_getElem?_getD, List.getElem?_set_self hk, hrow]
    | some s =>
      dsimp only
      by_cases hcas : (decide (E.row[k].hl_open_comment ≠
          (updateSyntaxRow E s E.row[k]).hl_open_comment) = true) ∧ E.row[k].idx + 1 < E.numrows
      · rw [if_pos hcas, if_pos hcas]
        have hk1 : k + 1 < E.row.length := by
          have := hcas.2
          rw [hrowidx, hn] at this
          omega
        have hto : (E.row[k].idx + 1).toNat = k + 1 := by omega
        rw [hto]
        have hidx1 : ∀ (j : Nat) (r : erow),
            ({ E with row := E.row.set k (updateSyntaxRow E s E.row[k]),
                      syn := some s } : editorConfig).row[j]? = some r → r.idx = (j : Int) := by
          intro j r hr
          by_cases hkj : k = j
          · subst hkj
            simp only [List.getElem?_set_self hk, Option.some.injEq] at hr
            subst hr
            exact hrowidx
          · simp only [List.getElem?_set_ne hkj] at hr
            exact hidx j r hr
        obtain ⟨m, h1, h2, h3, h4, h5⟩ := ih
          { E with row := E.row.set k (updateSyntaxRow E s E.row[k]), syn := some s } (k + 1) hidx1
          (by simpa using hn) (by simpa using hk1) (by simp only [List.length_set]; omega)
        simp only [List.length_set] at h3 h5
        obtain ⟨hkeep, _⟩ := updateSyntaxFuel_cascade f
          { E with row := E.row.set k (updateSyntaxRow E s E.row[k]), syn := some s } (k + 1) hidx1
          (by simp only [List.length_set]; omega) (by simpa using hk1) (by omega)
          (by simp only [List.length_set]; omega)
        refine ⟨m + 1, ?_, by omega, by omega, ?_, ?_⟩
        · rw [h1]
          simp [List.range'_succ]
        · intro j hj1 hj2
          by_cases hjk : j = k
          · subst hjk
            rw [carryFlag_congr _ _ j (hkeep j (by omega))]
            simp only [carryFlag, List.getD_eq_getElem?_getD, List.getElem?_set_self hk, hrow,
              Option.getD_some]
            have := hcas.1
            simp only [decide_eq_true_eq] at this
            exact fun e => this e.symm
          · have := h4 j (by omega) (by omega)
            have e2 :
                carryFlag
                  { E with row := E.row.set k (updateSyntaxRow E s E.row[k]), syn := some s } j =
                  carryFlag E j :=
              carryFlag_congr E _ j (List.getElem?_set_ne (by omega))
            rw [e2] at this
            exact this
        · rcases h5 with h5 | h5
          · left
            omega
          · right
            have e : k + (m + 1) - 1 = k + 1 + m - 1 := by omega
            rw [e, h5]
            exact carryFlag_congr E _ _ (List.getElem?_set_ne (by omega))
      · rw [if_neg hcas, if_neg hcas]
        refine ⟨1, by simp, le_refl _, by omega, fun j h1 h2 => by omega, ?_⟩
        by_cases hlast : k + 1 = E.row.length
        · exact Or.inl hlast
        · right
          have hch : ¬ (decide (E.row[k].hl_open_comment ≠
              (updateSyntaxRow E s E.row[k]).hl_open_comment) = true) := by
            intro hc
            apply hcas
            refine ⟨hc, ?_⟩
            rw [hrowidx, hn]
            omega
          simp only [decide_eq_true_eq, not_not] at hch
          simp only [carryFlag, List.getD_eq_getElem?_getD, Nat.add_sub_cancel,
            List.getElem?_set_self hk, hrow, Option.getD_some]
          exact hch.symm

/-- C25: in a well-formed buffer whose ruleset is none or the C ruleset, the
call `editorUpdateSyntax(&E.row[i])` for `i < numrows` ends.  Every pass leaves
its loop within `rsize` iterations, and the scan positions at the start of its
iterations are strictly increasing and below `rsize`.  With any bound of at
least `numrows - i` on the depth of the recursion, the calls run their passes
on the rows `i, i + 1, ..., i + m - 1` in this order, with
`1 ≤ m ≤ numrows - i`; every one of these rows but the last has its carry flag
changed, and the last is the last row of the buffer or has its carry flag
unchanged. -/
theorem C25_update_syntax_ends (E : editorConfig) (i : Nat) (hwf : rowsIndexed E)
    (hs : E.syn = none ∨ E.syn = some HLDB_c) (hi : (i : Int) < E.numrows) :
    (∀ (render : List Nat) (seed : Bool),
      ∃ tr, hlLoopTrace HLDB_c render render.length
          { i := 0, hl := List.replicate render.length HL_NORMAL, prev_sep := true,
            in_string := 0, in_comment := seed } = some (hlRow HLDB_c render seed, tr) ∧
        tr.length ≤ render.length ∧ (∀ p ∈ tr, p < render.length) ∧ tr.Pairwise (· < ·)) ∧
    (∀ fuel : Nat, E.numrows - i ≤ fuel →
      ∃ m, updateSyntaxTrace fuel E i = some (editorUpdateSyntax E i, List.range' i m) ∧
        1 ≤ m ∧ (i : Int) + m ≤ E.numrows ∧
        (∀ j, i ≤ j → j + 1 < i + m → carryFlag (editorUpdateSyntax E i) j ≠ carryFlag E j) ∧
        ((i : Int) + m = E.numrows ∨
          carryFlag (editorUpdateSyntax E i) (i + m - 1) = carryFlag E (i + m - 1))) := by
  have hn := hwf.1
  have hidx := idx_of_rowsIndexed E hwf
  constructor
  · intro render seed
    obtain ⟨tr, h1, h2, h3, h4⟩ := hlLoopTrace_spec render render.length
      { i := 0, hl := List.replicate render.length HL_NORMAL, prev_sep := true,
        in_string := 0, in_comment := seed } (by simp)
    exact ⟨tr, h1, by simpa using h2, fun p hp => (h3 p hp).2, h4⟩
  · intro fuel hf
    have hk : i < E.row.length := by omega
    obtain ⟨m, h1, h2, h3, h4, h5⟩ := updateSyntaxTrace_spec fuel E i hidx hn hk (by omega)
    have he : editorUpdateSyntaxFuel fuel E i = editorUpdateSyntax E i :=
      updateSyntaxFuel_fuel fuel E.row.length E i hidx (by omega) (by omega) (by omega)
        (by omega) (by omega)
    rw [he] at h1 h4 h5
    refine ⟨m, h1, h2, by omega, h4, ?_⟩
    rcases h5 with h5 | h5
    · left
      omega
    · exact Or.inr h5

/-- C25, at row 0 of the buffer `commentScenario`, whose three rows are
consistent: the pass over row 0 leaves its carry flag as it is, so row 0 is
the only row visited. -/
theorem C25_update_syntax_ends_witness :
    rowsIndexed commentScenario ∧ commentScenario.syn = some HLDB_c ∧
    ∃ m, updateSyntaxTrace 3 commentScenario 0 =
        some (editorUpdateSyntax commentScenario 0, List.range' 0 m) ∧
      1 ≤ m ∧ (0 : Int) + m ≤ commentScenario.numrows ∧
      (∀ j, 0 ≤ j → j + 1 < 0 + m →
        carryFlag (editorUpdateSyntax commentScenario 0) j ≠ carryFlag commentScenario j) ∧
      ((0 : Int) + m = commentScenario.numrows ∨
        carryFlag (editorUpdateSyntax commentScenario 0) (0 + m - 1) =
          carryFlag commentScenario (0 + m - 1)) :=
  ⟨by decide, by decide,
    (C25_update_syntax_ends commentScenario 0 (by decide) (Or.inr (by decide)) (by decide)).2 3
      (by decide)⟩

/-- The cascade of C25 on a buffer whose rows below are stale: after the `/`
of the open marker on row 0 of `commentScenario` is gone, the call on row 0
visits the rows 0, 1, 2. -/
theorem updateSyntaxTrace_example :
    (updateSyntaxTrace 3
      { commentScenario with row := (commentScenario.row.set 0
          { commentScenario.row.getD 0 default with render := bytes "a * x" }) } 0).map
      (fun p => p.2) = some [0, 1, 2] := by
  decide

/-! ## A drawn line shows the window of its row -/

theorem stripColor_reset (tail : List Nat) :
    stripColor false ([27, 91, 51, 57, 109] ++ tail) = stripColor false tail := by
  simp [stripColor]

theorem stripColor_color (hl : Nat) (tail : List Nat) :
    stripColor false (snprintfColor (editorSyntaxToColor hl) ++ tail) =
      stripColor false tail := by
  have h36 : snprintfColor 36 = [27, 91, 51, 54, 109] := by decide
  have h33 : snprintfColor 33 = [27, 91, 51, 51, 109] := by decide
  have h32 : snprintfColor 32 = [27, 91, 51, 50, 109] := by decide
  have h35 : snprintfColor 35 = [27, 91, 51, 53, 109] := by decide
  have h31 : snprintfColor 31 = [27, 91, 51, 49, 109] := by decide
  have h34 : snprintfColor 34 = [27, 91, 51, 52, 109] := by decide
  have h37 : snprintfColor 37 = [27, 91, 51, 55, 109] := by decide
  unfold editorSyntaxToColor
  split_ifs <;> simp only [h36, h33, h32, h35, h31, h34, h37] <;> simp [stripColor]

theorem stripColor_char (c : Nat) (tail : List Nat) (h : iscntrl c = false) :
    stripColor false ([c] ++ tail) = c :: stripColor false tail := by
  have hc : c ≠ 27 := by
    rintro rfl
    simp [iscntrl] at h
  simp [stripColor, hc]

theorem drawCell_spec (c hl : Nat) (st : List Nat × Int) (h : iscntrl c = false) :
    ∃ chunk, (drawCell c hl st).1 = st.1 ++ chunk ∧
      ∀ tail, stripColor false (chunk ++ tail) = c :: stripColor false tail := by
  unfold drawCell
  rw [h]
  simp only [Bool.false_eq_true, if_false]
  split_ifs
  · refine ⟨[27, 91, 51, 57, 109] ++ [c], by simp, fun tail => ?_⟩
    rw [List.append_assoc, stripColor_reset, stripColor_char c tail h]
  · exact ⟨[c], rfl, fun tail => stripColor_char c tail h⟩
  · refine ⟨snprintfColor (editorSyntaxToColor hl) ++ [c], by simp, fun tail => ?_⟩
    rw [List.append_assoc, stripColor_color, stripColor_char c tail h]
  · exact ⟨[c], rfl, fun tail => stripColor_char c tail h⟩

theorem drawCells_spec (c hl : List Nat) :
    ∀ n : Nat, n ≤ c.length → (∀ j, j < n → iscntrl (c.getD j 0) = false) →
      ∀ tail, stripColor false
          (((List.range n).foldl (fun st j => drawCell (c.getD j 0) (hl.getD j 0) st)
            ([], -1)).1 ++ tail) = c.take n ++ stripColor false tail := by
  intro n
  induction n with
  | zero => intro _ _ tail; simp
  | succ n ih =>
    intro hn hc tail
    rw [List.range_succ, List.foldl_append]
    simp only [List.foldl_cons, List.foldl_nil]
    obtain ⟨chunk, h1, h2⟩ := drawCell_spec (c.getD n 0) (hl.getD n 0)
      ((List.range n).foldl (fun st j => drawCell (c.getD j 0) (hl.getD j 0) st) ([], -1))
      (hc n (by omega))
    rw [h1, List.append_assoc, ih (by omega) (fun j hj => hc j (by omega)), h2]
    rw [take_succ_getD c n 0 (by omega)]
    simp

theorem editorDrawRows_lines (E : editorConfig) (ab : List Nat) :
    editorDrawRows E ab =
      ab ++ ((List.range E.screenrows.toNat).map (fun (r : Nat) => drawLine E (r : Int))).flatten := by
  unfold editorDrawRows
  generalize List.range E.screenrows.toNat = rs
  induction rs generalizing ab with
  | nil => simp
  | cons r rest ih => simp [ih]

theorem window_eq (render : List Nat) (a sc n : Nat)
    (hn : n = min (render.length - a) sc) :
    (render.drop a).take n = renderWindow render a (min render.length (a + sc)) := by
  unfold renderWindow
  apply List.ext_getElem?
  intro j
  simp only [List.getElem?_take, List.getElem?_drop]
  by_cases hj : j < n
  · have h2 : a + j < min render.length (a + sc) := by omega
    simp [hj, h2]
  · simp only [hj, if_false]
    by_cases h2 : a + j < min render.length (a + sc)
    · omega
    · simp only [h2, if_false]

theorem drawRowCells_spec (row : erow) (coloff screencols : Int) (hco : 0 ≤ coloff)
    (hsc : 0 ≤ screencols)
    (hctl : ∀ c ∈ renderWindow row.render coloff.toNat
      (min row.render.length (coloff.toNat + screencols.toNat)), iscntrl c = false) :
    stripColor false (drawRowCells row coloff screencols) =
      renderWindow row.render coloff.toNat
        (min row.render.length (coloff.toNat + screencols.toNat)) := by
  have key : ∀ n : Nat, n = min (row.render.length - coloff.toNat) screencols.toNat →
      stripColor false
        (((List.range n).foldl
          (fun st j => drawCell ((row.render.drop coloff.toNat).getD j 0)
            ((row.hl.drop coloff.toNat).getD j 0) st) ([], -1)).1 ++ [27, 91, 51, 57, 109]) =
      renderWindow row.render coloff.toNat
        (min row.render.length (coloff.toNat + screencols.toNat)) := by
    intro n hn
    have hw := window_eq row.render coloff.toNat screencols.toNat n hn
    have hlen : n ≤ (row.render.drop coloff.toNat).length := by
      simp only [List.length_drop]
      omega
    rw [drawCells_spec _ _ n hlen ?_ [27, 91, 51, 57, 109], hw]
    · simp [stripColor]
    · intro j hj
      apply hctl
      rw [← hw]
      rw [List.getD_eq_getElem?_getD, List.getElem?_eq_getElem (by omega)]
      simp only [Option.getD_some]
      exact List.mem_take_iff_getElem.2 ⟨j, by omega, rfl⟩
  unfold drawRowCells
  dsimp only
  apply key
  simp only [erow.rsize]
  split_ifs <;> omega

/-- C26: for every screen line `r` that shows an existing row `R` of the
buffer, with `coloff ≥ 0`, `screencols ≥ 0` and no control character in
`render[coloff .. min(rsize, coloff + screencols))` of `R`: the bytes that
`editorDrawRows` appends for the line are a body followed by the line clear
`ESC [ K` and the line break, and the body without its escape sequences is
exactly `render[coloff .. min(rsize, coloff + screencols))`, which is empty
when `coloff ≥ rsize`; `editorDrawRows` appends the lines one after the
other. -/
theorem C26_drawn_line_is_window (E : editorConfig) (r : Nat) (hr : (r : Int) < E.screenrows)
    (hrow : 0 ≤ (r : Int) + E.rowoff ∧ (r : Int) + E.rowoff < E.numrows)
    (hco : 0 ≤ E.coloff) (hsc : 0 ≤ E.screencols)
    (hctl : ∀ c ∈ renderWindow (rowAt E (r + E.rowoff)).render E.coloff.toNat
      (min (rowAt E (r + E.rowoff)).render.length (E.coloff.toNat + E.screencols.toNat)),
      iscntrl c = false) :
    (∀ ab, editorDrawRows E ab =
      ab ++ ((List.range E.screenrows.toNat).map (fun (k : Nat) => drawLine E (k : Int))).flatten) ∧
    r ∈ List.range E.screenrows.toNat ∧
    (∃ body, drawLine E r = body ++ [27, 91, 75] ++ [13, 10] ∧
      stripColor false body =
        renderWindow (rowAt E (r + E.rowoff)).render E.coloff.toNat
          (min (rowAt E (r + E.rowoff)).render.length
            (E.coloff.toNat + E.screencols.toNat))) ∧
    ((rowAt E (r + E.rowoff)).rsize ≤ E.coloff →
      renderWindow (rowAt E (r + E.rowoff)).render E.coloff.toNat
        (min (rowAt E (r + E.rowoff)).render.length
          (E.coloff.toNat + E.screencols.toNat)) = []) := by
  refine ⟨editorDrawRows_lines E, by simp; omega, ?_, ?_⟩
  · refine ⟨drawRowCells (rowAt E (r + E.rowoff)) E.coloff E.screencols, ?_,
      drawRowCells_spec _ _ _ hco hsc hctl⟩
    unfold drawLine
    rw [if_neg (by omega)]
  · intro h
    simp only [erow.rsize] at h
    unfold renderWindow
    apply List.drop_eq_nil_of_le
    simp only [List.length_take]
    omega

/-- C26, at screen line 0 of the buffer `commentScenario`, which shows the
row `a /* x` with the comment in cyan: the line is `a `, the color sequence
for 36, `/* x`, the reset sequence, the line clear and the line break, and its
body without the escape sequences is `a /* x`. -/
theorem C26_drawn_line_is_window_witness :
    drawLine commentScenario ((0 : Nat) : Int) =
      bytes "a " ++ [27, 91, 51, 54, 109] ++ bytes "/* x" ++ [27, 91, 51, 57, 109] ++
        [27, 91, 75] ++ [13, 10] ∧
    renderWindow (rowAt commentScenario ((0 : Nat) + commentScenario.rowoff)).render
        commentScenario.coloff.toNat
        (min (rowAt commentScenario ((0 : Nat) + commentScenario.rowoff)).render.length
          (commentScenario.coloff.toNat + commentScenario.screencols.toNat)) = bytes "a /* x" ∧
    ∃ body, drawLine commentScenario ((0 : Nat) : Int) = body ++ [27, 91, 75] ++ [13, 10] ∧
      stripColor false body =
        renderWindow (rowAt commentScenario ((0 : Nat) + commentScenario.rowoff)).render
          commentScenario.coloff.toNat
          (min (rowAt commentScenario ((0 : Nat) + commentScenario.rowoff)).render.length
            (commentScenario.coloff.toNat + commentScenario.screencols.toNat)) :=
  ⟨by decide, by decide,
    (C26_drawn_line_is_window commentScenario 0 (by decide) (by decide) (by decide) (by decide)
      (by decide)).2.2.1⟩

/-! ## The render sequence and the render columns agree -/

theorem padToStop_eq : ∀ (fuel : Nat) (r : List Nat),
    (HELIS_TAB_STOP - r.length % HELIS_TAB_STOP) % HELIS_TAB_STOP ≤ fuel →
      padToStop fuel r =
        r ++ List.replicate ((HELIS_TAB_STOP - r.length % HELIS_TAB_STOP) % HELIS_TAB_STOP) 32 := by
  intro fuel
  induction fuel with
  | zero =>
    intro r hr
    have h0 : (HELIS_TAB_STOP - r.length % HELIS_TAB_STOP) % HELIS_TAB_STOP = 0 := by omega
    rw [h0]
    simp [padToStop]
  | succ n ih =>
    intro r hr
    simp only [padToStop]
    split_ifs with hne
    · rw [ih (r ++ [32]) (by
        simp only [List.length_append, List.length_singleton, HELIS_TAB_STOP] at hr hne ⊢
        omega)]
      have e : (HELIS_TAB_STOP - r.length % HELIS_TAB_STOP) % HELIS_TAB_STOP =
          (HELIS_TAB_STOP - (r ++ [32]).length % HELIS_TAB_STOP) % HELIS_TAB_STOP + 1 := by
        simp only [List.length_append, List.length_singleton, HELIS_TAB_STOP] at hne ⊢
        omega
      rw [e, List.replicate_succ, List.append_assoc]
      rfl
    · have h0 : (HELIS_TAB_STOP - r.length % HELIS_TAB_STOP) % HELIS_TAB_STOP = 0 := by
        simp only [HELIS_TAB_STOP, ne_eq, not_not] at hne ⊢
        omega
      rw [h0]
      simp

theorem renderChars_snoc (cs : List Nat) (c : Nat) :
    renderChars (cs ++ [c]) =
      renderChars cs ++
        (if c = 9 then
          List.replicate (HELIS_TAB_STOP - (renderChars cs).length % HELIS_TAB_STOP) 32
         else [c]) := by
  unfold renderChars
  rw [List.foldl_append]
  simp only [List.foldl_cons, List.foldl_nil]
  split_ifs with hc
  · rw [padToStop_eq _ _ (by
      simp only [HELIS_TAB_STOP]
      omega)]
    have e : HELIS_TAB_STOP - (List.foldl
          (fun render c => if c = 9 then padToStop HELIS_TAB_STOP (render ++ [32])
            else render ++ [c]) [] cs).length % HELIS_TAB_STOP =
        (HELIS_TAB_STOP - ((List.foldl
          (fun render c => if c = 9 then padToStop HELIS_TAB_STOP (render ++ [32])
            else render ++ [c]) [] cs) ++ [32]).length % HELIS_TAB_STOP) % HELIS_TAB_STOP + 1 := by
      simp only [List.length_append, List.length_singleton, HELIS_TAB_STOP]
      omega
    rw [e, List.replicate_succ, List.append_assoc]
    rfl
  · rfl

theorem renderChars_prefix (cs1 : List Nat) :
    ∀ cs2 : List Nat, renderChars cs1 <+: renderChars (cs1 ++ cs2) := by
  intro cs2
  induction cs2 generalizing cs1 with
  | nil => simp
  | cons c rest ih =>
    have h1 : renderChars cs1 <+: renderChars (cs1 ++ [c]) := by
      rw [renderChars_snoc]
      exact List.prefix_append _ _
    have h2 := ih (cs1 ++ [c])
    rw [List.append_assoc] at h2
    exact List.IsPrefix.trans h1 h2

theorem renderChars_length (row : erow) :
    ∀ n : Nat, n ≤ row.chars.length →
      (renderChars (row.chars.take n)).length = cxToRxLoop row n := by
  intro n
  induction n with
  | zero => intro _; simp [renderChars, cxToRxLoop]
  | succ n ih =>
    intro hn
    rw [take_succ_getD row.chars n 0 (by omega), renderChars_snoc, cxToRxLoop_succ,
      List.length_append, ih (by omega)]
    unfold rxAdvance
    split_ifs
    · simp only [List.length_replicate, HELIS_TAB_STOP]
      omega
    · simp

theorem prefix_getElem? {α : Type} (l1 l2 : List α) (h : l1 <+: l2) (p : Nat)
    (hp : p < l1.length) : l2[p]? = l1[p]? := by
  obtain ⟨t, rfl⟩ := h
  exact List.getElem?_append_left hp

theorem render_layout (row : erow) (h : row.render = renderChars row.chars) :
    row.rsize = editorRowCxToRx row row.size ∧
    (∀ j : Nat, j < row.chars.length → row.chars.getD j 0 ≠ 9 →
      row.render[(editorRowCxToRx row j).toNat]? = some (row.chars.getD j 0)) ∧
    (∀ j : Nat, j < row.chars.length → row.chars.getD j 0 = 9 →
      ∀ p : Nat, editorRowCxToRx row j ≤ (p : Int) → (p : Int) < editorRowCxToRx row (j + 1) →
        row.render[p]? = some 32) := by
  have hcol : ∀ j : Nat, editorRowCxToRx row (j : Int) = (cxToRxLoop row j : Nat) := by
    intro j
    simp [editorRowCxToRx]
  have hstep : ∀ j : Nat, j < row.chars.length → ∀ p : Nat,
      p < (renderChars (row.chars.take (j + 1))).length →
      row.render[p]? = (renderChars (row.chars.take (j + 1)))[p]? := by
    intro j hj p hp
    rw [h]
    have := renderChars_prefix (row.chars.take (j + 1)) (row.chars.drop (j + 1))
    rw [List.take_append_drop] at this
    exact prefix_getElem? _ _ this p hp
  refine ⟨?_, ?_, ?_⟩
  · have := renderChars_length row row.chars.length (le_refl _)
    rw [List.take_length] at this
    simp only [erow.rsize, erow.size, hcol, h, this]
  · intro j hj hc
    have hl := renderChars_length row j (by omega)
    have hl1 := renderChars_length row (j + 1) (by omega)
    have hlt := cxToRxLoop_lt_succ row j
    rw [hcol, Int.toNat_ofNat, hstep j hj _ (by omega)]
    rw [take_succ_getD row.chars j 0 hj, renderChars_snoc, if_neg hc,
      List.getElem?_append_right (by omega), hl]
    simp
  · intro j hj hc p h1 h2
    have hl := renderChars_length row j (by omega)
    have hl1 := renderChars_length row (j + 1) (by omega)
    have e : ((j : Nat) : Int) + 1 = ((j + 1 : Nat) : Int) := by push_cast; rfl
    rw [hcol] at h1
    rw [e, hcol] at h2
    rw [hstep j hj p (by omega)]
    rw [take_succ_getD row.chars j 0 hj, renderChars_snoc, if_pos hc,
      List.getElem?_append_right (by omega)]
    rw [take_succ_getD row.chars j 0 hj, renderChars_snoc, if_pos hc, List.length_append,
      List.length_replicate] at hl1
    rw [List.getElem?_replicate]
    rw [if_pos (by omega)]

theorem updateRow_render (E : editorConfig) (k : Nat) (row : erow)
    (hrow : (editorUpdateRow E k).row[k]? = some row) :
    row.render = renderChars row.chars := by
  have hk : k < E.row.length := by
    have := lt_length_of_getElem? hrow
    rwa [updateRow_length] at this
  have hold : E.row[k]? = some E.row[k] := List.getElem?_eq_getElem hk
  have hr : ((editorUpdateRow E k).row.getD k default).render =
      renderChars E.row[k].chars := by
    rw [updateRow_eq E k _ hold, updateSyntaxFuel_render]
    simp [List.getD_eq_getElem?_getD, List.getElem?_set_self hk]
  have hc := congrArg (fun l => l[k]?) (updateRow_chars_map E k)
  simp only [List.getElem?_map, hrow, hold, Option.map_some', Option.some.injEq] at hc
  rw [List.getD_eq_getElem?_getD, hrow] at hr
  rw [hc]
  exact hr

/-- C27: for every row after `editorUpdateRow` on it, the render sequence
agrees with `editorRowCxToRx`: `rsize` is the render column of `size`; for
every `j < size` whose character is not a tab, the render sequence holds that
character at the render column of `j`; and for every `j < size` whose
character is a tab, every render position from the render column of `j` up to
the one before the render column of `j + 1` holds a space. -/
theorem C27_render_agrees_with_columns (E : editorConfig) (k : Nat) (row : erow)
    (hrow : (editorUpdateRow E k).row[k]? = some row) :
    row.rsize = editorRowCxToRx row row.size ∧
    (∀ j : Nat, (j : Int) < row.size → row.chars.getD j 0 ≠ 9 →
      row.render[(editorRowCxToRx row j).toNat]? = some (row.chars.getD j 0)) ∧
    (∀ j : Nat, (j : Int) < row.size → row.chars.getD j 0 = 9 →
      ∀ p : Nat, editorRowCxToRx row j ≤ (p : Int) → (p : Int) < editorRowCxToRx row (j + 1) →
        row.render[p]? = some 32) := by
  obtain ⟨h1, h2, h3⟩ := render_layout row (updateRow_render E k row hrow)
  refine ⟨h1, fun j hj => h2 j ?_, fun j hj => h3 j ?_⟩ <;>
    (simp only [erow.size] at hj; omega)

/-- C27, at row 1 of the buffer `commentScenario`, whose characters are a
tab and `int y`: the render sequence is four spaces and `int y`. -/
theorem C27_render_agrees_with_columns_witness :
    (editorUpdateRow commentScenario 1).row[1]? =
      some ((editorUpdateRow commentScenario 1).row.getD 1 default) ∧
    ((editorUpdateRow commentScenario 1).row.getD 1 default).chars = bytes "\tint y" ∧
    ((editorUpdateRow commentScenario 1).row.getD 1 default).render = bytes "    int y" ∧
    ((editorUpdateRow commentScenario 1).row.getD 1 default).rsize =
      editorRowCxToRx ((editorUpdateRow commentScenario 1).row.getD 1 default)
        ((editorUpdateRow commentScenario 1).row.getD 1 default).size :=
  ⟨by decide, by decide, by decide,
    (C27_render_agrees_with_columns commentScenario 1
      ((editorUpdateRow commentScenario 1).row.getD 1 default) (by decide)).1⟩

end Helis
